import Mathlib

/-! The data structures of ludtm: the LRU cache of `lru.h`, the hash map of `hashmap.h`,
the binary search tree of `btree.h` and the singly linked list of `slist.h`.

A shallow embedding of the C sources and the properties of their operations.

* A C string is the list of its `char` values before the terminating NUL (`Key`);
  `strcmp(a, b) == 0` is equality of these lists and `strdup` copies the list.
* A node of the cache or of the hash map is identified by its address (a `Nat`).  The state
  holds the node store (`nodes`: address to node contents, `none` when nothing is allocated
  there), for every bucket the sequence of node addresses met from `first`, and for the
  cache the recency list as the sequence of node addresses met from `lru_head.next` to
  `lru_head.prev`.
* A binary tree is the tree of its nodes, NULL being the empty tree.
* A singly linked list is its head (`first`, `last`) with the `next` pointer of every node
  address; its loops run on a bounded number of iterations.
* `unsigned int` is a `Nat` reduced modulo `2^32`, `unsigned long` modulo `2^64`.
-/

namespace Ludtm

/-- A C string: its `char` values before the terminating NUL. -/
abbrev Key := List Int

/-! ## hashmap.h -/

/-- The loop of `hash_function`: `while ((c = *str++)) hash = ((hash << 5) + hash) + c;`
on an `unsigned long` (64 bits); `c` is an `int` converted to `unsigned long`. -/
def hash_loop (hash : Nat) : Key → Nat
  | [] => hash
  | c :: str =>
    hash_loop (Int.toNat ((((((hash <<< 5) % 2 ^ 64 + hash) % 2 ^ 64 : Nat) : Int) + c) % 2 ^ 64)) str

/-- The djb2 hash `hash_function` of hashmap.h. -/
def hash_function (str : Key) : Nat :=
  hash_loop 5381 str

/-! ## list.h -/

/-- Modelled from the spec: list.h is not among the sources. `list_add(new, head)` is the
recency list's `pushFront`: it inserts the entry as the new most-recently-used item. -/
def list_add (new : Nat) (head : List Nat) : List Nat :=
  new :: head

/-- Modelled from the spec: list.h is not among the sources. `list_del(entry)` is the
recency list's `remove`: it unlinks an arbitrary entry given its own links. -/
def list_del (entry : Nat) (head : List Nat) : List Nat :=
  head.erase entry

/-- Modelled from the spec: list.h is not among the sources. `list_move(entry, head)` is the
recency list's `moveToFront`: it unlinks the entry from its current position and re-inserts
it at the front. -/
def list_move (entry : Nat) (head : List Nat) : List Nat :=
  list_add entry (list_del entry head)

/-- Modelled from the spec: list.h is not among the sources. `hlist_add_head(n, h)` is the
hash index's `insert`: it places the entry at the head of its chain. -/
def hlist_add_head (n : Nat) (h : List Nat) : List Nat :=
  n :: h

/-- Modelled from the spec: list.h is not among the sources. `hlist_del(n)` is the hash
index's `remove`: it unlinks the entry from its chain. -/
def hlist_del (n : Nat) (h : List Nat) : List Nat :=
  h.erase n

/-! ## lru.h -/

/-- The payload of `lru_node_t`; its two linkages are the positions of its address in the
bucket chain and in the recency list. -/
structure lru_node where
  key : Key
  value : Int
deriving DecidableEq, Repr

/-- The `lru_cache_t` record together with the nodes it owns. -/
structure lru_cache where
  capacity : Nat
  count : Nat
  bucket_size : Nat
  lru_head : List Nat
  buckets : List (List Nat)
  nodes : Nat → Option lru_node

/-- The comparison `strcmp(entry->key, key) == 0` at the node stored at `pos`. -/
def key_matches (cache : lru_cache) (key : Key) (pos : Nat) : Bool :=
  match cache.nodes pos with
  | some entry => decide (entry.key = key)
  | none => false

/-- Function `cache_lookup`: the first node of bucket `hash % bucket_size` whose key is `key`. -/
def cache_lookup (cache : lru_cache) (key : Key) : Option Nat :=
  let hash := hash_function key
  let index := (hash % cache.bucket_size) % 2 ^ 32
  let head := cache.buckets.getD index []
  head.find? (key_matches cache key)

/-- Function `free_node`: unlink from the hash chain (if linked), unlink from the recency
list (if linked), free the memory. -/
def free_node (cache : lru_cache) (node : Nat) : lru_cache :=
  { cache with
    buckets := cache.buckets.map (fun h => if node ∈ h then hlist_del node h else h)
    lru_head := if node ∈ cache.lru_head then list_del node cache.lru_head else cache.lru_head
    nodes := Function.update cache.nodes node none }

/-- Function `lru_cache_create`; the two flags say whether the `malloc` of the cache record
and of the bucket array succeed. `none` is the NULL result. -/
def lru_cache_create (capacity bucket_size : Nat) (malloc_cache malloc_buckets : Bool) :
    Option lru_cache :=
  if capacity = 0 ∨ bucket_size = 0 then none
  else if !malloc_cache then none
  else if !malloc_buckets then none
  else some
    { capacity := capacity
      bucket_size := bucket_size
      count := 0
      lru_head := []
      buckets := List.replicate bucket_size []
      nodes := fun _ => none }

/-- What `lru_cache_get` leaves behind: the return code, the content of `*value`, the cache. -/
structure get_result where
  ret : Int
  value : Int
  cache : lru_cache

/-- Function `lru_cache_get`; `value` is the content of `*value` before the call. -/
def lru_cache_get (cache : lru_cache) (key : Key) (value : Int) : get_result :=
  match cache_lookup cache key with
  | some node =>
    { ret := 1
      value := match cache.nodes node with
        | some n => n.value
        | none => value
      cache := { cache with lru_head := list_move node cache.lru_head } }
  | none => { ret := 0, value := value, cache := cache }

/-- The outcome of the two allocations of `lru_cache_put`. -/
inductive Malloc where
  /-- the call `malloc(sizeof(lru_node_t))` returns NULL -/
  | node_null
  /-- the node is allocated at `node`, `strdup(key)` returns NULL -/
  | key_null (node : Nat)
  /-- the node is allocated at `node` and the key is copied -/
  | ok (node : Nat)
deriving DecidableEq, Repr

/-- The address handed out by `malloc`, if any. -/
def Malloc.addr : Malloc → Option Nat
  | .node_null => none
  | .key_null node => some node
  | .ok node => some node

/-- Step 2.1 of `lru_cache_put`: `if (cache->count >= cache->capacity)` free the node at
`lru_head.prev` and decrement `count`. With an empty list `lru_head.prev` is no node: the
behaviour is undefined (`none`). -/
def lru_evict (cache : lru_cache) : Option lru_cache :=
  if cache.count ≥ cache.capacity then
    match cache.lru_head.getLast? with
    | some lru_node =>
      let cache := free_node cache lru_node
      some { cache with count := (cache.count + 2 ^ 32 - 1) % 2 ^ 32 }
    | none => none
  else some cache

/-- Function `lru_cache_put`: the return code and the cache after the call (`none`: undefined
behaviour, see `lru_evict`). -/
def lru_cache_put (cache : lru_cache) (key : Key) (value : Int) (mem : Malloc) :
    Option (Int × lru_cache) :=
  match cache_lookup cache key with
  | some node =>
    some (0,
      { cache with
        nodes := Function.update cache.nodes node
          ((cache.nodes node).map (fun n => { n with value := value }))
        lru_head := list_move node cache.lru_head })
  | none =>
    match lru_evict cache with
    | none => none
    | some cache =>
      match mem with
      | .node_null => some (-1, cache)
      | .key_null _ => some (-1, cache)
      | .ok new_node =>
        let hash := hash_function key
        let index := (hash % cache.bucket_size) % 2 ^ 32
        some (0,
          { cache with
            nodes := Function.update cache.nodes new_node (some { key := key, value := value })
            buckets := cache.buckets.set index (hlist_add_head new_node (cache.buckets.getD index []))
            lru_head := list_add new_node cache.lru_head
            count := (cache.count + 1) % 2 ^ 32 })

/-! ## Views of a state -/

/-- The key and value stored at an address. -/
def entry_at (cache : lru_cache) (a : Nat) : Option (Key × Int) :=
  (cache.nodes a).map (fun n => (n.key, n.value))

/-- The (key, value) pairs met on the recency list from `lru_head.next` to `lru_head.prev`
(what `lru_cache_print` prints). -/
def lru_entries (cache : lru_cache) : List (Key × Int) :=
  cache.lru_head.filterMap (entry_at cache)

/-- The keys met on the recency list from `lru_head.next` to `lru_head.prev`. -/
def lru_keys (cache : lru_cache) : List Key :=
  (lru_entries cache).map Prod.fst

/-- The keys met when walking every bucket chain, bucket 0 first. -/
def bucket_keys (cache : lru_cache) : List Key :=
  (cache.buckets.flatten.filterMap (entry_at cache)).map Prod.fst

/-- The address returned by `malloc` is not the address of an allocated node at the time of
the call, which is after step 2.1 and only when the key is new. -/
def malloc_valid (cache : lru_cache) (key : Key) (mem : Malloc) : Prop :=
  cache_lookup cache key = none →
    ∀ c1, lru_evict cache = some c1 → ∀ a, mem.addr = some a → c1.nodes a = none

/-- The states reachable from `lru_cache_create(capacity, bucket_size)` by `lru_cache_get`
and `lru_cache_put` calls; `capacity` and `bucket_size` are `unsigned int`. -/
inductive Reachable (capacity bucket_size : Nat) : lru_cache → Prop
  | create (mc mb : Bool) (c : lru_cache) :
      capacity < 2 ^ 32 → bucket_size < 2 ^ 32 →
      lru_cache_create capacity bucket_size mc mb = some c → Reachable capacity bucket_size c
  | get (c : lru_cache) (key : Key) (value : Int) :
      Reachable capacity bucket_size c →
      Reachable capacity bucket_size (lru_cache_get c key value).cache
  | put (c : lru_cache) (key : Key) (value : Int) (mem : Malloc) (r : Int) (c' : lru_cache) :
      Reachable capacity bucket_size c → malloc_valid c key mem →
      lru_cache_put c key value mem = some (r, c') → Reachable capacity bucket_size c'

/-- The structural invariant of a cache: positive `unsigned int` sizes, one bucket per index,
a duplicate-free recency list of allocated nodes with pairwise different keys, every node of
the recency list linked once into the chain of its hash and nowhere else, and `count` the
length of the recency list, at most `capacity`. -/
structure WF (c : lru_cache) : Prop where
  cap_pos : 0 < c.capacity
  cap_lt : c.capacity < 2 ^ 32
  bs_pos : 0 < c.bucket_size
  len : c.buckets.length = c.bucket_size
  nodup : c.lru_head.Nodup
  live : ∀ a ∈ c.lru_head, ∃ n, c.nodes a = some n
  inj : ∀ a ∈ c.lru_head, ∀ b ∈ c.lru_head, ∀ na nb,
    c.nodes a = some na → c.nodes b = some nb → na.key = nb.key → a = b
  chain_nodup : ∀ i, (c.buckets.getD i []).Nodup
  chain_mem : ∀ i a, a ∈ c.buckets.getD i [] ↔
    a ∈ c.lru_head ∧ ∃ n, c.nodes a = some n ∧ (hash_function n.key % c.bucket_size) % 2 ^ 32 = i
  count_eq : c.count = c.lru_head.length
  count_le : c.count ≤ c.capacity

/-- No node of the recency list carries `key`. -/
def Absent (c : lru_cache) (key : Key) : Prop :=
  ∀ a ∈ c.lru_head, ∀ n, c.nodes a = some n → n.key ≠ key

/-! ## Sequences of calls -/

/-- A call of the public interface, with the content of `*value` for a get and the outcome
of the allocations for a put. -/
inductive Op where
  | get (key : Key) (value : Int)
  | put (key : Key) (value : Int) (mem : Malloc)
deriving DecidableEq, Repr

/-- The cache after one call (`none`: undefined behaviour). -/
def lru_step (cache : lru_cache) : Op → Option lru_cache
  | .get key value => some (lru_cache_get cache key value).cache
  | .put key value mem => (lru_cache_put cache key value mem).map Prod.snd

/-- The cache after a sequence of calls, first call first. -/
def run (cache : lru_cache) : List Op → Option lru_cache
  | [] => some cache
  | op :: ops => (lru_step cache op).bind (fun c => run c ops)

/-- The key an operation touches in the state it is applied to: a put touches its key, a get
touches its key when it hits. -/
def touched (cache : lru_cache) : Op → Option Key
  | .get key _ => if (cache_lookup cache key).isSome then some key else none
  | .put key _ _ => some key

/-- For every call of the sequence, in order, the key it touched. -/
def touch_log (cache : lru_cache) : List Op → List (Option Key)
  | [] => []
  | op :: ops =>
    touched cache op ::
      (match lru_step cache op with
       | some c => touch_log c ops
       | none => [])

/-- The position of the last entry of `log` equal to `some key`, where the head of `log` has
position `i`; 0 when there is none. -/
def last_touch_from (key : Key) : Nat → List (Option Key) → Nat
  | _, [] => 0
  | i, t :: log =>
    let r := last_touch_from key (i + 1) log
    if r ≠ 0 then r else if t = some key then i else 0

/-- The position (counted from 1) of the last operation that touched `key`; 0 when no
operation touched it. -/
def last_touch (log : List (Option Key)) (key : Key) : Nat :=
  last_touch_from key 1 log

/-- The allocations of one call succeed: a put that allocates is handed a node at an address
that is not in use, and its key copy succeeds. -/
def alloc_ok (cache : lru_cache) : Op → Prop
  | .get _ _ => True
  | .put key _ mem =>
    malloc_valid cache key mem ∧ (cache_lookup cache key = none → ∃ a, mem = .ok a)

/-- The allocations of every call of the sequence succeed. -/
def allocs_succeed (cache : lru_cache) : List Op → Prop
  | [] => True
  | op :: ops =>
    alloc_ok cache op ∧
    (match lru_step cache op with
     | some c => allocs_succeed c ops
     | none => True)

/-- The order invariant for a cache and the log of the keys touched so far: along the
recency list the position of the last touch strictly decreases, and every key of the list
has been touched. -/
def RecencyOrdered (c : lru_cache) (log : List (Option Key)) : Prop :=
  List.Pairwise (fun k1 k2 => last_touch log k2 < last_touch log k1) (lru_keys c) ∧
  ∀ k ∈ lru_keys c, 0 < last_touch log k

/-! ## A concrete run

A cache of capacity 2 with 16 buckets: `put("A", 10)`, `put("B", 20)` fill it, and
`put("C", 30)` evicts "A" and is handed the address that was just freed. -/

/-- The string "A". -/
def keyA : Key := [65]

/-- The string "B". -/
def keyB : Key := [66]

/-- The string "C". -/
def keyC : Key := [67]

/-- The cache after a successful put whose node is allocated at `a`. -/
def put_ok (c : lru_cache) (k : Key) (v : Int) (a : Nat) : lru_cache :=
  match lru_cache_put c k v (.ok a) with
  | some (_, c') => c'
  | none => c

/-- The result of `lru_cache_create(2, 16)`. -/
def demo0 : lru_cache :=
  { capacity := 2, bucket_size := 16, count := 0, lru_head := [],
    buckets := List.replicate 16 [], nodes := fun _ => none }

/-- Then `lru_cache_put(cache, "A", 10)`, node at address 100. -/
def demo1 : lru_cache := put_ok demo0 keyA 10 100

/-- Then `lru_cache_put(cache, "B", 20)`, node at address 101. -/
def demo2 : lru_cache := put_ok demo1 keyB 20 101

/-- The full cache `demo2` after step 2.1 of a put of a new key. -/
def demo2_evicted : lru_cache := (lru_evict demo2).getD demo2

/-- Then `lru_cache_put(cache, "C", 30)`, node at the freed address 100. -/
def demo3 : lru_cache := put_ok demo2 keyC 30 100

/-- The calls `put("A", 10)`, `put("B", 20)`, `get("A")`, `put("C", 30)`; the last one evicts
"B" and is handed the address 101 that was just freed. -/
def demo_ops : List Op :=
  [.put keyA 10 (.ok 100), .put keyB 20 (.ok 101), .get keyA 0, .put keyC 30 (.ok 101)]

/-- The cache of `demo2` after `get("A")`. -/
def demo2_get : lru_cache := (lru_cache_get demo2 keyA 0).cache

/-- The cache of `demo2_get` after step 2.1 of a put of a new key. -/
def demo2_get_evicted : lru_cache := (lru_evict demo2_get).getD demo2_get

/-- The cache after the calls of `demo_ops`. -/
def demo_final : lru_cache := put_ok demo2_get keyC 30 101

/-! ## The scenario of lru.c

`main` of lru.c on a cache of capacity 4 with 16 buckets; the nodes of "A" to "D" are
allocated at addresses 1 to 4, the node of "E" at the address freed by the eviction of "C"
and the node of "F" at a new address. -/

/-- The string "D". -/
def keyD : Key := [68]

/-- The string "E". -/
def keyE : Key := [69]

/-- The string "F". -/
def keyF : Key := [70]

/-- The string "Z". -/
def keyZ : Key := [90]

/-- The result of `lru_cache_create(CAPACITY, BUCKET_SIZE)`. -/
def main0 : lru_cache :=
  { capacity := 4, bucket_size := 16, count := 0, lru_head := [],
    buckets := List.replicate 16 [], nodes := fun _ => none }

/-- After `lru_cache_put(cache, "A", 10)`. -/
def main1 : lru_cache := put_ok main0 keyA 10 1

/-- After `lru_cache_put(cache, "B", 20)`. -/
def main2 : lru_cache := put_ok main1 keyB 20 2

/-- After `lru_cache_put(cache, "C", 30)`. -/
def main3 : lru_cache := put_ok main2 keyC 30 3

/-- After `lru_cache_put(cache, "D", 40)`. -/
def main4 : lru_cache := put_ok main3 keyD 40 4

/-- After `lru_cache_get(cache, "B", &value)`. -/
def main5 : lru_cache := (lru_cache_get main4 keyB 0).cache

/-- After `lru_cache_put(cache, "A", 15)`. -/
def main6 : lru_cache := put_ok main5 keyA 15 0

/-- After `lru_cache_put(cache, "E", 50)`. -/
def main7 : lru_cache := put_ok main6 keyE 50 3

/-- After `lru_cache_put(cache, "F", 60)`. -/
def main8 : lru_cache := put_ok main7 keyF 60 5

/-! ## hashmap.h: the hash map -/

/-- The payload of `struct hash_node`; its linkage is the position of its address in the
bucket chain. -/
structure hash_node where
  key : Key
  value : Int
deriving DecidableEq, Repr

/-- The `struct hash_map` record together with the nodes it owns. -/
structure hash_map where
  buckets : List (List Nat)
  size : Nat
  nodes : Nat → Option hash_node

/-- Function `hash_map_create`; the two flags say whether the `malloc` of the map record and
of the bucket array succeed. `none` is the NULL result. -/
def hash_map_create (size : Nat) (malloc_map malloc_buckets : Bool) : Option hash_map :=
  if size = 0 then none
  else if !malloc_map then none
  else if !malloc_buckets then none
  else some { buckets := List.replicate size [], size := size, nodes := fun _ => none }

/-- The comparison `strcmp(entry->key, key) == 0` at the node stored at `pos`. -/
def hash_key_matches (map : hash_map) (key : Key) (pos : Nat) : Bool :=
  match map.nodes pos with
  | some entry => decide (entry.key = key)
  | none => false

/-- Function `hash_map_lookup`: the first node of bucket `hash % size` whose key is `key`. -/
def hash_map_lookup (map : hash_map) (key : Key) : Option Nat :=
  let hash := hash_function key
  let index := (hash % map.size) % 2 ^ 32
  let head := map.buckets.getD index []
  head.find? (hash_key_matches map key)

/-- Function `hash_map_get`: the return code and the content of `*value` after the call;
`value` is the content of `*value` before the call. The map is not changed. -/
def hash_map_get (map : hash_map) (key : Key) (value : Int) : Int × Int :=
  match hash_map_lookup map key with
  | some node =>
    (1, match map.nodes node with
        | some n => n.value
        | none => value)
  | none => (0, value)

/-- Function `hash_map_insert`: the return code and the map after the call. -/
def hash_map_insert (map : hash_map) (key : Key) (value : Int) (mem : Malloc) :
    Int × hash_map :=
  match hash_map_lookup map key with
  | some entry =>
    (0, { map with
          nodes := Function.update map.nodes entry
            ((map.nodes entry).map (fun n => { n with value := value })) })
  | none =>
    match mem with
    | .node_null => (-1, map)
    | .key_null _ => (-1, map)
    | .ok entry =>
      let hash := hash_function key
      let index := (hash % map.size) % 2 ^ 32
      (0, { map with
            nodes := Function.update map.nodes entry (some { key := key, value := value })
            buckets := map.buckets.set index
              (hlist_add_head entry (map.buckets.getD index [])) })

/-- Function `hash_map_delete`. -/
def hash_map_delete (map : hash_map) (key : Key) : hash_map :=
  match hash_map_lookup map key with
  | some entry =>
    { map with
      buckets := map.buckets.map (hlist_del entry)
      nodes := Function.update map.nodes entry none }
  | none => map

/-- The number of nodes met when walking every bucket chain (the `Total elements` of
`hash_map_print`). -/
def hash_map_count (map : hash_map) : Nat :=
  map.buckets.flatten.length

/-- The keys met when walking every bucket chain, bucket 0 first. -/
def hash_map_keys (map : hash_map) : List Key :=
  map.buckets.flatten.filterMap (fun a => (map.nodes a).map (fun n => n.key))

/-- The address returned by `malloc` in `hash_map_insert`, which allocates only when the
key is new, is not the address of an allocated node. -/
def hash_malloc_valid (map : hash_map) (key : Key) (mem : Malloc) : Prop :=
  hash_map_lookup map key = none → ∀ a, mem.addr = some a → map.nodes a = none

/-- The maps reachable from `hash_map_create(size)` by `hash_map_insert` and
`hash_map_delete` calls (`hash_map_get` does not change the map); `size` is an
`unsigned int`. -/
inductive HashReachable (size : Nat) : hash_map → Prop
  | create (mm mb : Bool) (m : hash_map) :
      size < 2 ^ 32 → hash_map_create size mm mb = some m → HashReachable size m
  | insert (m : hash_map) (key : Key) (value : Int) (mem : Malloc) :
      HashReachable size m → hash_malloc_valid m key mem →
      HashReachable size (hash_map_insert m key value mem).2
  | delete (m : hash_map) (key : Key) :
      HashReachable size m → HashReachable size (hash_map_delete m key)

/-- The structural invariant of a hash map: a positive number of buckets, duplicate-free
chains of allocated nodes, every node in the chain of its hash, and pairwise different keys
within a chain. -/
structure HashWF (m : hash_map) : Prop where
  size_pos : 0 < m.size
  len : m.buckets.length = m.size
  chain_nodup : ∀ i, (m.buckets.getD i []).Nodup
  chain_ok : ∀ i a, a ∈ m.buckets.getD i [] →
    ∃ n, m.nodes a = some n ∧ (hash_function n.key % m.size) % 2 ^ 32 = i
  inj : ∀ i a b, a ∈ m.buckets.getD i [] → b ∈ m.buckets.getD i [] → ∀ na nb,
    m.nodes a = some na → m.nodes b = some nb → na.key = nb.key → a = b

/-- The result of `hash_map_create(16)`. -/
def hmap0 : hash_map :=
  { buckets := List.replicate 16 [], size := 16, nodes := fun _ => none }

/-- After `hash_map_insert(map, "A", 25)`, node at address 1. -/
def hmap1 : hash_map := (hash_map_insert hmap0 keyA 25 (.ok 1)).2

/-- After `hash_map_insert(map, "B", 30)`, node at address 2. -/
def hmap2 : hash_map := (hash_map_insert hmap1 keyB 30 (.ok 2)).2

/-! ## btree.h -/

/-- A `struct bt_node *`: NULL, or a node with its `data` and its `left` and `right`
subtrees. -/
inductive bt_node where
  | null : bt_node
  | node (data : Int) (left right : bt_node) : bt_node
deriving DecidableEq, Repr

/-- The loop of `bt_insert`: walk down from `*link` and link the new node at the first NULL
link; on equal data the new node is freed and the tree is left alone. -/
def bt_insert_loop : bt_node → Int → bt_node
  | .null, data => .node data .null .null
  | .node d l r, data =>
    if data < d then .node d (bt_insert_loop l data) r
    else if data > d then .node d l (bt_insert_loop r data)
    else .node d l r

/-- Function `bt_insert` on the tree held by `root`; the flag says whether `bt_new_node`
gets its memory. -/
def bt_insert (root : bt_node) (data : Int) (malloc_ok : Bool) : bt_node :=
  if !malloc_ok then root else bt_insert_loop root data

/-- Function `bt_search`: the node found, or NULL. -/
def bt_search : bt_node → Int → bt_node
  | .null, _ => .null
  | .node d l r, data =>
    if data < d then bt_search l data
    else if data > d then bt_search r data
    else .node d l r

/-- Function `bt_min_value_node`: follow `left` while it is not NULL. -/
def bt_min_value_node : bt_node → bt_node
  | .null => .null
  | .node d l r =>
    match l with
    | .null => .node d l r
    | .node _ _ _ => bt_min_value_node l

/-- Function `bt_delete`. In the two-children case `temp` is the minimum node of the right
subtree, which is not NULL there. -/
def bt_delete : bt_node → Int → bt_node
  | .null, _ => .null
  | .node d l r, data =>
    if data < d then .node d (bt_delete l data) r
    else if data > d then .node d l (bt_delete r data)
    else if l = .null then r
    else if r = .null then l
    else
      match bt_min_value_node r with
      | .node temp_data _ _ => .node temp_data l (bt_delete r temp_data)
      | .null => .node d l r

/-- Function `bt_inorder`: the data in the order it is printed. -/
def bt_inorder : bt_node → List Int
  | .null => []
  | .node d l r => bt_inorder l ++ d :: bt_inorder r

/-- The insert loop of `main` in btree.c: the values are inserted in order, every
allocation succeeding. -/
def bt_insert_all (root : bt_node) (values : List Int) : bt_node :=
  values.foldl (fun t x => bt_insert t x true) root

/-- The sequence sorted in ascending order with duplicates removed. -/
def sorted_dedup (values : List Int) : List Int :=
  List.insertionSort (· ≤ ·) values.dedup

/-- The values inserted by `main` in btree.c. -/
def bt_main_values : List Int := [5, 3, 7, 2, 4, 6, 8, 1, 9, 10]

/-- The tree of `main` in btree.c after the inserts. -/
def bt_main_tree : bt_node := bt_insert_all .null bt_main_values

/-! ## slist.h -/

/-- A `struct slist_head` together with the `next` field of the node at every address; a
pointer is `none` when it is NULL. -/
structure slist_head where
  first : Option Nat
  last : Option Nat
  next : Nat → Option Nat

/-- Function `slist_add_head`. -/
def slist_add_head (n : Nat) (h : slist_head) : slist_head :=
  if h.first = none then
    { first := some n, last := some n, next := Function.update h.next n none }
  else
    { h with next := Function.update h.next n h.first, first := some n }

/-- Function `slist_add_tail`; `none` when `h->last` is NULL where it is dereferenced. -/
def slist_add_tail (n : Nat) (h : slist_head) : Option slist_head :=
  let h := { h with next := Function.update h.next n none }
  if h.first = none then some { h with first := some n, last := some n }
  else
    match h.last with
    | none => none
    | some l => some { h with next := Function.update h.next l (some n), last := some n }

/-- Function `slist_pop_head`: the node returned and the list after the call. -/
def slist_pop_head (h : slist_head) : Option Nat × slist_head :=
  match h.first with
  | none => (none, h)
  | some n =>
    let h := { h with first := h.next n }
    let h := if h.first = none then { h with last := none } else h
    (some n, { h with next := Function.update h.next n none })

/-- Function `slist_add_after`. -/
def slist_add_after (pos n : Nat) (h : slist_head) : slist_head :=
  let h := { h with next := Function.update h.next n (h.next pos) }
  let h := { h with next := Function.update h.next pos (some n) }
  if h.last = some pos then { h with last := some n } else h

/-- A `struct slist_node **`: the address of `h->first` or of the `next` field of a node. -/
inductive slist_link where
  | head_first
  | node_next (a : Nat)
deriving DecidableEq, Repr

/-- The pointer stored at a link (`*pp`). -/
def slist_read (h : slist_head) : slist_link → Option Nat
  | .head_first => h.first
  | .node_next a => h.next a

/-- The assignment `*pp = p`. -/
def slist_write (h : slist_head) (pp : slist_link) (p : Option Nat) : slist_head :=
  match pp with
  | .head_first => { h with first := p }
  | .node_next a => { h with next := Function.update h.next a p }

/-- The body of `if (*pp == target)` in `slist_del`: `*pp = target->next`, then
`if (h->last == target) h->last = (*pp == NULL) ? NULL : h->last`, then
`target->next = NULL`. -/
def slist_unlink (h : slist_head) (pp : slist_link) (target : Nat) : slist_head :=
  let h := slist_write h pp (h.next target)
  let h :=
    if h.last = some target then
      { h with last := if slist_read h pp = none then none else h.last }
    else h
  { h with next := Function.update h.next target none }

/-- The loop of `slist_del` from the link `pp` on, for at most `fuel` iterations (`none`
when they do not suffice). -/
def slist_del_loop : Nat → Nat → slist_head → slist_link → Option slist_head
  | 0, _, _, _ => none
  | fuel + 1, target, h, pp =>
    match slist_read h pp with
    | none => some h
    | some p =>
      if p = target then some (slist_unlink h pp target)
      else slist_del_loop fuel target h (.node_next p)

/-- Function `slist_del`, its loop bounded by `fuel` iterations. -/
def slist_del (fuel : Nat) (target : Nat) (h : slist_head) : Option slist_head :=
  slist_del_loop fuel target h .head_first

/-- The nodes visited by `slist_for_each` from the pointer `pos`, at most `fuel` of them. -/
def slist_walk : Nat → (Nat → Option Nat) → Option Nat → List Nat
  | 0, _, _ => []
  | _ + 1, _, none => []
  | fuel + 1, next, some p => p :: slist_walk fuel next (next p)

/-- The sequence of nodes reachable from a pointer: `l` lists the nodes met from `pos` by
following `next` up to NULL. -/
def slist_chain (next : Nat → Option Nat) : Option Nat → List Nat → Prop
  | pos, [] => pos = none
  | pos, a :: l => pos = some a ∧ slist_chain next (next a) l

/-- A well-formed list with node sequence `l`: `first` leads through `l` to NULL and `last`
is the final node of `l`, NULL when `l` is empty. -/
def slist_wf (h : slist_head) (l : List Nat) : Prop :=
  slist_chain h.next h.first l ∧ h.last = l.getLast?

/-! ## slist.c -/

/-- The key of the `struct item` whose node is at address `a`: in the run below the item
with key `i` is allocated at address `i`. -/
def item_key (a : Nat) : Int := a

/-- Function `print_list` of slist.c: the keys printed, for a list of at most `fuel` nodes. -/
def print_list (fuel : Nat) (h : slist_head) : List Int :=
  (slist_walk fuel h.next h.first).map item_key

/-- The loop of `main` in slist.c that deletes the items with an even key:
`slist_for_each_safe` from `pos` on, for at most `fuel` iterations. -/
def slist_remove_even : Nat → slist_head → Option Nat → Option slist_head
  | 0, _, _ => none
  | fuel + 1, h, pos =>
    match pos with
    | none => some h
    | some p =>
      let n := h.next p
      if (item_key p).tmod 2 = 0 then
        match slist_del (fuel + 1) p h with
        | some h => slist_remove_even fuel h n
        | none => none
      else slist_remove_even fuel h n

/-- The `SLIST_HEAD(head)` of `main`. -/
def slist_main0 : slist_head :=
  { first := none, last := none, next := fun _ => none }

/-- After `slist_add_head` of the items 0, 1, 2. -/
def slist_main1 : slist_head :=
  slist_add_head 2 (slist_add_head 1 (slist_add_head 0 slist_main0))

/-- After `slist_add_tail` of the items 3, 4, 5. -/
def slist_main2 : slist_head :=
  (((slist_add_tail 3 slist_main1).bind (slist_add_tail 4)).bind (slist_add_tail 5)).getD
    slist_main1

/-- After `slist_pop_head`. -/
def slist_main3 : slist_head := (slist_pop_head slist_main2).2

/-- After the deletion of the items with an even key. -/
def slist_main4 : slist_head :=
  (slist_remove_even 6 slist_main3 slist_main3.first).getD slist_main3

/-! ## The hash function as the specification words it -/

/-- The djb2 hash in the words of the specification: the left fold over the bytes of
`h -> (h * 33 + byte) mod 2^64`, starting from 5381. -/
def djb2 (bytes : List Nat) : Nat :=
  bytes.foldl (fun h b => (h * 33 + b) % 2 ^ 64) 5381

/-! ## btree.h: the validator -/

/-- The `INT_MIN` of `<limits.h>` for a 32-bit `int`. -/
def INT_MIN : Int := -2147483648

/-- The `INT_MAX` of `<limits.h>` for a 32-bit `int`. -/
def INT_MAX : Int := 2147483647

/-- The result of an `int` addition or subtraction in 32-bit two's complement arithmetic:
the value reduced into `INT_MIN .. INT_MAX` modulo `2^32`. -/
def wrap_int (x : Int) : Int :=
  (x + 2 ^ 31) % 2 ^ 32 - 2 ^ 31

/-- Function `bt_is_bst_util`; `node->data - 1` and `node->data + 1` are 32-bit `int`
results. -/
def bt_is_bst_util : bt_node → Int → Int → Int
  | .null, _, _ => 1
  | .node d l r, min, max =>
    if d < min ∨ d > max then 0
    else if bt_is_bst_util l min (wrap_int (d - 1)) ≠ 0 ∧
        bt_is_bst_util r (wrap_int (d + 1)) max ≠ 0 then 1
    else 0

/-- Function `bt_is_bst`. -/
def bt_is_bst (node : bt_node) : Int :=
  bt_is_bst_util node INT_MIN INT_MAX

/-- A tree of C ints: every `data` is in `INT_MIN .. INT_MAX`. -/
def bt_int_range : bt_node → Prop
  | .null => True
  | .node d l r => INT_MIN ≤ d ∧ d ≤ INT_MAX ∧ bt_int_range l ∧ bt_int_range r

/-- A strict binary search tree: at every node, every value in the left subtree is less than
the node's data and every value in the right subtree is greater. -/
def strict_bst : bt_node → Prop
  | .null => True
  | .node d l r =>
    (∀ x ∈ bt_inorder l, x < d) ∧ (∀ x ∈ bt_inorder r, d < x) ∧ strict_bst l ∧ strict_bst r

/-- No value is linked on the side where the validator's bound wraps around: a node holding
`INT_MIN` has no left child and a node holding `INT_MAX` has no right child. -/
def bt_no_wrap : bt_node → Prop
  | .null => True
  | .node d l r =>
    (d = INT_MIN → l = .null) ∧ (d = INT_MAX → r = .null) ∧ bt_no_wrap l ∧ bt_no_wrap r

/-- The tree with root `INT_MIN` and the left child 5. -/
def bt_min_left : bt_node := .node INT_MIN (.node 5 .null .null) .null

/-- The tree with root `INT_MAX` and the right child 5. -/
def bt_max_right : bt_node := .node INT_MAX .null (.node 5 .null .null)

/-! ## slist.h: the tail pointer -/

/-- The list [1, 2], built from the empty head by `slist_add_tail` of the nodes 1 and 2. -/
def slist_two : slist_head :=
  ((slist_add_tail 1 slist_main0).bind (slist_add_tail 2)).getD slist_main0

/-- The list `slist_two` after `slist_del` of its last node 2. -/
def slist_two_del : slist_head := (slist_del 3 2 slist_two).getD slist_two

/-- The full cache `demo2` after `lru_cache_put(cache, "C", 30)` with the node at the new
address 102: the node of "A" at address 100 is freed and stays free. -/
def demo4 : lru_cache := put_ok demo2 keyC 30 102

/-- The map `hmap2` after `hash_map_delete(map, "B")`. -/
def hmap3 : hash_map := hash_map_delete hmap2 keyB

/-! ## Lists -/

theorem getD_map_nil (f : List Nat → List Nat) (hf : f [] = []) (l : List (List Nat)) (i : Nat) :
    (l.map f).getD i [] = f (l.getD i []) := by
  simp only [List.getD_eq_getElem?_getD, List.getElem?_map]
  cases l[i]? <;> simp [hf]

theorem getD_set_eq (l : List (List Nat)) (i : Nat) (x : List Nat) (h : i < l.length) :
    (l.set i x).getD i [] = x := by
  simp [List.getD_eq_getElem?_getD, List.getElem?_set, h]

theorem getD_set_ne (l : List (List Nat)) (i j : Nat) (x : List Nat) (h : i ≠ j) :
    (l.set i x).getD j [] = l.getD j [] := by
  simp [List.getD_eq_getElem?_getD, List.getElem?_set, h]

theorem getD_replicate_nil (n i : Nat) :
    (List.replicate n ([] : List Nat)).getD i [] = [] := by
  simp only [List.getD_eq_getElem?_getD, List.getElem?_replicate]
  split <;> rfl

theorem mem_flatten_iff_getD (l : List (List Nat)) (a : Nat) :
    a ∈ l.flatten ↔ ∃ i, a ∈ l.getD i [] := by
  constructor
  · intro h
    obtain ⟨s, hs, ha⟩ := List.mem_flatten.mp h
    obtain ⟨i, hi, rfl⟩ := List.getElem_of_mem hs
    exact ⟨i, by simpa [List.getD_eq_getElem?_getD, List.getElem?_eq_getElem hi] using ha⟩
  · rintro ⟨i, hi⟩
    rw [List.getD_eq_getElem?_getD] at hi
    cases h : l[i]? with
    | none => simp [h] at hi
    | some s =>
      simp [h] at hi
      exact List.mem_flatten.mpr ⟨s, List.getElem?_mem h, hi⟩

theorem erase_getLast (l : List Nat) (t : Nat) (hn : l.Nodup) (ht : l.getLast? = some t) :
    l.erase t = l.dropLast := by
  obtain ⟨l', rfl⟩ : ∃ l', l = l' ++ [t] := by
    have hne : l ≠ [] := by rintro rfl; simp at ht
    refine ⟨l.dropLast, ?_⟩
    have := List.dropLast_append_getLast hne
    rw [List.getLast?_eq_getLast l hne] at ht
    simp at ht
    rw [← ht]; exact this.symm
  have hnot : t ∉ l' := by
    intro h
    have := List.nodup_append.mp hn
    exact this.2.2 h (by simp)
  rw [List.erase_append_right _ hnot]
  simp


theorem lookup_some {c : lru_cache} (h : WF c) {k : Key} {a : Nat}
    (hl : cache_lookup c k = some a) :
    a ∈ c.lru_head ∧ ∃ n, c.nodes a = some n ∧ n.key = k := by
  unfold cache_lookup at hl
  have hm := List.mem_of_find?_eq_some hl
  have hp := List.find?_some hl
  refine ⟨((h.chain_mem _ a).mp hm).1, ?_⟩
  unfold key_matches at hp
  cases hn : c.nodes a with
  | none => simp [hn] at hp
  | some n =>
    simp [hn] at hp
    exact ⟨n, rfl, hp⟩

theorem lookup_none {c : lru_cache} (h : WF c) {k : Key}
    (hl : cache_lookup c k = none) : Absent c k := by
  intro a ha n hn hk
  unfold cache_lookup at hl
  rw [List.find?_eq_none] at hl
  have hm : a ∈ c.buckets.getD ((hash_function k % c.bucket_size) % 2 ^ 32) [] :=
    (h.chain_mem _ a).mpr ⟨ha, n, hn, by rw [hk]⟩
  have := hl a hm
  simp [key_matches, hn, hk] at this

theorem lookup_of_mem {c : lru_cache} (h : WF c) {a : Nat} {n : lru_node}
    (ha : a ∈ c.lru_head) (hn : c.nodes a = some n) : cache_lookup c n.key = some a := by
  cases hl : cache_lookup c n.key with
  | none => exact absurd rfl (lookup_none h hl a ha n hn)
  | some b =>
    obtain ⟨hb, nb, hnb, hk⟩ := lookup_some h hl
    rw [h.inj b hb a ha nb n hnb hn hk]

theorem absent_lookup {c : lru_cache} (h : WF c) {k : Key} (ha : Absent c k) :
    cache_lookup c k = none := by
  cases hl : cache_lookup c k with
  | none => rfl
  | some b =>
    obtain ⟨hb, nb, hnb, hk⟩ := lookup_some h hl
    exact absurd hk (ha b hb nb hnb)

theorem wf_create {capacity bucket_size : Nat} {mc mb : Bool} {c : lru_cache}
    (hc : capacity < 2 ^ 32)
    (h : lru_cache_create capacity bucket_size mc mb = some c) : WF c := by
  unfold lru_cache_create at h
  split at h
  · simp at h
  · rename_i hz
    split at h
    · simp at h
    · split at h
      · simp at h
      · simp only [Option.some.injEq] at h
        subst h
        push_neg at hz
        refine ⟨Nat.pos_of_ne_zero hz.1, hc, Nat.pos_of_ne_zero hz.2, by simp, by simp,
          by simp, by simp, ?_, ?_, by simp, by simp⟩
        · intro i; simp only [getD_replicate_nil]; exact List.nodup_nil
        · intro i a; simp only [getD_replicate_nil]; simp

theorem wf_move {c : lru_cache} (h : WF c) {a : Nat} (ha : a ∈ c.lru_head) :
    WF { c with lru_head := list_move a c.lru_head } := by
  have hmem : ∀ x, x ∈ list_move a c.lru_head ↔ x ∈ c.lru_head := by
    intro x
    simp only [list_move, list_add, list_del, List.mem_cons]
    constructor
    · rintro (rfl | hx)
      · exact ha
      · exact List.mem_of_mem_erase hx
    · intro hx
      by_cases hxa : x = a
      · exact Or.inl hxa
      · exact Or.inr ((List.mem_erase_of_ne hxa).mpr hx)
  refine ⟨h.cap_pos, h.cap_lt, h.bs_pos, h.len, ?_, ?_, ?_, h.chain_nodup, ?_, ?_, ?_⟩
  · simp only [list_move, list_add, list_del]
    exact List.nodup_cons.mpr ⟨fun hx => (List.Nodup.mem_erase_iff h.nodup).mp hx |>.1 rfl,
      h.nodup.erase a⟩
  · intro x hx; exact h.live x ((hmem x).mp hx)
  · intro x hx y hy; exact h.inj x ((hmem x).mp hx) y ((hmem y).mp hy)
  · intro i x; simp only [hmem]; exact h.chain_mem i x
  · simp only [list_move, list_add, list_del, List.length_cons]
    rw [List.length_erase_of_mem ha, h.count_eq]
    have : 0 < c.lru_head.length := List.length_pos_of_mem ha
    omega
  · exact h.count_le

theorem wf_set_value {c : lru_cache} (h : WF c) {a : Nat} {n : lru_node} (v : Int)
    (hn : c.nodes a = some n) :
    WF { c with nodes := Function.update c.nodes a (some { n with value := v }) } := by
  have hnode : ∀ x m, Function.update c.nodes a (some { n with value := v }) x = some m →
      ∃ m', c.nodes x = some m' ∧ m'.key = m.key := by
    intro x m hx
    by_cases hxa : x = a
    · subst hxa
      simp at hx
      exact ⟨n, hn, by rw [← hx]⟩
    · rw [Function.update_noteq hxa] at hx
      exact ⟨m, hx, rfl⟩
  have hnode' : ∀ x m, c.nodes x = some m →
      ∃ m', Function.update c.nodes a (some { n with value := v }) x = some m' ∧ m'.key = m.key := by
    intro x m hx
    by_cases hxa : x = a
    · subst hxa
      rw [hn] at hx
      simp only [Option.some.injEq] at hx
      subst hx
      exact ⟨{ n with value := v }, by simp, rfl⟩
    · exact ⟨m, by rw [Function.update_noteq hxa]; exact hx, rfl⟩
  refine ⟨h.cap_pos, h.cap_lt, h.bs_pos, h.len, h.nodup, ?_, ?_, h.chain_nodup, ?_,
    h.count_eq, h.count_le⟩
  · intro x hx
    obtain ⟨m, hm⟩ := h.live x hx
    obtain ⟨m', hm', _⟩ := hnode' x m hm
    exact ⟨m', hm'⟩
  · intro x hx y hy nx ny hnx hny hk
    obtain ⟨mx, hmx, hkx⟩ := hnode x nx hnx
    obtain ⟨my, hmy, hky⟩ := hnode y ny hny
    exact h.inj x hx y hy mx my hmx hmy (by rw [hkx, hky, hk])
  · intro i x
    rw [h.chain_mem i x]
    constructor
    · rintro ⟨hx, m, hm, hi⟩
      obtain ⟨m', hm', hk⟩ := hnode' x m hm
      exact ⟨hx, m', hm', by rw [hk]; exact hi⟩
    · rintro ⟨hx, m, hm, hi⟩
      obtain ⟨m', hm', hk⟩ := hnode x m hm
      exact ⟨hx, m', hm', by rw [hk]; exact hi⟩


theorem evict_cases {c c1 : lru_cache} (h : WF c) (he : lru_evict c = some c1) :
    (c.count < c.capacity ∧ c1 = c) ∨
    (c.count = c.capacity ∧ ∃ t, c.lru_head.getLast? = some t ∧ t ∈ c.lru_head ∧
      c1 = { c with
        buckets := c.buckets.map (fun h => if t ∈ h then hlist_del t h else h)
        lru_head := c.lru_head.dropLast
        nodes := Function.update c.nodes t none
        count := c.count - 1 }) := by
  unfold lru_evict at he
  split at he
  · rename_i hge
    right
    have hcnt : c.count = c.capacity := le_antisymm h.count_le hge
    refine ⟨hcnt, ?_⟩
    cases ht : c.lru_head.getLast? with
    | none => simp [ht] at he
    | some t =>
      have htm : t ∈ c.lru_head := List.mem_of_getLast?_eq_some ht
      refine ⟨t, rfl, htm, ?_⟩
      simp only [ht, Option.some.injEq] at he
      rw [← he]
      have h1 := h.cap_pos
      have h2 := h.cap_lt
      have hc : (c.count + 2 ^ 32 - 1) % 2 ^ 32 = c.count - 1 := by
        rw [show c.count + 2 ^ 32 - 1 = (c.count - 1) + 2 ^ 32 by omega, Nat.add_mod_right]
        exact Nat.mod_eq_of_lt (by omega)
      simp only [free_node, htm, if_true, list_del, erase_getLast _ _ h.nodup ht, hc]
  · rename_i hlt
    left
    simp only [Option.some.injEq] at he
    exact ⟨by omega, he.symm⟩

theorem wf_evict {c c1 : lru_cache} (h : WF c) (he : lru_evict c = some c1) :
    WF c1 ∧ c1.count < c1.capacity := by
  rcases evict_cases h he with ⟨hlt, rfl⟩ | ⟨hcnt, t, ht, htm, rfl⟩
  · exact ⟨h, hlt⟩
  · have hd : c.lru_head.dropLast = c.lru_head.erase t := (erase_getLast _ _ h.nodup ht).symm
    have hmem : ∀ x, x ∈ c.lru_head.dropLast ↔ x ∈ c.lru_head ∧ x ≠ t := by
      intro x
      rw [hd, List.Nodup.mem_erase_iff h.nodup]
      exact and_comm
    have hf : ∀ i, (c.buckets.map (fun h => if t ∈ h then hlist_del t h else h)).getD i [] =
        (c.buckets.getD i []).erase t := by
      intro i
      rw [getD_map_nil _ (by simp)]
      split
      · rfl
      · rename_i hnm
        exact (List.erase_of_not_mem hnm).symm
    have hpos : 0 < c.lru_head.length := List.length_pos_of_mem htm
    refine ⟨⟨h.cap_pos, h.cap_lt, h.bs_pos, by simpa using h.len, ?_, ?_, ?_, ?_, ?_, ?_, ?_⟩, ?_⟩
    · show (c.lru_head.dropLast).Nodup
      rw [hd]; exact h.nodup.erase t
    · intro x hx
      obtain ⟨hx1, hx2⟩ := (hmem x).mp hx
      obtain ⟨n, hn⟩ := h.live x hx1
      exact ⟨n, by simp [Function.update_noteq hx2, hn]⟩
    · intro x hx y hy nx ny hnx hny hk
      obtain ⟨hx1, hx2⟩ := (hmem x).mp hx
      obtain ⟨hy1, hy2⟩ := (hmem y).mp hy
      simp only [Function.update_noteq hx2] at hnx
      simp only [Function.update_noteq hy2] at hny
      exact h.inj x hx1 y hy1 nx ny hnx hny hk
    · intro i
      show ((c.buckets.map (fun h => if t ∈ h then hlist_del t h else h)).getD i []).Nodup
      rw [hf]; exact (h.chain_nodup i).erase t
    · intro i x
      show x ∈ (c.buckets.map (fun h => if t ∈ h then hlist_del t h else h)).getD i [] ↔
        x ∈ c.lru_head.dropLast ∧ ∃ n, Function.update c.nodes t none x = some n ∧ _
      rw [hf, List.Nodup.mem_erase_iff (h.chain_nodup i), h.chain_mem i x, hmem]
      constructor
      · rintro ⟨hx2, hx1, n, hn, hi⟩
        exact ⟨⟨hx1, hx2⟩, n, by rw [Function.update_noteq hx2]; exact hn, hi⟩
      · rintro ⟨⟨hx1, hx2⟩, n, hn, hi⟩
        rw [Function.update_noteq hx2] at hn
        exact ⟨hx2, hx1, n, hn, hi⟩
    · show c.count - 1 = (c.lru_head.dropLast).length
      rw [List.length_dropLast, h.count_eq]
    · show c.count - 1 ≤ c.capacity
      have := h.count_le; omega
    · show c.count - 1 < c.capacity
      have := h.cap_pos; omega

theorem index_lt (k : Key) {bs : Nat} (h : 0 < bs) : (hash_function k % bs) % 2 ^ 32 < bs :=
  lt_of_le_of_lt (Nat.mod_le _ _) (Nat.mod_lt _ h)

theorem wf_insert {c : lru_cache} (h : WF c) (hlt : c.count < c.capacity) {a : Nat}
    (hfree : c.nodes a = none) {k : Key} (v : Int) (hk : Absent c k) :
    WF { c with
      nodes := Function.update c.nodes a (some { key := k, value := v })
      buckets := c.buckets.set ((hash_function k % c.bucket_size) % 2 ^ 32)
        (hlist_add_head a (c.buckets.getD ((hash_function k % c.bucket_size) % 2 ^ 32) []))
      lru_head := list_add a c.lru_head
      count := (c.count + 1) % 2 ^ 32 } := by
  have hna : a ∉ c.lru_head := by
    intro ha
    obtain ⟨n, hn⟩ := h.live a ha
    rw [hfree] at hn; exact absurd hn (by simp)
  have hne : ∀ x, x ∈ c.lru_head → x ≠ a := fun x hx hxa => hna (hxa ▸ hx)
  have hidx := index_lt k h.bs_pos
  have hidx' : (hash_function k % c.bucket_size) % 2 ^ 32 < c.buckets.length := by
    rw [h.len]; exact hidx
  refine ⟨h.cap_pos, h.cap_lt, h.bs_pos, by simpa using h.len, ?_, ?_, ?_, ?_, ?_, ?_, ?_⟩
  · exact List.nodup_cons.mpr ⟨hna, h.nodup⟩
  · intro x hx
    rcases List.mem_cons.mp hx with rfl | hx
    · exact ⟨_, Function.update_same _ _ _⟩
    · obtain ⟨n, hn⟩ := h.live x hx
      exact ⟨n, by simp [Function.update_noteq (hne x hx), hn]⟩
  · intro x hx y hy nx ny hnx hny hkk
    have hx' : x = a ∨ x ∈ c.lru_head := List.mem_cons.mp hx
    have hy' : y = a ∨ y ∈ c.lru_head := List.mem_cons.mp hy
    simp only at hnx hny
    rcases hx' with hxa | hx' <;> rcases hy' with hya | hy'
    · rw [hxa, hya]
    · rw [hxa, Function.update_same] at hnx
      rw [Function.update_noteq (hne y hy')] at hny
      simp only [Option.some.injEq] at hnx
      subst hnx
      exact absurd hkk.symm (hk y hy' ny hny)
    · rw [hya, Function.update_same] at hny
      rw [Function.update_noteq (hne x hx')] at hnx
      simp only [Option.some.injEq] at hny
      subst hny
      exact absurd hkk (hk x hx' nx hnx)
    · rw [Function.update_noteq (hne x hx')] at hnx
      rw [Function.update_noteq (hne y hy')] at hny
      exact h.inj x hx' y hy' nx ny hnx hny hkk
  · intro i
    simp only
    by_cases hi : (hash_function k % c.bucket_size) % 2 ^ 32 = i
    · subst hi
      rw [getD_set_eq _ _ _ hidx']
      refine List.nodup_cons.mpr ⟨?_, h.chain_nodup _⟩
      intro hm
      exact hna ((h.chain_mem _ a).mp hm).1
    · rw [getD_set_ne _ _ _ _ hi]; exact h.chain_nodup i
  · intro i x
    simp only [list_add, List.mem_cons]
    by_cases hi : (hash_function k % c.bucket_size) % 2 ^ 32 = i
    · subst hi
      rw [getD_set_eq _ _ _ hidx']
      simp only [hlist_add_head, List.mem_cons]
      by_cases hxa : x = a
      · subst hxa
        simp
      · simp only [hxa, false_or, Function.update_noteq hxa]
        exact h.chain_mem _ x
    · rw [getD_set_ne _ _ _ _ hi, h.chain_mem i x]
      by_cases hxa : x = a
      · subst hxa
        constructor
        · rintro ⟨hx, _⟩; exact absurd hx hna
        · rintro ⟨_, n, hn, hin⟩
          rw [Function.update_same] at hn
          simp only [Option.some.injEq] at hn
          subst hn
          exact absurd hin hi
      · simp only [hxa, false_or, Function.update_noteq hxa]
  · simp only [list_add, List.length_cons]
    have := h.cap_lt
    rw [Nat.mod_eq_of_lt (by omega), h.count_eq]
  · simp only
    have := h.cap_lt
    rw [Nat.mod_eq_of_lt (by omega)]
    omega


theorem evict_some {c : lru_cache} (h : WF c) : ∃ c1, lru_evict c = some c1 := by
  unfold lru_evict
  split
  · rename_i hge
    cases ht : c.lru_head.getLast? with
    | none =>
      have hnil : c.lru_head = [] := List.getLast?_eq_none_iff.mp ht
      have h1 := h.count_eq
      have h2 := h.cap_pos
      rw [hnil] at h1
      simp at h1
      omega
    | some t => exact ⟨_, rfl⟩
  · exact ⟨_, rfl⟩

theorem absent_evict {c c1 : lru_cache} (h : WF c) (he : lru_evict c = some c1) {k : Key}
    (hk : Absent c k) : Absent c1 k := by
  rcases evict_cases h he with ⟨_, rfl⟩ | ⟨_, t, ht, htm, rfl⟩
  · exact hk
  · intro x hx n hn
    have hx' : x ∈ c.lru_head.dropLast := hx
    rw [← erase_getLast _ _ h.nodup ht, List.Nodup.mem_erase_iff h.nodup] at hx'
    have hn' : Function.update c.nodes t none x = some n := hn
    rw [Function.update_noteq hx'.1] at hn'
    exact hk x hx'.2 n hn'

theorem get_hit {c : lru_cache} (h : WF c) {a : Nat} {n : lru_node}
    (ha : a ∈ c.lru_head) (hn : c.nodes a = some n) (v0 : Int) :
    lru_cache_get c n.key v0 =
      { ret := 1, value := n.value, cache := { c with lru_head := list_move a c.lru_head } } := by
  unfold lru_cache_get
  rw [lookup_of_mem h ha hn]
  simp only [hn]

theorem get_miss {c : lru_cache} (h : WF c) {k : Key} (hk : Absent c k) (v0 : Int) :
    lru_cache_get c k v0 = { ret := 0, value := v0, cache := c } := by
  unfold lru_cache_get
  rw [absent_lookup h hk]

theorem put_hit {c : lru_cache} (h : WF c) {a : Nat} {n : lru_node}
    (ha : a ∈ c.lru_head) (hn : c.nodes a = some n) (v : Int) (mem : Malloc) :
    lru_cache_put c n.key v mem = some (0,
      { c with
        nodes := Function.update c.nodes a (some { n with value := v })
        lru_head := list_move a c.lru_head }) := by
  unfold lru_cache_put
  rw [lookup_of_mem h ha hn]
  simp only [hn, Option.map_some']

theorem put_new {c c1 : lru_cache} (h : WF c) {k : Key} (hk : Absent c k)
    (he : lru_evict c = some c1) (v : Int) (mem : Malloc) :
    lru_cache_put c k v mem =
      match mem with
      | .node_null => some (-1, c1)
      | .key_null _ => some (-1, c1)
      | .ok a => some (0,
          { c1 with
            nodes := Function.update c1.nodes a (some { key := k, value := v })
            buckets := c1.buckets.set ((hash_function k % c1.bucket_size) % 2 ^ 32)
              (hlist_add_head a (c1.buckets.getD ((hash_function k % c1.bucket_size) % 2 ^ 32) []))
            lru_head := list_add a c1.lru_head
            count := (c1.count + 1) % 2 ^ 32 }) := by
  unfold lru_cache_put
  rw [absent_lookup h hk]
  simp only [he]

theorem present_or_absent (c : lru_cache) (k : Key) :
    (∃ a ∈ c.lru_head, ∃ n, c.nodes a = some n ∧ n.key = k) ∨ Absent c k := by
  by_cases hex : ∃ a ∈ c.lru_head, ∃ n, c.nodes a = some n ∧ n.key = k
  · exact Or.inl hex
  · right
    intro a ha n hn hk
    exact hex ⟨a, ha, n, hn, hk⟩

theorem wf_get {c : lru_cache} (h : WF c) (k : Key) (v0 : Int) :
    WF (lru_cache_get c k v0).cache := by
  rcases present_or_absent c k with ⟨a, ha, n, hn, rfl⟩ | hk
  · rw [get_hit h ha hn]; exact wf_move h ha
  · rw [get_miss h hk]; exact h

theorem wf_put {c c' : lru_cache} (h : WF c) {k : Key} {v : Int} {mem : Malloc} {r : Int}
    (hm : malloc_valid c k mem) (hp : lru_cache_put c k v mem = some (r, c')) : WF c' := by
  rcases present_or_absent c k with ⟨a, ha, n, hn, rfl⟩ | hk
  · rw [put_hit h ha hn] at hp
    simp only [Option.some.injEq, Prod.mk.injEq] at hp
    rw [← hp.2]
    exact wf_move (wf_set_value h v hn) ha
  · obtain ⟨c1, he⟩ := evict_some h
    rw [put_new h hk he] at hp
    obtain ⟨h1, hlt⟩ := wf_evict h he
    cases mem with
    | node_null =>
      simp only [Option.some.injEq, Prod.mk.injEq] at hp
      rw [← hp.2]; exact h1
    | key_null a =>
      simp only [Option.some.injEq, Prod.mk.injEq] at hp
      rw [← hp.2]; exact h1
    | ok a =>
      simp only [Option.some.injEq, Prod.mk.injEq] at hp
      rw [← hp.2]
      exact wf_insert h1 hlt (hm (absent_lookup h hk) c1 he a rfl) v (absent_evict h he hk)

theorem reachable_wf {capacity bucket_size : Nat} {c : lru_cache}
    (h : Reachable capacity bucket_size c) : WF c := by
  induction h with
  | create mc mb c hc _ hcr => exact wf_create hc hcr
  | get c key value _ ih => exact wf_get ih key value
  | put c key value mem r c' _ hm hp ih => exact wf_put ih hm hp

theorem filterMap_erase_key (f : Nat → Option (Key × Int)) (k : Key) (a : Nat) :
    ∀ l : List Nat, l.Nodup → (∀ x ∈ l, ∀ e, f x = some e → (e.1 = k ↔ x = a)) →
      (l.erase a).filterMap f = (l.filterMap f).filter (fun e => decide (e.1 ≠ k)) := by
  intro l
  induction l with
  | nil => intro _ _; rfl
  | cons x l ih =>
    intro hnd hkey
    have hnd' := List.nodup_cons.mp hnd
    have ih' := ih hnd'.2 (fun y hy => hkey y (List.mem_cons_of_mem _ hy))
    by_cases hxa : x = a
    · subst hxa
      rw [List.erase_cons_head]
      have hid : (l.filterMap f).filter (fun e => decide (e.1 ≠ k)) = l.filterMap f := by
        rw [List.filter_eq_self]
        intro e he
        obtain ⟨y, hy, hfy⟩ := List.mem_filterMap.mp he
        have hne : y ≠ x := fun hyx => hnd'.1 (hyx ▸ hy)
        have := hkey y (List.mem_cons_of_mem _ hy) e hfy
        simp only [ne_eq, decide_eq_true_eq]
        exact fun hek => hne (this.mp hek)
      cases hfx : f x with
      | none => rw [List.filterMap_cons_none hfx, hid]
      | some e =>
        rw [List.filterMap_cons_some hfx]
        have hek : e.1 = k := (hkey x (List.mem_cons_self _ _) e hfx).mpr rfl
        rw [List.filter_cons_of_neg (by simp [hek]), hid]
    · rw [List.erase_cons_tail (by simpa using hxa)]
      cases hfx : f x with
      | none => rw [List.filterMap_cons_none hfx, List.filterMap_cons_none hfx, ih']
      | some e =>
        rw [List.filterMap_cons_some hfx, List.filterMap_cons_some hfx]
        have hek : e.1 ≠ k := fun hek => hxa ((hkey x (List.mem_cons_self _ _) e hfx).mp hek)
        rw [List.filter_cons_of_pos (by simpa using hek), ih']

theorem filterMap_dropLast (f : Nat → Option (Key × Int)) :
    ∀ l : List Nat, (∀ x ∈ l, ∃ e, f x = some e) →
      l.dropLast.filterMap f = (l.filterMap f).dropLast := by
  intro l
  induction l with
  | nil => intro _; rfl
  | cons x l ih =>
    intro hall
    obtain ⟨e, he⟩ := hall x (List.mem_cons_self _ _)
    cases l with
    | nil => simp [he]
    | cons y l =>
      obtain ⟨e', he'⟩ := hall y (List.mem_cons_of_mem _ (List.mem_cons_self _ _))
      have ih' := ih (fun z hz => hall z (List.mem_cons_of_mem _ hz))
      rw [List.dropLast_cons₂, List.filterMap_cons_some he, ih', List.filterMap_cons_some he,
        List.filterMap_cons_some he', List.dropLast_cons₂]

theorem entry_at_some {c : lru_cache} {a : Nat} {n : lru_node} (hn : c.nodes a = some n) :
    entry_at c a = some (n.key, n.value) := by
  simp [entry_at, hn]

theorem entry_at_eq {c : lru_cache} {a : Nat} {e : Key × Int} (he : entry_at c a = some e) :
    ∃ n, c.nodes a = some n ∧ n.key = e.1 ∧ n.value = e.2 := by
  unfold entry_at at he
  cases hn : c.nodes a with
  | none => simp [hn] at he
  | some n =>
    simp [hn] at he
    exact ⟨n, rfl, by rw [← he], by rw [← he]⟩

theorem entries_length {c : lru_cache} (h : WF c) :
    (lru_entries c).length = c.lru_head.length := by
  unfold lru_entries
  have : ∀ l : List Nat, (∀ x ∈ l, ∃ n, c.nodes x = some n) →
      (l.filterMap (entry_at c)).length = l.length := by
    intro l
    induction l with
    | nil => intro _; rfl
    | cons x l ih =>
      intro hall
      obtain ⟨n, hn⟩ := hall x (List.mem_cons_self _ _)
      rw [List.filterMap_cons_some (entry_at_some hn), List.length_cons, List.length_cons,
        ih (fun z hz => hall z (List.mem_cons_of_mem _ hz))]
  exact this _ h.live

theorem mem_entries {c : lru_cache} {e : Key × Int} :
    e ∈ lru_entries c ↔ ∃ a ∈ c.lru_head, ∃ n, c.nodes a = some n ∧ n.key = e.1 ∧ n.value = e.2 := by
  unfold lru_entries
  rw [List.mem_filterMap]
  constructor
  · rintro ⟨a, ha, he⟩
    exact ⟨a, ha, entry_at_eq he⟩
  · rintro ⟨a, ha, n, hn, hk, hv⟩
    exact ⟨a, ha, by rw [entry_at_some hn, hk, hv]⟩

theorem mem_keys {c : lru_cache} {k : Key} :
    k ∈ lru_keys c ↔ ∃ a ∈ c.lru_head, ∃ n, c.nodes a = some n ∧ n.key = k := by
  unfold lru_keys
  rw [List.mem_map]
  constructor
  · rintro ⟨e, he, rfl⟩
    obtain ⟨a, ha, n, hn, hk, _⟩ := mem_entries.mp he
    exact ⟨a, ha, n, hn, hk⟩
  · rintro ⟨a, ha, n, hn, rfl⟩
    exact ⟨(n.key, n.value), mem_entries.mpr ⟨a, ha, n, hn, rfl, rfl⟩, rfl⟩

theorem absent_iff {c : lru_cache} {k : Key} : Absent c k ↔ k ∉ lru_keys c := by
  rw [mem_keys]
  constructor
  · rintro h ⟨a, ha, n, hn, hk⟩
    exact h a ha n hn hk
  · intro h a ha n hn hk
    exact h ⟨a, ha, n, hn, hk⟩

/-- The entries of the recency list after node `a` is moved to the front, whatever value
`a` then holds. -/
theorem entries_move {c : lru_cache} (h : WF c) {a : Nat} {n : lru_node}
    (ha : a ∈ c.lru_head) (hn : c.nodes a = some n) (m : lru_node) :
    lru_entries { c with nodes := Function.update c.nodes a (some m)
                         lru_head := list_move a c.lru_head } =
      (m.key, m.value) :: (lru_entries c).filter (fun e => decide (e.1 ≠ n.key)) := by
  unfold lru_entries
  simp only [list_move, list_add, list_del]
  have hea : entry_at { c with nodes := Function.update c.nodes a (some m)
                               lru_head := a :: c.lru_head.erase a } a = some (m.key, m.value) := by
    simp [entry_at]
  rw [List.filterMap_cons_some hea]
  congr 1
  rw [← filterMap_erase_key (entry_at c) n.key a c.lru_head h.nodup]
  · apply List.filterMap_congr
    intro x hx
    have hxa : x ≠ a := ((List.Nodup.mem_erase_iff h.nodup).mp hx).1
    simp [entry_at, Function.update_noteq hxa]
  · intro x hx e he
    obtain ⟨nx, hnx, hk, _⟩ := entry_at_eq he
    constructor
    · intro hek
      exact h.inj x hx a ha nx n hnx hn (by rw [hk, hek])
    · intro hxa
      subst hxa
      rw [hn] at hnx
      simp only [Option.some.injEq] at hnx
      rw [← hk, ← hnx]


theorem entries_move_same {c : lru_cache} (h : WF c) {a : Nat} {n : lru_node}
    (ha : a ∈ c.lru_head) (hn : c.nodes a = some n) :
    lru_entries { c with lru_head := list_move a c.lru_head } =
      (n.key, n.value) :: (lru_entries c).filter (fun e => decide (e.1 ≠ n.key)) := by
  have hu : Function.update c.nodes a (some n) = c.nodes := by
    rw [← hn]; exact Function.update_eq_self a c.nodes
  have := entries_move h ha hn n
  rw [hu] at this
  exact this

theorem entries_evict {c c1 : lru_cache} (h : WF c) (he : lru_evict c = some c1) :
    lru_entries c1 = if c.count = c.capacity then (lru_entries c).dropLast else lru_entries c := by
  rcases evict_cases h he with ⟨hlt, rfl⟩ | ⟨hcnt, t, ht, htm, rfl⟩
  · rw [if_neg (by omega)]
  · rw [if_pos hcnt]
    unfold lru_entries
    simp only
    rw [← filterMap_dropLast (entry_at c) c.lru_head
      (fun x hx => by obtain ⟨n, hn⟩ := h.live x hx; exact ⟨_, entry_at_some hn⟩)]
    apply List.filterMap_congr
    intro x hx
    rw [← erase_getLast _ _ h.nodup ht, List.Nodup.mem_erase_iff h.nodup] at hx
    simp [entry_at, Function.update_noteq hx.1]

theorem head_evict {c c1 : lru_cache} (h : WF c) (he : lru_evict c = some c1) :
    c1.lru_head = if c.count = c.capacity then c.lru_head.dropLast else c.lru_head := by
  rcases evict_cases h he with ⟨hlt, rfl⟩ | ⟨hcnt, t, ht, htm, rfl⟩
  · rw [if_neg (by omega)]
  · rw [if_pos hcnt]

theorem count_evict {c c1 : lru_cache} (h : WF c) (he : lru_evict c = some c1) :
    c1.count = if c.count = c.capacity then c.count - 1 else c.count := by
  rcases evict_cases h he with ⟨hlt, rfl⟩ | ⟨hcnt, t, ht, htm, rfl⟩
  · rw [if_neg (by omega)]
  · rw [if_pos hcnt]

theorem entries_insert {c : lru_cache} (h : WF c) {a : Nat} (hfree : c.nodes a = none)
    (k : Key) (v : Int) (bs : List (List Nat)) (cnt : Nat) :
    lru_entries { c with
      nodes := Function.update c.nodes a (some { key := k, value := v })
      buckets := bs
      lru_head := list_add a c.lru_head
      count := cnt } = (k, v) :: lru_entries c := by
  unfold lru_entries
  simp only [list_add]
  have hea : entry_at { c with
      nodes := Function.update c.nodes a (some { key := k, value := v })
      buckets := bs
      lru_head := a :: c.lru_head
      count := cnt } a = some (k, v) := by simp [entry_at]
  rw [List.filterMap_cons_some hea]
  congr 1
  apply List.filterMap_congr
  intro x hx
  have hxa : x ≠ a := by
    rintro rfl
    obtain ⟨n, hn⟩ := h.live x hx
    rw [hfree] at hn; exact absurd hn (by simp)
  simp [entry_at, Function.update_noteq hxa]

/-- What a successful put of a new key leaves behind. -/
theorem put_new_ok {c c' : lru_cache} (h : WF c) {k : Key} (hk : Absent c k) {v : Int}
    {mem : Malloc} (hm : malloc_valid c k mem)
    (hp : lru_cache_put c k v mem = some (0, c')) :
    WF c' ∧
    lru_entries c' =
      (k, v) :: (if c.count = c.capacity then (lru_entries c).dropLast else lru_entries c) ∧
    c'.count = min (c.count + 1) c.capacity ∧
    ∃ a, mem = .ok a ∧
      c'.lru_head = a :: (if c.count = c.capacity then c.lru_head.dropLast else c.lru_head) := by
  refine ⟨wf_put h hm hp, ?_⟩
  obtain ⟨c1, he⟩ := evict_some h
  obtain ⟨h1, hlt⟩ := wf_evict h he
  rw [put_new h hk he] at hp
  cases mem with
  | node_null => simp at hp
  | key_null a => simp at hp
  | ok a =>
    simp only [Option.some.injEq, Prod.mk.injEq, true_and] at hp
    have hfree : c1.nodes a = none := hm (absent_lookup h hk) c1 he a rfl
    have hcnt := count_evict h he
    have hcap := h.cap_lt
    have hcp := h.cap_pos
    have hle := h.count_le
    refine ⟨?_, ?_, a, rfl, ?_⟩
    · rw [← hp, entries_insert h1 hfree, entries_evict h he]
    · rw [← hp]
      show (c1.count + 1) % 2 ^ 32 = _
      rw [hcnt]
      split
      · rename_i heq
        rw [Nat.mod_eq_of_lt (by omega)]; omega
      · rw [Nat.mod_eq_of_lt (by omega)]; omega
    · rw [← hp]
      show list_add a c1.lru_head = _
      rw [head_evict h he]; rfl

/-- What a put of a key that is in the cache leaves behind. -/
theorem put_hit_ok {c : lru_cache} (h : WF c) {k : Key} {v0 : Int}
    (hk : (k, v0) ∈ lru_entries c) (v : Int) (mem : Malloc) :
    ∃ c' a, lru_cache_put c k v mem = some (0, c') ∧ WF c' ∧
      lru_entries c' = (k, v) :: (lru_entries c).filter (fun e => decide (e.1 ≠ k)) ∧
      c'.lru_head = a :: c.lru_head.erase a ∧ a ∈ c.lru_head ∧
      c'.count = c.count ∧ c'.buckets = c.buckets ∧
      c'.capacity = c.capacity ∧ c'.bucket_size = c.bucket_size := by
  obtain ⟨a, ha, n, hn, hkey, _⟩ := mem_entries.mp hk
  simp only at hkey
  subst hkey
  refine ⟨_, a, put_hit h ha hn v mem, wf_move (wf_set_value h v hn) ha, ?_, rfl, ha, rfl, rfl,
    rfl, rfl⟩
  exact entries_move h ha hn { n with value := v }

/-- What a get of a key that is in the cache leaves behind. -/
theorem get_hit_ok {c : lru_cache} (h : WF c) {k : Key} {v : Int}
    (hk : (k, v) ∈ lru_entries c) (v0 : Int) :
    ∃ a, lru_cache_get c k v0 =
        { ret := 1, value := v, cache := { c with lru_head := a :: c.lru_head.erase a } } ∧
      a ∈ c.lru_head ∧
      lru_entries (lru_cache_get c k v0).cache =
        (k, v) :: (lru_entries c).filter (fun e => decide (e.1 ≠ k)) := by
  obtain ⟨a, ha, n, hn, hkey, hval⟩ := mem_entries.mp hk
  simp only at hkey hval
  subst hkey hval
  refine ⟨a, get_hit h ha hn v0, ha, ?_⟩
  rw [get_hit h ha hn v0]
  exact entries_move_same h ha hn

theorem keys_nodup_of (c : lru_cache) :
    ∀ l : List Nat, l.Nodup →
      (∀ x ∈ l, ∀ y ∈ l, ∀ nx ny, c.nodes x = some nx → c.nodes y = some ny →
        nx.key = ny.key → x = y) →
      ((l.filterMap (entry_at c)).map Prod.fst).Nodup := by
  intro l
  induction l with
  | nil => intro _ _; exact List.nodup_nil
  | cons x l ih =>
    intro hnd hinj
    have hnd' := List.nodup_cons.mp hnd
    have ih' := ih hnd'.2 (fun y hy z hz => hinj y (List.mem_cons_of_mem _ hy) z
      (List.mem_cons_of_mem _ hz))
    cases hx : entry_at c x with
    | none => rw [List.filterMap_cons_none hx]; exact ih'
    | some e =>
      rw [List.filterMap_cons_some hx, List.map_cons]
      refine List.nodup_cons.mpr ⟨?_, ih'⟩
      intro hmem
      obtain ⟨e', he', hee⟩ := List.mem_map.mp hmem
      obtain ⟨y, hy, hfy⟩ := List.mem_filterMap.mp he'
      obtain ⟨nx, hnx, hkx, _⟩ := entry_at_eq hx
      obtain ⟨ny, hny, hky, _⟩ := entry_at_eq hfy
      have : x = y := hinj x (List.mem_cons_self _ _) y (List.mem_cons_of_mem _ hy) nx ny hnx hny
        (by rw [hkx, hky, hee])
      exact hnd'.1 (this ▸ hy)

theorem keys_nodup {c : lru_cache} (h : WF c) : (lru_keys c).Nodup :=
  keys_nodup_of c c.lru_head h.nodup h.inj

theorem get_ret_present {c : lru_cache} (h : WF c) {k : Key} (hk : k ∈ lru_keys c) (v0 : Int) :
    (lru_cache_get c k v0).ret = 1 := by
  obtain ⟨a, ha, n, hn, rfl⟩ := mem_keys.mp hk
  rw [get_hit h ha hn]

theorem get_ret_absent {c : lru_cache} (h : WF c) {k : Key} (hk : k ∉ lru_keys c) (v0 : Int) :
    (lru_cache_get c k v0).ret = 0 := by
  rw [get_miss h (absent_iff.mpr hk)]

theorem not_mem_dropLast_of_getLast {α : Type} (l : List α) (x : α) (hn : l.Nodup)
    (hl : l.getLast? = some x) : x ∉ l.dropLast := by
  have hne : l ≠ [] := by rintro rfl; simp at hl
  have hdl := List.dropLast_append_getLast hne
  rw [List.getLast?_eq_getLast l hne] at hl
  simp only [Option.some.injEq] at hl
  rw [hl] at hdl
  rw [← hdl] at hn
  intro hx
  exact (List.nodup_append.mp hn).2.2 hx (by simp)

theorem mem_dropLast_of_ne_getLast {α : Type} (l : List α) (x y : α)
    (hl : l.getLast? = some x) (hy : y ∈ l) (hyx : y ≠ x) : y ∈ l.dropLast := by
  have hne : l ≠ [] := by rintro rfl; simp at hl
  have hdl := List.dropLast_append_getLast hne
  rw [List.getLast?_eq_getLast l hne] at hl
  simp only [Option.some.injEq] at hl
  rw [hl] at hdl
  rw [← hdl] at hy
  rcases List.mem_append.mp hy with hy | hy
  · exact hy
  · simp at hy; exact absurd hy hyx


theorem malloc_valid_of {c : lru_cache} (k : Key) {mem : Malloc} {c1 : lru_cache}
    (he : lru_evict c = some c1) (hf : ∀ a, mem.addr = some a → c1.nodes a = none) :
    malloc_valid c k mem := by
  intro _ c2 he2 a ha
  rw [he] at he2
  cases he2
  exact hf a ha

theorem demo0_reachable : Reachable 2 16 demo0 :=
  Reachable.create true true demo0 (by decide) (by decide) rfl

theorem demo1_valid : malloc_valid demo0 keyA (.ok 100) :=
  malloc_valid_of keyA (show lru_evict demo0 = some demo0 from rfl)
    (fun a ha => by cases ha; rfl)

theorem demo1_put : lru_cache_put demo0 keyA 10 (.ok 100) = some (0, demo1) := rfl

theorem demo1_reachable : Reachable 2 16 demo1 :=
  Reachable.put demo0 keyA 10 (.ok 100) 0 demo1 demo0_reachable demo1_valid demo1_put

theorem demo2_valid : malloc_valid demo1 keyB (.ok 101) :=
  malloc_valid_of keyB (show lru_evict demo1 = some demo1 from rfl)
    (fun a ha => by cases ha; rfl)

theorem demo2_put : lru_cache_put demo1 keyB 20 (.ok 101) = some (0, demo2) := rfl

theorem demo2_reachable : Reachable 2 16 demo2 :=
  Reachable.put demo1 keyB 20 (.ok 101) 0 demo2 demo1_reachable demo2_valid demo2_put

theorem demo3_valid : malloc_valid demo2 keyC (.ok 100) :=
  malloc_valid_of keyC (show lru_evict demo2 = some demo2_evicted from rfl)
    (fun a ha => by cases ha; rfl)

theorem demo3_put : lru_cache_put demo2 keyC 30 (.ok 100) = some (0, demo3) := rfl

theorem reachable_sizes {capacity bucket_size : Nat} {c : lru_cache}
    (h : Reachable capacity bucket_size c) :
    c.capacity = capacity ∧ c.bucket_size = bucket_size := by
  induction h with
  | create mc mb c hc _ hcr =>
    unfold lru_cache_create at hcr
    split at hcr
    · simp at hcr
    · split at hcr
      · simp at hcr
      · split at hcr
        · simp at hcr
        · simp only [Option.some.injEq] at hcr
          subst hcr
          exact ⟨rfl, rfl⟩
  | get c key value hr ih =>
    unfold lru_cache_get
    split <;> exact ih
  | put c key value mem r c' hr hm hp ih =>
    have h := reachable_wf hr
    rcases present_or_absent c key with ⟨a, ha, n, hn, rfl⟩ | hk
    · rw [put_hit h ha hn] at hp
      simp only [Option.some.injEq, Prod.mk.injEq] at hp
      rw [← hp.2]; exact ih
    · obtain ⟨c1, he⟩ := evict_some h
      have h1 : c1.capacity = c.capacity ∧ c1.bucket_size = c.bucket_size := by
        rcases evict_cases h he with ⟨_, rfl⟩ | ⟨_, t, _, _, rfl⟩
        · exact ⟨rfl, rfl⟩
        · exact ⟨rfl, rfl⟩
      rw [put_new h hk he] at hp
      cases mem with
      | node_null =>
        simp only [Option.some.injEq, Prod.mk.injEq] at hp
        rw [← hp.2, h1.1, h1.2]; exact ih
      | key_null a =>
        simp only [Option.some.injEq, Prod.mk.injEq] at hp
        rw [← hp.2, h1.1, h1.2]; exact ih
      | ok a =>
        simp only [Option.some.injEq, Prod.mk.injEq] at hp
        rw [← hp.2]
        show c1.capacity = capacity ∧ c1.bucket_size = bucket_size
        rw [h1.1, h1.2]; exact ih

theorem mem_keys_of (c : lru_cache) (l : List Nat) (k : Key) :
    k ∈ (l.filterMap (entry_at c)).map Prod.fst ↔
      ∃ a ∈ l, ∃ n, c.nodes a = some n ∧ n.key = k := by
  rw [List.mem_map]
  constructor
  · rintro ⟨e, he, rfl⟩
    obtain ⟨a, ha, hea⟩ := List.mem_filterMap.mp he
    obtain ⟨n, hn, hk, _⟩ := entry_at_eq hea
    exact ⟨a, ha, n, hn, hk⟩
  · rintro ⟨a, ha, n, hn, rfl⟩
    exact ⟨(n.key, n.value), List.mem_filterMap.mpr ⟨a, ha, entry_at_some hn⟩, rfl⟩

theorem mem_flatten_iff {c : lru_cache} (h : WF c) (a : Nat) :
    a ∈ c.buckets.flatten ↔ a ∈ c.lru_head := by
  rw [mem_flatten_iff_getD]
  constructor
  · rintro ⟨i, hi⟩
    exact ((h.chain_mem i a).mp hi).1
  · intro ha
    obtain ⟨n, hn⟩ := h.live a ha
    exact ⟨_, (h.chain_mem _ a).mpr ⟨ha, n, hn, rfl⟩⟩

theorem flatten_nodup {c : lru_cache} (h : WF c) : c.buckets.flatten.Nodup := by
  rw [List.nodup_flatten]
  constructor
  · intro l hl
    obtain ⟨i, hi, rfl⟩ := List.getElem_of_mem hl
    have := h.chain_nodup i
    rwa [List.getD_eq_getElem?_getD, List.getElem?_eq_getElem hi] at this
  · rw [List.pairwise_iff_getElem]
    intro i j hi hj hij
    intro a hai haj
    have h1 : a ∈ c.buckets.getD i [] := by
      rwa [List.getD_eq_getElem?_getD, List.getElem?_eq_getElem hi]
    have h2 : a ∈ c.buckets.getD j [] := by
      rwa [List.getD_eq_getElem?_getD, List.getElem?_eq_getElem hj]
    obtain ⟨_, n1, hn1, hi1⟩ := (h.chain_mem i a).mp h1
    obtain ⟨_, n2, hn2, hi2⟩ := (h.chain_mem j a).mp h2
    rw [hn1] at hn2
    simp only [Option.some.injEq] at hn2
    subst hn2
    omega


/-! ## The cache protocol -/

/-- C4 (capacity bound): in every state reachable from `lru_cache_create(capacity,
bucket_size)` by get and put calls, `0 <= count <= capacity` for the capacity given at
creation, and the recency list holds at most `capacity` entries. -/
theorem capacity_bound (capacity bucket_size : Nat) (c : lru_cache)
    (h : Reachable capacity bucket_size c) :
    0 ≤ c.count ∧ c.count ≤ capacity ∧ c.capacity = capacity ∧
    c.lru_head.length ≤ capacity ∧ (lru_entries c).length ≤ capacity := by
  have hw := reachable_wf h
  have hs := (reachable_sizes h).1
  have h1 := hw.count_le
  have h2 := hw.count_eq
  rw [entries_length hw]
  omega

/-- The capacity bound of C4 after three puts into a cache of capacity 2. -/
theorem capacity_bound_witness :
    Reachable 2 16 demo3 ∧
    (0 ≤ demo3.count ∧ demo3.count ≤ 2 ∧ demo3.capacity = 2 ∧
      demo3.lru_head.length ≤ 2 ∧ (lru_entries demo3).length ≤ 2) :=
  have hr : Reachable 2 16 demo3 :=
    Reachable.put demo2 keyC 30 (.ok 100) 0 demo3 demo2_reachable demo3_valid demo3_put
  ⟨hr, capacity_bound 2 16 demo3 hr⟩

/-- C5 (key uniqueness): in every reachable state no two distinct entries, in the recency
list or in any bucket chain, carry equal keys; the recency list and the bucket chains hold
every node once, so the keys met on either walk are pairwise different. -/
theorem key_uniqueness (capacity bucket_size : Nat) (c : lru_cache)
    (h : Reachable capacity bucket_size c) :
    (∀ a b na nb, (a ∈ c.lru_head ∨ a ∈ c.buckets.flatten) →
      (b ∈ c.lru_head ∨ b ∈ c.buckets.flatten) →
      c.nodes a = some na → c.nodes b = some nb → na.key = nb.key → a = b) ∧
    (lru_keys c).Nodup ∧ (bucket_keys c).Nodup := by
  have hw := reachable_wf h
  have hin : ∀ a, (a ∈ c.lru_head ∨ a ∈ c.buckets.flatten) → a ∈ c.lru_head := by
    rintro a (ha | ha)
    · exact ha
    · exact (mem_flatten_iff hw a).mp ha
  refine ⟨?_, keys_nodup hw, ?_⟩
  · intro a b na nb ha hb
    exact hw.inj a (hin a ha) b (hin b hb) na nb
  · exact keys_nodup_of c _ (flatten_nodup hw)
      (fun x hx y hy => hw.inj x ((mem_flatten_iff hw x).mp hx) y ((mem_flatten_iff hw y).mp hy))

/-- Key uniqueness (C5) in the cache [C, B] reached through an eviction. -/
theorem key_uniqueness_witness :
    Reachable 2 16 demo3 ∧
    ((∀ a b na nb, (a ∈ demo3.lru_head ∨ a ∈ demo3.buckets.flatten) →
      (b ∈ demo3.lru_head ∨ b ∈ demo3.buckets.flatten) →
      demo3.nodes a = some na → demo3.nodes b = some nb → na.key = nb.key → a = b) ∧
    (lru_keys demo3).Nodup ∧ (bucket_keys demo3).Nodup) :=
  have hr : Reachable 2 16 demo3 :=
    Reachable.put demo2 keyC 30 (.ok 100) 0 demo3 demo2_reachable demo3_valid demo3_put
  ⟨hr, key_uniqueness 2 16 demo3 hr⟩


/-- C6 (get hit): in a reachable state where key `k` is present with value `v`,
`lru_cache_get` returns 1 and writes `v` to `*value`, moves the entry of `k` to the front of
the recency list, keeps the other entries in their order, and changes neither `count`, nor a
stored value, nor a bucket chain. -/
theorem get_hit_promotes (capacity bucket_size : Nat) (c : lru_cache)
    (h : Reachable capacity bucket_size c) (k : Key) (v : Int)
    (hk : (k, v) ∈ lru_entries c) (v0 : Int) :
    (lru_cache_get c k v0).ret = 1 ∧ (lru_cache_get c k v0).value = v ∧
    lru_entries (lru_cache_get c k v0).cache =
      (k, v) :: (lru_entries c).filter (fun e => decide (e.1 ≠ k)) ∧
    (∃ a, a ∈ c.lru_head ∧ entry_at c a = some (k, v) ∧
      (lru_cache_get c k v0).cache.lru_head = a :: c.lru_head.erase a) ∧
    (lru_cache_get c k v0).cache.count = c.count ∧
    (lru_cache_get c k v0).cache.nodes = c.nodes ∧
    (lru_cache_get c k v0).cache.buckets = c.buckets := by
  have hw := reachable_wf h
  obtain ⟨a, ha, n, hn, hkey, hval⟩ := mem_entries.mp hk
  simp only at hkey hval
  subst hkey hval
  rw [get_hit hw ha hn v0]
  exact ⟨rfl, rfl, entries_move_same hw ha hn, ⟨a, ha, entry_at_some hn, rfl⟩, rfl, rfl, rfl⟩

/-- A get hit (C6) on the LRU entry "A" of the cache [B, A]: the order becomes [A, B]. -/
theorem get_hit_promotes_witness :
    Reachable 2 16 demo2 ∧ (keyA, 10) ∈ lru_entries demo2 ∧
    ((lru_cache_get demo2 keyA 0).ret = 1 ∧ (lru_cache_get demo2 keyA 0).value = 10 ∧
    lru_entries (lru_cache_get demo2 keyA 0).cache =
      (keyA, 10) :: (lru_entries demo2).filter (fun e => decide (e.1 ≠ keyA)) ∧
    (∃ a, a ∈ demo2.lru_head ∧ entry_at demo2 a = some (keyA, 10) ∧
      (lru_cache_get demo2 keyA 0).cache.lru_head = a :: demo2.lru_head.erase a) ∧
    (lru_cache_get demo2 keyA 0).cache.count = demo2.count ∧
    (lru_cache_get demo2 keyA 0).cache.nodes = demo2.nodes ∧
    (lru_cache_get demo2 keyA 0).cache.buckets = demo2.buckets) :=
  ⟨demo2_reachable, by decide,
    get_hit_promotes 2 16 demo2 demo2_reachable keyA 10 (by decide) 0⟩

/-- C7 (get miss): in a reachable state where key `k` is not present, `lru_cache_get`
returns 0 and leaves the whole cache (recency order, bucket chains, stored values, `count`)
and the caller's `*value` unchanged. -/
theorem get_miss_no_effect (capacity bucket_size : Nat) (c : lru_cache)
    (h : Reachable capacity bucket_size c) (k : Key) (hk : k ∉ lru_keys c) (v0 : Int) :
    (lru_cache_get c k v0).ret = 0 ∧ (lru_cache_get c k v0).value = v0 ∧
    (lru_cache_get c k v0).cache = c := by
  rw [get_miss (reachable_wf h) (absent_iff.mpr hk) v0]
  exact ⟨rfl, rfl, rfl⟩

/-- A get miss (C7): "C" is not in the cache [B, A]. -/
theorem get_miss_no_effect_witness :
    Reachable 2 16 demo2 ∧ keyC ∉ lru_keys demo2 ∧
    ((lru_cache_get demo2 keyC 7).ret = 0 ∧ (lru_cache_get demo2 keyC 7).value = 7 ∧
    (lru_cache_get demo2 keyC 7).cache = demo2) :=
  ⟨demo2_reachable, by decide, get_miss_no_effect 2 16 demo2 demo2_reachable keyC (by decide) 7⟩

/-- C8 (put of an existing key): in a reachable state where key `k` is present,
`lru_cache_put(cache, k, v)` returns 0 whatever the allocator would do, stores `v` for `k`,
moves the entry of `k` to the front, keeps every other entry with its value and in its
order, evicts nothing (also at `count == capacity`) and leaves `count` and the bucket
chains unchanged. -/
theorem put_existing_updates (capacity bucket_size : Nat) (c : lru_cache)
    (h : Reachable capacity bucket_size c) (k : Key) (v_old v : Int)
    (hk : (k, v_old) ∈ lru_entries c) (mem : Malloc) :
    ∃ c', lru_cache_put c k v mem = some (0, c') ∧
      lru_entries c' = (k, v) :: (lru_entries c).filter (fun e => decide (e.1 ≠ k)) ∧
      (∃ a, a ∈ c.lru_head ∧ entry_at c a = some (k, v_old) ∧
        c'.lru_head = a :: c.lru_head.erase a ∧
        ∀ b, b ≠ a → c'.nodes b = c.nodes b) ∧
      c'.count = c.count ∧ (lru_entries c').length = (lru_entries c).length ∧
      c'.buckets = c.buckets := by
  have hw := reachable_wf h
  obtain ⟨a, ha, n, hn, hkey, hval⟩ := mem_entries.mp hk
  simp only at hkey hval
  subst hkey hval
  have hw' : WF { c with
      nodes := Function.update c.nodes a (some { n with value := v })
      lru_head := list_move a c.lru_head } := wf_move (wf_set_value hw v hn) ha
  refine ⟨_, put_hit hw ha hn v mem, entries_move hw ha hn { n with value := v },
    ⟨a, ha, entry_at_some hn, rfl, fun b hb => Function.update_noteq hb _ _⟩, rfl, ?_, rfl⟩
  rw [entries_length hw', entries_length hw]
  have := hw'.count_eq
  have := hw.count_eq
  simp only at *
  omega

/-- An update (C8) of "A" in the full cache [B, A], with an allocator that would fail. -/
theorem put_existing_updates_witness :
    Reachable 2 16 demo2 ∧ (keyA, 10) ∈ lru_entries demo2 ∧
    ∃ c', lru_cache_put demo2 keyA 15 .node_null = some (0, c') ∧
      lru_entries c' = (keyA, 15) :: (lru_entries demo2).filter (fun e => decide (e.1 ≠ keyA)) ∧
      (∃ a, a ∈ demo2.lru_head ∧ entry_at demo2 a = some (keyA, 10) ∧
        c'.lru_head = a :: demo2.lru_head.erase a ∧
        ∀ b, b ≠ a → c'.nodes b = demo2.nodes b) ∧
      c'.count = demo2.count ∧ (lru_entries c').length = (lru_entries demo2).length ∧
      c'.buckets = demo2.buckets :=
  ⟨demo2_reachable, by decide,
    put_existing_updates 2 16 demo2 demo2_reachable keyA 10 15 (by decide) .node_null⟩

/-- C9 (put of a new key): in a reachable state where key `k` is not present, a successful
`lru_cache_put(cache, k, v)` leaves the recency list equal to the new entry `(k, v)`
followed by the previous list, in its order and with its values, without its last element
when `count` was `capacity`; `count` becomes `min(count + 1, capacity)`; below capacity
nothing is evicted; and the put does succeed when the allocations do. -/
theorem put_new_inserts (capacity bucket_size : Nat) (c : lru_cache)
    (h : Reachable capacity bucket_size c) (k : Key) (v : Int) (mem : Malloc) (c' : lru_cache)
    (hk : k ∉ lru_keys c) (hm : malloc_valid c k mem)
    (hp : lru_cache_put c k v mem = some (0, c')) :
    lru_entries c' =
      (k, v) :: (if c.count = c.capacity then (lru_entries c).dropLast else lru_entries c) ∧
    c'.count = min (c.count + 1) c.capacity ∧
    (c.count < c.capacity → lru_entries c' = (k, v) :: lru_entries c) ∧
    (∀ a, ∃ c'', lru_cache_put c k v (.ok a) = some (0, c'')) := by
  have hw := reachable_wf h
  obtain ⟨_, hent, hcnt, _⟩ := put_new_ok hw (absent_iff.mpr hk) hm hp
  refine ⟨hent, hcnt, ?_, ?_⟩
  · intro hlt
    rw [hent, if_neg (by omega)]
  · intro a
    obtain ⟨c1, he⟩ := evict_some hw
    exact ⟨_, put_new hw (absent_iff.mpr hk) he v (.ok a)⟩

/-- A put of the new key "B" (C9) into the cache [A], below capacity. -/
theorem put_new_inserts_witness :
    Reachable 2 16 demo1 ∧ keyB ∉ lru_keys demo1 ∧ malloc_valid demo1 keyB (.ok 101) ∧
    lru_cache_put demo1 keyB 20 (.ok 101) = some (0, demo2) ∧
    (lru_entries demo2 =
      (keyB, 20) :: (if demo1.count = demo1.capacity then (lru_entries demo1).dropLast
        else lru_entries demo1) ∧
    demo2.count = min (demo1.count + 1) demo1.capacity ∧
    (demo1.count < demo1.capacity → lru_entries demo2 = (keyB, 20) :: lru_entries demo1) ∧
    (∀ a, ∃ c'', lru_cache_put demo1 keyB 20 (.ok a) = some (0, c''))) :=
  ⟨demo1_reachable, by decide, demo2_valid, demo2_put,
    put_new_inserts 2 16 demo1 demo1_reachable keyB 20 (.ok 101) demo2 (by decide)
      demo2_valid demo2_put⟩

/-- C10 (idempotent update): from a reachable state, after `lru_cache_put(k, v1)` and then
`lru_cache_put(k, v2)`, both succeeding, `count` is the same after the second put as after
the first, and a following `lru_cache_get(k)` returns 1 with value `v2`. -/
theorem put_put_get (capacity bucket_size : Nat) (c : lru_cache)
    (h : Reachable capacity bucket_size c) (k : Key) (v1 v2 : Int) (mem1 mem2 : Malloc)
    (c1 c2 : lru_cache) (hm1 : malloc_valid c k mem1)
    (hp1 : lru_cache_put c k v1 mem1 = some (0, c1))
    (hp2 : lru_cache_put c1 k v2 mem2 = some (0, c2)) (v0 : Int) :
    c2.count = c1.count ∧ (lru_cache_get c2 k v0).ret = 1 ∧
    (lru_cache_get c2 k v0).value = v2 := by
  have hw := reachable_wf h
  have hw1 : WF c1 := wf_put hw hm1 hp1
  have hin1 : (k, v1) ∈ lru_entries c1 := by
    by_cases hk : k ∈ lru_keys c
    · obtain ⟨e, he, hek⟩ := List.mem_map.mp hk
      obtain ⟨c', a, hput, _, hent, _⟩ := put_hit_ok hw (show (k, e.2) ∈ lru_entries c by
        rw [← hek]; exact he) v1 mem1
      rw [hput] at hp1
      simp only [Option.some.injEq, Prod.mk.injEq, true_and] at hp1
      rw [← hp1, hent]
      exact List.mem_cons_self _ _
    · obtain ⟨_, hent, _⟩ := put_new_ok hw (absent_iff.mpr hk) hm1 hp1
      rw [hent]
      exact List.mem_cons_self _ _
  obtain ⟨c', a, hput, hw2, hent, _, _, hcnt, _⟩ := put_hit_ok hw1 hin1 v2 mem2
  rw [hput] at hp2
  simp only [Option.some.injEq, Prod.mk.injEq, true_and] at hp2
  subst hp2
  have hin2 : (k, v2) ∈ lru_entries c' := by rw [hent]; exact List.mem_cons_self _ _
  obtain ⟨b, hget, _⟩ := get_hit_ok hw2 hin2 v0
  rw [hget]
  exact ⟨hcnt, rfl, rfl⟩

/-- Two puts of "B" (C10) starting from the cache [A]. -/
theorem put_put_get_witness :
    Reachable 2 16 demo1 ∧ malloc_valid demo1 keyB (.ok 101) ∧
    lru_cache_put demo1 keyB 20 (.ok 101) = some (0, demo2) ∧
    lru_cache_put demo2 keyB 21 .node_null = some (0, put_ok demo2 keyB 21 0) ∧
    ((put_ok demo2 keyB 21 0).count = demo2.count ∧
      (lru_cache_get (put_ok demo2 keyB 21 0) keyB 0).ret = 1 ∧
      (lru_cache_get (put_ok demo2 keyB 21 0) keyB 0).value = 21) :=
  ⟨demo1_reachable, demo2_valid, demo2_put, rfl,
    put_put_get 2 16 demo1 demo1_reachable keyB 20 21 (.ok 101) .node_null demo2
      (put_ok demo2 keyB 21 0) demo2_valid demo2_put rfl 0⟩


theorem run_cons (c : lru_cache) (op : Op) (ops : List Op) :
    run c (op :: ops) = (lru_step c op).bind (fun c1 => run c1 ops) := rfl

theorem touch_log_cons (c : lru_cache) (op : Op) (ops : List Op) :
    touch_log c (op :: ops) = touched c op ::
      (match lru_step c op with
       | some c1 => touch_log c1 ops
       | none => []) := rfl

theorem allocs_cons (c : lru_cache) (op : Op) (ops : List Op) :
    allocs_succeed c (op :: ops) = (alloc_ok c op ∧
      (match lru_step c op with
       | some c1 => allocs_succeed c1 ops
       | none => True)) := rfl

theorem last_touch_from_cons (k : Key) (i : Nat) (t : Option Key) (log : List (Option Key)) :
    last_touch_from k i (t :: log) =
      if last_touch_from k (i + 1) log ≠ 0 then last_touch_from k (i + 1) log
      else if t = some k then i else 0 := rfl

theorem run_snoc (ops : List Op) (op : Op) :
    ∀ c, run c (ops ++ [op]) = (run c ops).bind (fun c' => lru_step c' op) := by
  induction ops with
  | nil =>
    intro c
    show run c [op] = (some c).bind (fun c' => lru_step c' op)
    rw [run_cons, Option.some_bind]
    cases lru_step c op <;> rfl
  | cons op0 ops ih =>
    intro c
    rw [List.cons_append, run_cons, run_cons]
    cases lru_step c op0 with
    | none => rfl
    | some c1 => rw [Option.some_bind, Option.some_bind]; exact ih c1

theorem touch_log_snoc (ops : List Op) (op : Op) :
    ∀ c c', run c ops = some c' →
      touch_log c (ops ++ [op]) = touch_log c ops ++ [touched c' op] := by
  induction ops with
  | nil =>
    intro c c' hrun
    have hcc : c = c' := by simpa [run] using hrun
    subst hcc
    show touch_log c [op] = [touched c op]
    rw [touch_log_cons]
    cases lru_step c op <;> rfl
  | cons op0 ops ih =>
    intro c c' hrun
    rw [run_cons] at hrun
    cases hs : lru_step c op0 with
    | none => rw [hs] at hrun; exact absurd hrun (by simp)
    | some c1 =>
      rw [hs, Option.some_bind] at hrun
      rw [List.cons_append, touch_log_cons, touch_log_cons, hs]
      show touched c op0 :: touch_log c1 (ops ++ [op]) = _
      rw [ih c1 c' hrun]
      rfl

theorem allocs_snoc (ops : List Op) (op : Op) :
    ∀ c c', run c ops = some c' → allocs_succeed c (ops ++ [op]) →
      allocs_succeed c ops ∧ alloc_ok c' op := by
  induction ops with
  | nil =>
    intro c c' hrun ha
    have hcc : c = c' := by simpa [run] using hrun
    subst hcc
    have ha' : allocs_succeed c [op] := ha
    rw [allocs_cons] at ha'
    exact ⟨trivial, ha'.1⟩
  | cons op0 ops ih =>
    intro c c' hrun ha
    rw [run_cons] at hrun
    cases hs : lru_step c op0 with
    | none => rw [hs] at hrun; exact absurd hrun (by simp)
    | some c1 =>
      rw [hs, Option.some_bind] at hrun
      rw [List.cons_append, allocs_cons, hs] at ha
      rw [allocs_cons, hs]
      obtain ⟨h1, h2⟩ := ih c1 c' hrun ha.2
      exact ⟨⟨ha.1, h1⟩, h2⟩

theorem last_touch_from_snoc (k : Key) (t : Option Key) (log : List (Option Key)) :
    ∀ i, last_touch_from k i (log ++ [t]) =
      if t = some k then i + log.length else last_touch_from k i log := by
  induction log with
  | nil =>
    intro i
    show last_touch_from k i [t] = _
    rw [last_touch_from_cons]
    simp [last_touch_from]
  | cons x log ih =>
    intro i
    rw [List.cons_append, last_touch_from_cons, last_touch_from_cons, ih (i + 1),
      List.length_cons]
    by_cases h : t = some k
    · rw [if_pos h, if_pos h, if_pos (by omega)]
      omega
    · rw [if_neg h, if_neg h]

theorem last_touch_from_le (k : Key) (log : List (Option Key)) :
    ∀ i, last_touch_from k i log ≤ i + log.length - 1 := by
  induction log with
  | nil => intro i; simp [last_touch_from]
  | cons x log ih =>
    intro i
    have := ih (i + 1)
    rw [last_touch_from_cons, List.length_cons]
    split
    · omega
    · split <;> omega

theorem last_touch_le (k : Key) (log : List (Option Key)) : last_touch log k ≤ log.length := by
  have := last_touch_from_le k log 1
  unfold last_touch
  omega

theorem last_touch_snoc_self (k : Key) (log : List (Option Key)) :
    last_touch (log ++ [some k]) k = log.length + 1 := by
  unfold last_touch
  rw [last_touch_from_snoc, if_pos rfl]
  omega

theorem last_touch_snoc_ne (k k' : Key) (log : List (Option Key)) (h : k' ≠ k) :
    last_touch (log ++ [some k]) k' = last_touch log k' := by
  unfold last_touch
  rw [last_touch_from_snoc, if_neg (by simpa using fun hh => h hh.symm)]

theorem last_touch_snoc_none (k' : Key) (log : List (Option Key)) :
    last_touch (log ++ [none]) k' = last_touch log k' := by
  unfold last_touch
  rw [last_touch_from_snoc, if_neg (by simp)]

/-- A touch of `k` that leaves `k` in front of a sublist of the old keys keeps the order
invariant. -/
theorem ordered_touch {c c' : lru_cache} {log : List (Option Key)} {k : Key} {l : List Key}
    (hj : RecencyOrdered c log) (hkeys : lru_keys c' = k :: l)
    (hsub : l.Sublist (lru_keys c)) (hk : k ∉ l) :
    RecencyOrdered c' (log ++ [some k]) := by
  obtain ⟨hp, hpos⟩ := hj
  unfold RecencyOrdered
  rw [hkeys]
  have hne : ∀ k' ∈ l, k' ≠ k := fun k' hk' he => hk (he ▸ hk')
  constructor
  · refine List.pairwise_cons.mpr ⟨?_, ?_⟩
    · intro k' hk'
      rw [last_touch_snoc_self, last_touch_snoc_ne _ _ _ (hne k' hk')]
      have := last_touch_le k' log
      omega
    · refine List.Pairwise.imp_of_mem ?_ (hp.sublist hsub)
      intro a b ha hb hab
      rw [last_touch_snoc_ne _ _ _ (hne a ha), last_touch_snoc_ne _ _ _ (hne b hb)]
      exact hab
  · intro k' hk'
    rcases List.mem_cons.mp hk' with rfl | hk'
    · rw [last_touch_snoc_self]; omega
    · rw [last_touch_snoc_ne _ _ _ (hne k' hk')]
      exact hpos k' (hsub.subset hk')

theorem keys_filter_sublist (c : lru_cache) (k : Key) :
    (((lru_entries c).filter (fun e => decide (e.1 ≠ k))).map Prod.fst).Sublist (lru_keys c) ∧
    k ∉ ((lru_entries c).filter (fun e => decide (e.1 ≠ k))).map Prod.fst := by
  constructor
  · exact List.Sublist.map _ (List.filter_sublist _)
  · intro hmem
    obtain ⟨e, he, hek⟩ := List.mem_map.mp hmem
    have := (List.mem_filter.mp he).2
    simp only [ne_eq, decide_eq_true_eq] at this
    exact this hek

/-- One call keeps the structural invariant and the order invariant. -/
theorem ordered_step {c c' : lru_cache} {log : List (Option Key)} {op : Op}
    (hw : WF c) (hj : RecencyOrdered c log) (ha : alloc_ok c op)
    (hs : lru_step c op = some c') :
    WF c' ∧ RecencyOrdered c' (log ++ [touched c op]) := by
  cases op with
  | get k v0 =>
    simp only [lru_step, Option.some.injEq] at hs
    subst hs
    refine ⟨wf_get hw k v0, ?_⟩
    by_cases hk : k ∈ lru_keys c
    · obtain ⟨e, he, hek⟩ := List.mem_map.mp hk
      have hin : (k, e.2) ∈ lru_entries c := by rw [← hek]; exact he
      obtain ⟨a, _, ham, hent⟩ := get_hit_ok hw hin v0
      obtain ⟨b, hb, n, hn, hnk⟩ := mem_keys.mp hk
      have hl : cache_lookup c k = some b := by rw [← hnk]; exact lookup_of_mem hw hb hn
      have ht : touched c (.get k v0) = some k := by simp [touched, hl]
      rw [ht]
      have hkeys : lru_keys (lru_cache_get c k v0).cache =
          k :: ((lru_entries c).filter (fun e => decide (e.1 ≠ k))).map Prod.fst := by
        unfold lru_keys; rw [hent]; rfl
      exact ordered_touch hj hkeys (keys_filter_sublist c k).1 (keys_filter_sublist c k).2
    · have hl : cache_lookup c k = none := absent_lookup hw (absent_iff.mpr hk)
      have ht : touched c (.get k v0) = none := by simp [touched, hl]
      rw [ht, get_miss hw (absent_iff.mpr hk)]
      obtain ⟨hp, hpos⟩ := hj
      refine ⟨List.Pairwise.imp ?_ hp, ?_⟩
      · intro a b hab
        rw [last_touch_snoc_none, last_touch_snoc_none]; exact hab
      · intro k' hk'
        rw [last_touch_snoc_none]; exact hpos k' hk'
  | put k v mem =>
    have ht : touched c (.put k v mem) = some k := rfl
    rw [ht]
    simp only [lru_step] at hs
    cases hp : lru_cache_put c k v mem with
    | none => simp [hp] at hs
    | some x =>
      obtain ⟨r, c''⟩ := x
      simp only [hp, Option.map_some', Option.some.injEq] at hs
      subst hs
      obtain ⟨hvalid, hok⟩ := ha
      refine ⟨wf_put hw hvalid hp, ?_⟩
      by_cases hk : k ∈ lru_keys c
      · obtain ⟨e, he, hek⟩ := List.mem_map.mp hk
        have hin : (k, e.2) ∈ lru_entries c := by rw [← hek]; exact he
        obtain ⟨c', a, hput, _, hent, _⟩ := put_hit_ok hw hin v mem
        rw [hput] at hp
        simp only [Option.some.injEq, Prod.mk.injEq] at hp
        obtain ⟨_, rfl⟩ := hp
        have hkeys : lru_keys c' =
            k :: ((lru_entries c).filter (fun e => decide (e.1 ≠ k))).map Prod.fst := by
          unfold lru_keys; rw [hent]; rfl
        exact ordered_touch hj hkeys (keys_filter_sublist c k).1 (keys_filter_sublist c k).2
      · have hab := absent_iff.mpr hk
        obtain ⟨a, rfl⟩ := hok (absent_lookup hw hab)
        obtain ⟨c1, he⟩ := evict_some hw
        have hp' := hp
        rw [put_new hw hab he] at hp'
        simp only [Option.some.injEq, Prod.mk.injEq] at hp'
        obtain ⟨hr, _⟩ := hp'
        rw [← hr] at hp
        obtain ⟨_, hent, _⟩ := put_new_ok hw hab hvalid hp
        have hkeys : lru_keys c'' = k ::
            (if c.count = c.capacity then (lru_entries c).dropLast else lru_entries c).map
              Prod.fst := by
          unfold lru_keys; rw [hent]; rfl
        refine ordered_touch hj hkeys ?_ ?_
        · split
          · exact List.Sublist.map _ (List.dropLast_sublist _)
          · exact List.Sublist.refl _
        · intro hmem
          apply hk
          split at hmem
          · exact (List.Sublist.map _ (List.dropLast_sublist _)).subset hmem
          · exact hmem


theorem allocs_front (ops : List Op) (op : Op) :
    ∀ c, allocs_succeed c (ops ++ [op]) → allocs_succeed c ops := by
  induction ops with
  | nil => intro c _; trivial
  | cons op0 ops ih =>
    intro c ha
    rw [List.cons_append, allocs_cons] at ha
    rw [allocs_cons]
    refine ⟨ha.1, ?_⟩
    cases hs : lru_step c op0 with
    | none => trivial
    | some c1 =>
      rw [hs] at ha
      exact ih c1 ha.2

theorem allocs_cons_of {c : lru_cache} (c1 : lru_cache) {op : Op} {ops : List Op}
    (h1 : alloc_ok c op)
    (hs : lru_step c op = some c1) (h2 : allocs_succeed c1 ops) :
    allocs_succeed c (op :: ops) := by
  rw [allocs_cons, hs]
  exact ⟨h1, h2⟩

theorem step_some {c : lru_cache} (hw : WF c) (op : Op) : ∃ c', lru_step c op = some c' := by
  cases op with
  | get k v0 => exact ⟨_, rfl⟩
  | put k v mem =>
    rcases present_or_absent c k with ⟨a, ha, n, hn, rfl⟩ | hk
    · exact ⟨_, by simp only [lru_step, put_hit hw ha hn]; rfl⟩
    · obtain ⟨c1, he⟩ := evict_some hw
      simp only [lru_step, put_new hw hk he]
      cases mem <;> exact ⟨_, rfl⟩

theorem reachable_step {capacity bucket_size : Nat} {c c' : lru_cache} {op : Op}
    (hr : Reachable capacity bucket_size c) (ha : alloc_ok c op)
    (hs : lru_step c op = some c') : Reachable capacity bucket_size c' := by
  cases op with
  | get k v0 =>
    simp only [lru_step, Option.some.injEq] at hs
    rw [← hs]
    exact Reachable.get c k v0 hr
  | put k v mem =>
    simp only [lru_step] at hs
    cases hp : lru_cache_put c k v mem with
    | none => simp [hp] at hs
    | some x =>
      obtain ⟨r, c''⟩ := x
      simp only [hp, Option.map_some', Option.some.injEq] at hs
      subst hs
      exact Reachable.put c k v mem r c'' hr ha.1 hp

theorem ordered_run {capacity bucket_size : Nat} {c0 : lru_cache}
    (hr0 : Reachable capacity bucket_size c0) (h0 : lru_keys c0 = []) (ops : List Op) :
    allocs_succeed c0 ops →
      ∃ c, run c0 ops = some c ∧ Reachable capacity bucket_size c ∧
        RecencyOrdered c (touch_log c0 ops) := by
  induction ops using List.reverseRecOn with
  | nil =>
    intro _
    refine ⟨c0, rfl, hr0, ?_, ?_⟩
    · rw [h0]; exact List.Pairwise.nil
    · rw [h0]; intro k hk; exact absurd hk (List.not_mem_nil k)
  | append_singleton ops op ih =>
    intro ha
    obtain ⟨c1, hrun, hr1, hj⟩ := ih (allocs_front ops op c0 ha)
    have hok := (allocs_snoc ops op c0 c1 hrun ha).2
    have hw1 := reachable_wf hr1
    obtain ⟨c2, hs⟩ := step_some hw1 op
    obtain ⟨_, hj2⟩ := ordered_step hw1 hj hok hs
    refine ⟨c2, ?_, reachable_step hr1 hok hs, ?_⟩
    · rw [run_snoc, hrun, Option.some_bind, hs]
    · rw [touch_log_snoc ops op c0 c1 hrun]; exact hj2

theorem create_keys {capacity bucket_size : Nat} {mc mb : Bool} {c : lru_cache}
    (h : lru_cache_create capacity bucket_size mc mb = some c) : lru_keys c = [] := by
  unfold lru_cache_create at h
  split at h
  · simp at h
  · split at h
    · simp at h
    · split at h
      · simp at h
      · simp only [Option.some.injEq] at h
        subst h
        rfl

/-- C2 (order invariant): every sequence of get and put calls on a freshly created cache,
the allocations succeeding, runs to a state where the keys met from `lru_head.next` to
`lru_head.prev` are the live keys in strictly decreasing order of the position of the last
operation that touched them (a put of the key or a get that hit it), each of them touched
at least once. -/
theorem order_invariant (capacity bucket_size : Nat) (mc mb : Bool) (c0 : lru_cache)
    (ops : List Op) (hc : capacity < 2 ^ 32) (hb : bucket_size < 2 ^ 32)
    (hcreate : lru_cache_create capacity bucket_size mc mb = some c0)
    (hmem : allocs_succeed c0 ops) :
    ∃ c, run c0 ops = some c ∧
      List.Pairwise
        (fun k1 k2 => last_touch (touch_log c0 ops) k2 < last_touch (touch_log c0 ops) k1)
        (lru_keys c) ∧
      ∀ k ∈ lru_keys c, 0 < last_touch (touch_log c0 ops) k := by
  obtain ⟨c, hrun, _, hj⟩ :=
    ordered_run (Reachable.create mc mb c0 hc hb hcreate) (create_keys hcreate) ops hmem
  exact ⟨c, hrun, hj⟩

theorem demo_ops_allocs : allocs_succeed demo0 demo_ops :=
  allocs_cons_of demo1 ⟨demo1_valid, fun _ => ⟨100, rfl⟩⟩ rfl
    (allocs_cons_of demo2 ⟨demo2_valid, fun _ => ⟨101, rfl⟩⟩ rfl
      (allocs_cons_of demo2_get trivial rfl
        (allocs_cons_of demo_final
          ⟨malloc_valid_of keyC (show lru_evict demo2_get = some demo2_get_evicted from rfl)
            (fun a ha => by cases ha; rfl), fun _ => ⟨101, rfl⟩⟩ rfl trivial)))

/-- The order invariant (C2) on `demo_ops`: the run ends in the order [C, A], "C" last
touched by call 4 and "A" by call 3. -/
theorem order_invariant_witness :
    (2 < 2 ^ 32 ∧ 16 < 2 ^ 32 ∧ lru_cache_create 2 16 true true = some demo0 ∧
      allocs_succeed demo0 demo_ops) ∧
    run demo0 demo_ops = some demo_final ∧ lru_keys demo_final = [keyC, keyA] ∧
    last_touch (touch_log demo0 demo_ops) keyC = 4 ∧
    last_touch (touch_log demo0 demo_ops) keyA = 3 ∧
    ∃ c, run demo0 demo_ops = some c ∧
      List.Pairwise
        (fun k1 k2 =>
          last_touch (touch_log demo0 demo_ops) k2 < last_touch (touch_log demo0 demo_ops) k1)
        (lru_keys c) ∧
      ∀ k ∈ lru_keys c, 0 < last_touch (touch_log demo0 demo_ops) k :=
  ⟨⟨by decide, by decide, rfl, demo_ops_allocs⟩, rfl, by decide, by decide, by decide,
    order_invariant 2 16 true true demo0 demo_ops (by decide) (by decide) rfl demo_ops_allocs⟩


/-- C11, as stated, fails: in the full cache [B, A] a put of the new key "C" whose node
allocation fails returns -1 and leaves [B] with `count` 1: the entry "A" was evicted before
the allocation was attempted. -/
theorem put_failure_not_atomic :
    Reachable 2 16 demo2 ∧
    lru_cache_put demo2 keyC 30 .node_null = some (-1, demo2_evicted) ∧
    lru_entries demo2 = [(keyB, 20), (keyA, 10)] ∧ demo2.count = 2 ∧
    lru_entries demo2_evicted = [(keyB, 20)] ∧ demo2_evicted.count = 1 ∧
    demo2_evicted ≠ demo2 :=
  ⟨demo2_reachable, rfl, by decide, rfl, by decide, rfl,
    fun h => absurd (congrArg lru_cache.count h) (by decide)⟩

/-- C11, amended: when `lru_cache_put` returns -1 in a reachable state, an allocation
failed for a key that is not present, and neither structure gains an entry for the key;
below capacity the cache is exactly the cache before the call; at `count == capacity` it is
the cache before the call without the entry at the tail of the recency list: that node is
unlinked from its chain and from the list and `count` is one less, the other entries keep
their values and their order. -/
theorem put_failure_state (capacity bucket_size : Nat) (c : lru_cache)
    (h : Reachable capacity bucket_size c) (k : Key) (v : Int) (mem : Malloc) (c' : lru_cache)
    (hp : lru_cache_put c k v mem = some (-1, c')) :
    (mem = .node_null ∨ ∃ a, mem = .key_null a) ∧
    k ∉ lru_keys c ∧ k ∉ lru_keys c' ∧ k ∉ bucket_keys c' ∧
    (c.count < c.capacity → c' = c) ∧
    (c.count = c.capacity →
      lru_entries c' = (lru_entries c).dropLast ∧
      c'.lru_head = c.lru_head.dropLast ∧ c'.count = c.count - 1 ∧
      ∃ t, c.lru_head.getLast? = some t ∧ c'.nodes = Function.update c.nodes t none ∧
        ∀ i, c'.buckets.getD i [] = (c.buckets.getD i []).erase t) := by
  have hw := reachable_wf h
  rcases present_or_absent c k with ⟨a, ha, n, hn, rfl⟩ | hk
  · rw [put_hit hw ha hn] at hp
    simp at hp
  · obtain ⟨c1, he⟩ := evict_some hw
    obtain ⟨hw1, _⟩ := wf_evict hw he
    have hk1 := absent_evict hw he hk
    rw [put_new hw hk he] at hp
    have hc : c' = c1 ∧ (mem = .node_null ∨ ∃ a, mem = .key_null a) := by
      cases mem with
      | node_null =>
        simp only [Option.some.injEq, Prod.mk.injEq, true_and] at hp
        exact ⟨hp.symm, Or.inl rfl⟩
      | key_null a =>
        simp only [Option.some.injEq, Prod.mk.injEq, true_and] at hp
        exact ⟨hp.symm, Or.inr ⟨a, rfl⟩⟩
      | ok a => simp at hp
    obtain ⟨rfl, hmem⟩ := hc
    have hkeys : k ∉ lru_keys c' := absent_iff.mp hk1
    refine ⟨hmem, absent_iff.mp hk, hkeys, ?_, ?_, ?_⟩
    · intro hb
      apply hkeys
      unfold bucket_keys at hb
      obtain ⟨a, ha, n, hn, hnk⟩ := (mem_keys_of c' _ k).mp hb
      exact mem_keys.mpr ⟨a, (mem_flatten_iff hw1 a).mp ha, n, hn, hnk⟩
    · intro hlt
      rcases evict_cases hw he with ⟨_, rfl⟩ | ⟨hcnt, _⟩
      · rfl
      · omega
    · intro hfull
      rcases evict_cases hw he with ⟨hlt, _⟩ | ⟨_, t, ht, htm, rfl⟩
      · omega
      · have hent := entries_evict hw he
        rw [if_pos hfull] at hent
        refine ⟨hent, rfl, rfl, t, ht, rfl, ?_⟩
        intro i
        show (c.buckets.map (fun h => if t ∈ h then hlist_del t h else h)).getD i [] = _
        rw [getD_map_nil _ (by simp)]
        split
        · rfl
        · rename_i hnm
          exact (List.erase_of_not_mem hnm).symm

/-- The failed put of C11 in the full cache [B, A]. -/
theorem put_failure_state_witness :
    Reachable 2 16 demo2 ∧
    lru_cache_put demo2 keyC 30 (.key_null 7) = some (-1, demo2_evicted) ∧
    ((Malloc.key_null 7 = .node_null ∨ ∃ a, Malloc.key_null 7 = .key_null a) ∧
    keyC ∉ lru_keys demo2 ∧ keyC ∉ lru_keys demo2_evicted ∧ keyC ∉ bucket_keys demo2_evicted ∧
    (demo2.count < demo2.capacity → demo2_evicted = demo2) ∧
    (demo2.count = demo2.capacity →
      lru_entries demo2_evicted = (lru_entries demo2).dropLast ∧
      demo2_evicted.lru_head = demo2.lru_head.dropLast ∧
      demo2_evicted.count = demo2.count - 1 ∧
      ∃ t, demo2.lru_head.getLast? = some t ∧
        demo2_evicted.nodes = Function.update demo2.nodes t none ∧
        ∀ i, demo2_evicted.buckets.getD i [] = (demo2.buckets.getD i []).erase t)) :=
  ⟨demo2_reachable, rfl,
    put_failure_state 2 16 demo2 demo2_reachable keyC 30 (.key_null 7) demo2_evicted rfl⟩

/-- C12 (construction validation): `lru_cache_create(0, n)` and `lru_cache_create(n, 0)`
return NULL for every `n`; for positive `capacity` and `bucket_size`, when both allocations
succeed, the result is a cache with that capacity and bucket size, `count` 0, an empty
recency list and `bucket_size` empty chains, on which `lru_cache_get` misses for every key. -/
theorem create_validation (capacity bucket_size : Nat) (mc mb : Bool) :
    lru_cache_create 0 bucket_size mc mb = none ∧
    lru_cache_create capacity 0 mc mb = none ∧
    (0 < capacity → 0 < bucket_size →
      ∃ c, lru_cache_create capacity bucket_size true true = some c ∧
        c.capacity = capacity ∧ c.bucket_size = bucket_size ∧ c.count = 0 ∧
        c.lru_head = [] ∧ c.buckets = List.replicate bucket_size [] ∧
        lru_entries c = [] ∧ bucket_keys c = [] ∧
        ∀ k v0, (lru_cache_get c k v0).ret = 0 ∧ (lru_cache_get c k v0).value = v0 ∧
          (lru_cache_get c k v0).cache = c) := by
  refine ⟨by simp [lru_cache_create], by simp [lru_cache_create], ?_⟩
  intro hc hb
  have hcr : lru_cache_create capacity bucket_size true true = some
      { capacity := capacity, bucket_size := bucket_size, count := 0, lru_head := [],
        buckets := List.replicate bucket_size [], nodes := fun _ => none } := by
    simp [lru_cache_create, Nat.pos_iff_ne_zero.mp hc, Nat.pos_iff_ne_zero.mp hb]
  refine ⟨_, hcr, rfl, rfl, rfl, rfl, rfl, rfl, ?_, ?_⟩
  · simp [bucket_keys]
  · intro k v0
    have hl : cache_lookup
        { capacity := capacity, bucket_size := bucket_size, count := 0, lru_head := [],
          buckets := List.replicate bucket_size [], nodes := fun _ => none } k = none := by
      unfold cache_lookup
      simp only [getD_replicate_nil]
      rfl
    unfold lru_cache_get
    rw [hl]
    exact ⟨rfl, rfl, rfl⟩

/-- Construction (C12) with capacity 2 and 16 buckets. -/
theorem create_validation_witness :
    0 < 2 ∧ 0 < 16 ∧
    ∃ c, lru_cache_create 2 16 true true = some c ∧
      c.capacity = 2 ∧ c.bucket_size = 16 ∧ c.count = 0 ∧
      c.lru_head = [] ∧ c.buckets = List.replicate 16 [] ∧
      lru_entries c = [] ∧ bucket_keys c = [] ∧
      ∀ k v0, (lru_cache_get c k v0).ret = 0 ∧ (lru_cache_get c k v0).value = v0 ∧
        (lru_cache_get c k v0).cache = c :=
  ⟨by decide, by decide, (create_validation 2 16 true true).2.2 (by decide) (by decide)⟩

/-- C13 (scenario of lru.c, capacity 4, 16 buckets): from a fresh cache the four puts of
A, B, C, D give the order [D, C, B, A]; `get(B)` hits with value 20 and gives
[B, D, C, A]; `put(A, 15)` gives [A, B, D, C] with `count` 4 and value 15 for A;
`put(E, 50)` evicts C and gives [E, A, B, D]; `put(F, 60)` evicts D and gives
[F, E, A, B]; then `get(C)` and `get(Z)` miss. -/
theorem lru_main_scenario :
    lru_cache_create 4 16 true true = some main0 ∧
    lru_cache_put main0 keyA 10 (.ok 1) = some (0, main1) ∧
    lru_cache_put main1 keyB 20 (.ok 2) = some (0, main2) ∧
    lru_cache_put main2 keyC 30 (.ok 3) = some (0, main3) ∧
    lru_cache_put main3 keyD 40 (.ok 4) = some (0, main4) ∧
    lru_entries main4 = [(keyD, 40), (keyC, 30), (keyB, 20), (keyA, 10)] ∧
    (lru_cache_get main4 keyB 0).ret = 1 ∧ (lru_cache_get main4 keyB 0).value = 20 ∧
    lru_entries main5 = [(keyB, 20), (keyD, 40), (keyC, 30), (keyA, 10)] ∧
    lru_cache_put main5 keyA 15 (.ok 0) = some (0, main6) ∧
    lru_entries main6 = [(keyA, 15), (keyB, 20), (keyD, 40), (keyC, 30)] ∧
    main6.count = 4 ∧
    lru_cache_put main6 keyE 50 (.ok 3) = some (0, main7) ∧
    lru_entries main7 = [(keyE, 50), (keyA, 15), (keyB, 20), (keyD, 40)] ∧
    lru_cache_put main7 keyF 60 (.ok 5) = some (0, main8) ∧
    lru_entries main8 = [(keyF, 60), (keyE, 50), (keyA, 15), (keyB, 20)] ∧
    main8.count = 4 ∧
    (lru_cache_get main8 keyC 0).ret = 0 ∧ (lru_cache_get main8 keyZ 0).ret = 0 :=
  ⟨rfl, rfl, rfl, rfl, rfl, by decide, rfl, rfl, by decide, rfl, by decide, rfl, rfl,
    by decide, rfl, by decide, rfl, rfl, rfl⟩


/-! ## The hash map -/

theorem find_congr_on {p q : Nat → Bool} :
    ∀ l : List Nat, (∀ x ∈ l, p x = q x) → l.find? p = l.find? q := by
  intro l
  induction l with
  | nil => intro _; rfl
  | cons x l ih =>
    intro h
    rw [List.find?_cons, List.find?_cons, h x (List.mem_cons_self _ _),
      ih (fun y hy => h y (List.mem_cons_of_mem _ hy))]

theorem find_erase_of_false {p : Nat → Bool} (a : Nat) (ha : p a = false) :
    ∀ l : List Nat, (l.erase a).find? p = l.find? p := by
  intro l
  induction l with
  | nil => rfl
  | cons x l ih =>
    by_cases hxa : x = a
    · subst hxa
      rw [List.erase_cons_head, List.find?_cons, ha]
    · rw [List.erase_cons_tail (by simpa using hxa), List.find?_cons, List.find?_cons, ih]

theorem filterMap_key_nodup (f : Nat → Option Key) :
    ∀ l : List Nat, l.Nodup →
      (∀ x ∈ l, ∀ y ∈ l, ∀ k, f x = some k → f y = some k → x = y) →
      (l.filterMap f).Nodup := by
  intro l
  induction l with
  | nil => intro _ _; exact List.nodup_nil
  | cons x l ih =>
    intro hnd hinj
    have hnd' := List.nodup_cons.mp hnd
    have ih' := ih hnd'.2 (fun y hy z hz => hinj y (List.mem_cons_of_mem _ hy) z
      (List.mem_cons_of_mem _ hz))
    cases hx : f x with
    | none => rw [List.filterMap_cons_none hx]; exact ih'
    | some k =>
      rw [List.filterMap_cons_some hx]
      refine List.nodup_cons.mpr ⟨?_, ih'⟩
      intro hmem
      obtain ⟨y, hy, hfy⟩ := List.mem_filterMap.mp hmem
      have : x = y := hinj x (List.mem_cons_self _ _) y (List.mem_cons_of_mem _ hy) k hx hfy
      exact hnd'.1 (this ▸ hy)

theorem hash_lookup_some {m : hash_map} {k : Key} {a : Nat}
    (hl : hash_map_lookup m k = some a) :
    a ∈ m.buckets.getD ((hash_function k % m.size) % 2 ^ 32) [] ∧
    ∃ n, m.nodes a = some n ∧ n.key = k := by
  unfold hash_map_lookup at hl
  have hm := List.mem_of_find?_eq_some hl
  have hp := List.find?_some hl
  refine ⟨hm, ?_⟩
  unfold hash_key_matches at hp
  cases hn : m.nodes a with
  | none => simp [hn] at hp
  | some n =>
    simp [hn] at hp
    exact ⟨n, rfl, hp⟩

theorem hash_lookup_none {m : hash_map} {k : Key} (hl : hash_map_lookup m k = none) :
    ∀ a ∈ m.buckets.getD ((hash_function k % m.size) % 2 ^ 32) [], ∀ n,
      m.nodes a = some n → n.key ≠ k := by
  intro a ha n hn hk
  unfold hash_map_lookup at hl
  rw [List.find?_eq_none] at hl
  have := hl a ha
  simp [hash_key_matches, hn, hk] at this

theorem hash_create_eq {size : Nat} {mm mb : Bool} {m : hash_map}
    (h : hash_map_create size mm mb = some m) :
    0 < size ∧ m = { buckets := List.replicate size [], size := size, nodes := fun _ => none } := by
  unfold hash_map_create at h
  split at h
  · simp at h
  · rename_i hz
    split at h
    · simp at h
    · split at h
      · simp at h
      · simp only [Option.some.injEq] at h
        exact ⟨Nat.pos_of_ne_zero hz, h.symm⟩

theorem hwf_create {size : Nat} {mm mb : Bool} {m : hash_map}
    (h : hash_map_create size mm mb = some m) : HashWF m := by
  obtain ⟨hpos, rfl⟩ := hash_create_eq h
  refine ⟨hpos, by simp, ?_, ?_, ?_⟩
  · intro i; simp only [getD_replicate_nil]; exact List.nodup_nil
  · intro i a; simp only [getD_replicate_nil]; simp
  · intro i a b; simp only [getD_replicate_nil]; simp

theorem hwf_set_value {m : hash_map} (h : HashWF m) {a : Nat} {n : hash_node} (v : Int)
    (hn : m.nodes a = some n) :
    HashWF { m with nodes := Function.update m.nodes a (some { n with value := v }) } := by
  have hnode : ∀ x k, (∃ nx, Function.update m.nodes a (some { n with value := v }) x = some nx ∧
      nx.key = k) ↔ ∃ nx, m.nodes x = some nx ∧ nx.key = k := by
    intro x k
    by_cases hxa : x = a
    · subst hxa
      simp [hn]
    · rw [Function.update_noteq hxa]
  refine ⟨h.size_pos, h.len, h.chain_nodup, ?_, ?_⟩
  · intro i x hx
    obtain ⟨nx, hnx, hi⟩ := h.chain_ok i x hx
    obtain ⟨nx', hnx', hk⟩ := (hnode x nx.key).mpr ⟨nx, hnx, rfl⟩
    exact ⟨nx', hnx', by rw [hk]; exact hi⟩
  · intro i x y hx hy nx ny hnx hny hk
    obtain ⟨mx, hmx, hkx⟩ := (hnode x nx.key).mp ⟨nx, hnx, rfl⟩
    obtain ⟨my, hmy, hky⟩ := (hnode y ny.key).mp ⟨ny, hny, rfl⟩
    exact h.inj i x y hx hy mx my hmx hmy (by rw [hkx, hky, hk])

theorem hwf_add {m : hash_map} (h : HashWF m) {a : Nat} (hfree : m.nodes a = none) {k : Key}
    (v : Int) (hk : hash_map_lookup m k = none) :
    HashWF { m with
      nodes := Function.update m.nodes a (some { key := k, value := v })
      buckets := m.buckets.set ((hash_function k % m.size) % 2 ^ 32)
        (hlist_add_head a (m.buckets.getD ((hash_function k % m.size) % 2 ^ 32) [])) } := by
  have hna : ∀ i, a ∉ m.buckets.getD i [] := by
    intro i ha
    obtain ⟨n, hn, _⟩ := h.chain_ok i a ha
    rw [hfree] at hn; exact absurd hn (by simp)
  have hidx' : (hash_function k % m.size) % 2 ^ 32 < m.buckets.length := by
    rw [h.len]; exact index_lt k h.size_pos
  have hmem : ∀ i x, x ∈ (m.buckets.set ((hash_function k % m.size) % 2 ^ 32)
      (hlist_add_head a (m.buckets.getD ((hash_function k % m.size) % 2 ^ 32) []))).getD i [] →
      (x = a ∧ (hash_function k % m.size) % 2 ^ 32 = i) ∨ (x ≠ a ∧ x ∈ m.buckets.getD i []) := by
    intro i x hx
    by_cases hi : (hash_function k % m.size) % 2 ^ 32 = i
    · subst hi
      rw [getD_set_eq _ _ _ hidx'] at hx
      rcases List.mem_cons.mp hx with hxa | hx'
      · exact Or.inl ⟨hxa, rfl⟩
      · exact Or.inr ⟨fun hxa => hna _ (hxa ▸ hx'), hx'⟩
    · rw [getD_set_ne _ _ _ _ hi] at hx
      exact Or.inr ⟨fun hxa => hna _ (hxa ▸ hx), hx⟩
  refine ⟨h.size_pos, by simpa using h.len, ?_, ?_, ?_⟩
  · intro i
    simp only
    by_cases hi : (hash_function k % m.size) % 2 ^ 32 = i
    · subst hi
      rw [getD_set_eq _ _ _ hidx']
      exact List.nodup_cons.mpr ⟨hna _, h.chain_nodup _⟩
    · rw [getD_set_ne _ _ _ _ hi]; exact h.chain_nodup i
  · intro i x hx
    rcases hmem i x hx with ⟨hxa, hi⟩ | ⟨hxa, hx'⟩
    · exact ⟨_, by rw [hxa]; exact Function.update_same _ _ _, hi⟩
    · obtain ⟨n, hn, hi⟩ := h.chain_ok i x hx'
      exact ⟨n, by simp only [Function.update_noteq hxa]; exact hn, hi⟩
  · intro i x y hx hy nx ny hnx hny hkk
    simp only at hnx hny
    rcases hmem i x hx with ⟨hxa, hix⟩ | ⟨hxa, hx'⟩ <;>
      rcases hmem i y hy with ⟨hya, hiy⟩ | ⟨hya, hy'⟩
    · rw [hxa, hya]
    · rw [hxa, Function.update_same] at hnx
      rw [Function.update_noteq hya] at hny
      simp only [Option.some.injEq] at hnx
      subst hnx
      rw [← hix] at hy'
      exact absurd hkk.symm (hash_lookup_none hk y hy' ny hny)
    · rw [hya, Function.update_same] at hny
      rw [Function.update_noteq hxa] at hnx
      simp only [Option.some.injEq] at hny
      subst hny
      rw [← hiy] at hx'
      exact absurd hkk (hash_lookup_none hk x hx' nx hnx)
    · rw [Function.update_noteq hxa] at hnx
      rw [Function.update_noteq hya] at hny
      exact h.inj i x y hx' hy' nx ny hnx hny hkk

theorem hwf_insert {m : hash_map} (h : HashWF m) (k : Key) (v : Int) {mem : Malloc}
    (hm : hash_malloc_valid m k mem) : HashWF (hash_map_insert m k v mem).2 := by
  unfold hash_map_insert
  cases hl : hash_map_lookup m k with
  | some a =>
    obtain ⟨_, n, hn, _⟩ := hash_lookup_some hl
    simp only [hn, Option.map_some']
    exact hwf_set_value h v hn
  | none =>
    cases mem with
    | node_null => exact h
    | key_null a => exact h
    | ok a => exact hwf_add h (hm hl a rfl) v hl

theorem hwf_delete {m : hash_map} (h : HashWF m) (k : Key) : HashWF (hash_map_delete m k) := by
  unfold hash_map_delete
  cases hl : hash_map_lookup m k with
  | none => exact h
  | some a =>
    have hf : ∀ i, (m.buckets.map (hlist_del a)).getD i [] = (m.buckets.getD i []).erase a := by
      intro i
      rw [getD_map_nil _ (by simp [hlist_del])]
      rfl
    refine ⟨h.size_pos, by simpa using h.len, ?_, ?_, ?_⟩
    · intro i
      show ((m.buckets.map (hlist_del a)).getD i []).Nodup
      rw [hf]; exact (h.chain_nodup i).erase a
    · intro i x hx
      have hx' : x ∈ (m.buckets.map (hlist_del a)).getD i [] := hx
      rw [hf, List.Nodup.mem_erase_iff (h.chain_nodup i)] at hx'
      obtain ⟨n, hn, hi⟩ := h.chain_ok i x hx'.2
      exact ⟨n, by simp only [Function.update_noteq hx'.1]; exact hn, hi⟩
    · intro i x y hx hy nx ny hnx hny hk
      have hx' : x ∈ (m.buckets.map (hlist_del a)).getD i [] := hx
      have hy' : y ∈ (m.buckets.map (hlist_del a)).getD i [] := hy
      rw [hf, List.Nodup.mem_erase_iff (h.chain_nodup i)] at hx' hy'
      simp only [Function.update_noteq hx'.1] at hnx
      simp only [Function.update_noteq hy'.1] at hny
      exact h.inj i x y hx'.2 hy'.2 nx ny hnx hny hk

theorem hash_reachable_wf {size : Nat} {m : hash_map} (h : HashReachable size m) :
    HashWF m := by
  induction h with
  | create mm mb m _ hcr => exact hwf_create hcr
  | insert m key value mem _ hm ih => exact hwf_insert ih key value hm
  | delete m key _ ih => exact hwf_delete ih key


theorem flatten_length_set (a : Nat) :
    ∀ (l : List (List Nat)) (i : Nat), i < l.length →
      (l.set i (a :: l.getD i [])).flatten.length = l.flatten.length + 1 := by
  intro l
  induction l with
  | nil => intro i hi; simp at hi
  | cons x l ih =>
    intro i hi
    cases i with
    | zero => simp
    | succ i =>
      have hi' : i < l.length := by simpa using hi
      have := ih i hi'
      simp only [List.set_cons_succ, List.flatten_cons, List.length_append, List.getD_cons_succ]
      omega

theorem hash_flatten_nodup {m : hash_map} (h : HashWF m) : m.buckets.flatten.Nodup := by
  rw [List.nodup_flatten]
  constructor
  · intro l hl
    obtain ⟨i, hi, rfl⟩ := List.getElem_of_mem hl
    have := h.chain_nodup i
    rwa [List.getD_eq_getElem?_getD, List.getElem?_eq_getElem hi] at this
  · rw [List.pairwise_iff_getElem]
    intro i j hi hj hij
    intro a hai haj
    have h1 : a ∈ m.buckets.getD i [] := by
      rwa [List.getD_eq_getElem?_getD, List.getElem?_eq_getElem hi]
    have h2 : a ∈ m.buckets.getD j [] := by
      rwa [List.getD_eq_getElem?_getD, List.getElem?_eq_getElem hj]
    obtain ⟨n1, hn1, hi1⟩ := h.chain_ok i a h1
    obtain ⟨n2, hn2, hi2⟩ := h.chain_ok j a h2
    rw [hn1] at hn2
    simp only [Option.some.injEq] at hn2
    subst hn2
    omega

theorem hash_keys_nodup {m : hash_map} (h : HashWF m) : (hash_map_keys m).Nodup := by
  unfold hash_map_keys
  apply filterMap_key_nodup _ _ (hash_flatten_nodup h)
  intro x hx y hy k hkx hky
  obtain ⟨i, hxi⟩ := (mem_flatten_iff_getD _ x).mp hx
  obtain ⟨j, hyj⟩ := (mem_flatten_iff_getD _ y).mp hy
  obtain ⟨nx, hnx, hix⟩ := h.chain_ok i x hxi
  obtain ⟨ny, hny, hjy⟩ := h.chain_ok j y hyj
  simp only [hnx, Option.map_some', Option.some.injEq] at hkx
  simp only [hny, Option.map_some', Option.some.injEq] at hky
  have hij : i = j := by rw [← hix, ← hjy, hkx, hky]
  subst hij
  exact h.inj i x y hxi hyj nx ny hnx hny (by rw [hkx, hky])

theorem hash_mem_keys {m : hash_map} {k : Key} {a : Nat}
    (hl : hash_map_lookup m k = some a) : k ∈ hash_map_keys m := by
  obtain ⟨ha, n, hn, hk⟩ := hash_lookup_some hl
  unfold hash_map_keys
  exact List.mem_filterMap.mpr ⟨a, (mem_flatten_iff_getD _ a).mpr ⟨_, ha⟩, by simp [hn, hk]⟩

theorem hash_get_of_lookup {m m' : hash_map} {k : Key}
    (hl : hash_map_lookup m' k = hash_map_lookup m k)
    (hv : ∀ b, hash_map_lookup m k = some b → m'.nodes b = m.nodes b) (v0 : Int) :
    hash_map_get m' k v0 = hash_map_get m k v0 := by
  unfold hash_map_get
  rw [hl]
  cases hb : hash_map_lookup m k with
  | none => rfl
  | some b => simp only [hv b hb]

/-- What an insert for a key that is in the map leaves behind. -/
theorem hash_insert_present {m : hash_map} {k : Key} {a : Nat}
    (hl : hash_map_lookup m k = some a) (v : Int) (mem : Malloc) :
    ∃ m', hash_map_insert m k v mem = (0, m') ∧ m'.buckets = m.buckets ∧
      (∀ v0, hash_map_get m' k v0 = (1, v)) ∧
      (∀ k', k' ≠ k → ∀ v0, hash_map_get m' k' v0 = hash_map_get m k' v0) := by
  obtain ⟨_, n, hn, hnk⟩ := hash_lookup_some hl
  have hins : hash_map_insert m k v mem = (0, { m with
      nodes := Function.update m.nodes a (some { n with value := v }) }) := by
    unfold hash_map_insert
    simp only [hl, hn, Option.map_some']
  have hkm : ∀ k' x, hash_key_matches { m with
      nodes := Function.update m.nodes a (some { n with value := v }) } k' x =
      hash_key_matches m k' x := by
    intro k' x
    unfold hash_key_matches
    by_cases hxa : x = a
    · subst hxa; simp [hn]
    · simp only [Function.update_noteq hxa]
  have hlk : ∀ k', hash_map_lookup { m with
      nodes := Function.update m.nodes a (some { n with value := v }) } k' =
      hash_map_lookup m k' := by
    intro k'
    unfold hash_map_lookup
    exact find_congr_on _ (fun x _ => hkm k' x)
  refine ⟨_, hins, rfl, ?_, ?_⟩
  · intro v0
    unfold hash_map_get
    rw [hlk, hl]
    simp
  · intro k' hk' v0
    apply hash_get_of_lookup (hlk k')
    intro b hb
    obtain ⟨_, nb, hnb, hbk⟩ := hash_lookup_some hb
    have hba : b ≠ a := by
      rintro rfl
      rw [hn] at hnb
      simp only [Option.some.injEq] at hnb
      subst hnb
      exact hk' (hbk.symm.trans hnk)
    exact Function.update_noteq hba _ _

/-- What an insert of a new key at a free address leaves behind. -/
theorem hash_insert_new {m : hash_map} (h : HashWF m) {k : Key}
    (hl : hash_map_lookup m k = none) (v : Int) {a : Nat} (hfree : m.nodes a = none) :
    ∃ m', hash_map_insert m k v (.ok a) = (0, m') ∧
      hash_map_count m' = hash_map_count m + 1 ∧
      (∀ v0, hash_map_get m' k v0 = (1, v)) ∧
      (∀ k', k' ≠ k → ∀ v0, hash_map_get m' k' v0 = hash_map_get m k' v0) := by
  have hidx' : (hash_function k % m.size) % 2 ^ 32 < m.buckets.length := by
    rw [h.len]; exact index_lt k h.size_pos
  have hins : hash_map_insert m k v (.ok a) = (0, { m with
      nodes := Function.update m.nodes a (some { key := k, value := v })
      buckets := m.buckets.set ((hash_function k % m.size) % 2 ^ 32)
        (hlist_add_head a (m.buckets.getD ((hash_function k % m.size) % 2 ^ 32) [])) }) := by
    unfold hash_map_insert
    simp only [hl]
  refine ⟨_, hins, flatten_length_set a _ _ hidx', ?_, ?_⟩
  · intro v0
    unfold hash_map_get hash_map_lookup
    simp only [getD_set_eq _ _ _ hidx', hlist_add_head]
    rw [List.find?_cons_of_pos _ (by simp [hash_key_matches])]
    simp
  · intro k' hk' v0
    have hkm : ∀ x, hash_key_matches { m with
        nodes := Function.update m.nodes a (some { key := k, value := v })
        buckets := m.buckets.set ((hash_function k % m.size) % 2 ^ 32)
          (hlist_add_head a (m.buckets.getD ((hash_function k % m.size) % 2 ^ 32) [])) } k' x =
        hash_key_matches m k' x := by
      intro x
      unfold hash_key_matches
      by_cases hxa : x = a
      · subst hxa
        simp only [Function.update_same, hfree]
        simpa using hk'.symm
      · simp only [Function.update_noteq hxa]
    have hma : hash_key_matches m k' a = false := by
      simp [hash_key_matches, hfree]
    apply hash_get_of_lookup
    · unfold hash_map_lookup
      simp only
      by_cases hi : (hash_function k % m.size) % 2 ^ 32 = (hash_function k' % m.size) % 2 ^ 32
      · rw [← hi, getD_set_eq _ _ _ hidx']
        show List.find? _ (a :: _) = _
        rw [List.find?_cons_of_neg _ (by rw [hkm a, hma]; simp)]
        exact find_congr_on _ (fun x _ => hkm x)
      · rw [getD_set_ne _ _ _ _ hi]
        exact find_congr_on _ (fun x _ => hkm x)
    · intro b hb
      obtain ⟨_, nb, hnb, _⟩ := hash_lookup_some hb
      have hba : b ≠ a := by
        rintro rfl
        rw [hfree] at hnb; exact absurd hnb (by simp)
      exact Function.update_noteq hba _ _

theorem hash_get_ret {m : hash_map} (k : Key) (v0 : Int) :
    ((hash_map_get m k v0).1 = 0 ↔ hash_map_lookup m k = none) ∧
    ((hash_map_get m k v0).1 = 1 ↔ ∃ a, hash_map_lookup m k = some a) := by
  unfold hash_map_get
  cases hash_map_lookup m k <;> simp

/-- C14 (hashmap insert is map-update): in a map reachable from `hash_map_create`, after a
successful `hash_map_insert(map, k, v)`, `hash_map_get(map, k)` returns 1 with value `v`,
`hash_map_get` on every other key returns what it returned before, and the number of nodes
grows by one if `k` was absent and is unchanged, as are the chains, if `k` was present;
`k` is the key of one node and no two nodes carry the same key. -/
theorem hash_insert_update (size : Nat) (m : hash_map) (h : HashReachable size m)
    (k : Key) (v : Int) (mem : Malloc) (m' : hash_map)
    (hm : hash_malloc_valid m k mem) (hins : hash_map_insert m k v mem = (0, m')) :
    (∀ v0, hash_map_get m' k v0 = (1, v)) ∧
    (∀ k', k' ≠ k → ∀ v0, hash_map_get m' k' v0 = hash_map_get m k' v0) ∧
    ((hash_map_get m k 0).1 = 0 → hash_map_count m' = hash_map_count m + 1) ∧
    ((hash_map_get m k 0).1 = 1 →
      hash_map_count m' = hash_map_count m ∧ m'.buckets = m.buckets) ∧
    k ∈ hash_map_keys m' ∧ (hash_map_keys m').Nodup := by
  have hw := hash_reachable_wf h
  have hw' : HashWF m' := by
    have := hwf_insert hw k v hm
    rw [hins] at this
    exact this
  have hcount : (∀ v0, hash_map_get m' k v0 = (1, v)) →
      k ∈ hash_map_keys m' ∧ (hash_map_keys m').Nodup := by
    intro hg
    have h1 : (hash_map_get m' k 0).1 = 1 := by rw [hg 0]
    obtain ⟨a, ha⟩ := (hash_get_ret k 0).2.mp h1
    exact ⟨hash_mem_keys ha, hash_keys_nodup hw'⟩
  cases hl : hash_map_lookup m k with
  | some a =>
    obtain ⟨m2, hins2, hb, hg, ho⟩ := hash_insert_present hl v mem
    rw [hins] at hins2
    simp only [Prod.mk.injEq, true_and] at hins2
    subst hins2
    refine ⟨hg, ho, ?_, ?_, hcount hg⟩
    · intro h0
      rw [(hash_get_ret k 0).1.mp h0] at hl
      exact absurd hl (by simp)
    · intro _
      exact ⟨by unfold hash_map_count; rw [hb], hb⟩
  | none =>
    cases mem with
    | node_null => simp [hash_map_insert, hl] at hins
    | key_null a => simp [hash_map_insert, hl] at hins
    | ok a =>
      obtain ⟨m2, hins2, hc, hg, ho⟩ := hash_insert_new hw hl v (hm hl a rfl)
      rw [hins] at hins2
      simp only [Prod.mk.injEq, true_and] at hins2
      subst hins2
      refine ⟨hg, ho, fun _ => hc, ?_, hcount hg⟩
      intro h1
      obtain ⟨b, hb⟩ := (hash_get_ret k 0).2.mp h1
      rw [hl] at hb
      exact absurd hb (by simp)

theorem hmap0_reachable : HashReachable 16 hmap0 :=
  HashReachable.create true true hmap0 (by decide) rfl

theorem hmap1_reachable : HashReachable 16 hmap1 :=
  HashReachable.insert hmap0 keyA 25 (.ok 1) hmap0_reachable
    (fun _ a ha => by cases ha; rfl)

theorem hmap2_valid : hash_malloc_valid hmap1 keyB (.ok 2) :=
  fun _ a ha => by cases ha; rfl

theorem hmap2_reachable : HashReachable 16 hmap2 :=
  HashReachable.insert hmap1 keyB 30 (.ok 2) hmap1_reachable hmap2_valid

/-- The insert of "B" (C14) into the map that holds "A". -/
theorem hash_insert_update_witness :
    HashReachable 16 hmap1 ∧ hash_malloc_valid hmap1 keyB (.ok 2) ∧
    hash_map_insert hmap1 keyB 30 (.ok 2) = (0, hmap2) ∧
    ((∀ v0, hash_map_get hmap2 keyB v0 = (1, 30)) ∧
    (∀ k', k' ≠ keyB → ∀ v0, hash_map_get hmap2 k' v0 = hash_map_get hmap1 k' v0) ∧
    ((hash_map_get hmap1 keyB 0).1 = 0 → hash_map_count hmap2 = hash_map_count hmap1 + 1) ∧
    ((hash_map_get hmap1 keyB 0).1 = 1 →
      hash_map_count hmap2 = hash_map_count hmap1 ∧ hmap2.buckets = hmap1.buckets) ∧
    keyB ∈ hash_map_keys hmap2 ∧ (hash_map_keys hmap2).Nodup) :=
  ⟨hmap1_reachable, hmap2_valid, rfl,
    hash_insert_update 16 hmap1 hmap1_reachable keyB 30 (.ok 2) hmap2 hmap2_valid rfl⟩

/-- The reads after `hash_map_delete`: the deleted key misses, every other key reads as
before, and the delete of an absent key returns the map as it was. -/
theorem hash_delete_gets (size : Nat) (m : hash_map) (h : HashReachable size m) (k : Key) :
    (∀ v0, hash_map_get (hash_map_delete m k) k v0 = (0, v0)) ∧
    (∀ k', k' ≠ k → ∀ v0,
      hash_map_get (hash_map_delete m k) k' v0 = hash_map_get m k' v0) ∧
    ((hash_map_get m k 0).1 = 0 → hash_map_delete m k = m) := by
  have hw := hash_reachable_wf h
  cases hl : hash_map_lookup m k with
  | none =>
    have hd : hash_map_delete m k = m := by unfold hash_map_delete; rw [hl]
    rw [hd]
    refine ⟨?_, fun _ _ _ => rfl, fun _ => rfl⟩
    intro v0
    unfold hash_map_get
    rw [hl]
  | some a =>
    obtain ⟨ham, n, hn, hnk⟩ := hash_lookup_some hl
    have hd : hash_map_delete m k = { m with
        buckets := m.buckets.map (hlist_del a)
        nodes := Function.update m.nodes a none } := by
      unfold hash_map_delete; rw [hl]
    have hf : ∀ i, (m.buckets.map (hlist_del a)).getD i [] = (m.buckets.getD i []).erase a := by
      intro i
      rw [getD_map_nil _ (by simp [hlist_del])]
      rfl
    rw [hd]
    refine ⟨?_, ?_, ?_⟩
    · intro v0
      have : hash_map_lookup { m with
          buckets := m.buckets.map (hlist_del a)
          nodes := Function.update m.nodes a none } k = none := by
        unfold hash_map_lookup
        simp only
        rw [hf, List.find?_eq_none]
        intro x hx
        rw [List.Nodup.mem_erase_iff (hw.chain_nodup _)] at hx
        unfold hash_key_matches
        simp only [Function.update_noteq hx.1]
        cases hnx : m.nodes x with
        | none => simp
        | some nx =>
          simp only [decide_eq_true_eq]
          intro hxk
          exact hx.1 (hw.inj _ x a hx.2 ham nx n hnx hn (by rw [hxk, hnk]))
      unfold hash_map_get
      rw [this]
    · intro k' hk' v0
      have hkm : ∀ x, hash_key_matches { m with
          buckets := m.buckets.map (hlist_del a)
          nodes := Function.update m.nodes a none } k' x = hash_key_matches m k' x := by
        intro x
        unfold hash_key_matches
        by_cases hxa : x = a
        · subst hxa
          simp only [Function.update_same, hn]
          have : n.key ≠ k' := fun hh => hk' (hh.symm.trans hnk)
          simpa using this
        · simp only [Function.update_noteq hxa]
      have hma : hash_key_matches m k' a = false := by
        have : n.key ≠ k' := fun hh => hk' (hh.symm.trans hnk)
        simp [hash_key_matches, hn, this]
      apply hash_get_of_lookup
      · unfold hash_map_lookup
        simp only
        rw [hf, find_congr_on _ (fun x _ => hkm x), find_erase_of_false a hma]
      · intro b hb
        obtain ⟨_, nb, hnb, hbk⟩ := hash_lookup_some hb
        have hba : b ≠ a := by
          rintro rfl
          rw [hn] at hnb
          simp only [Option.some.injEq] at hnb
          subst hnb
          exact hk' (hbk.symm.trans hnk)
        exact Function.update_noteq hba _ _
    · intro h0
      rw [(hash_get_ret k 0).1.mp h0] at hl
      exact absurd hl (by simp)

/-! ## The binary search tree -/

theorem bt_inorder_node (d : Int) (l r : bt_node) :
    bt_inorder (.node d l r) = bt_inorder l ++ d :: bt_inorder r := rfl

theorem bt_ordered_node (d : Int) (l r : bt_node) :
    List.Pairwise (· < ·) (bt_inorder (.node d l r)) ↔
      List.Pairwise (· < ·) (bt_inorder l) ∧ List.Pairwise (· < ·) (bt_inorder r) ∧
      (∀ y ∈ bt_inorder l, y < d) ∧ (∀ y ∈ bt_inorder r, d < y) := by
  rw [bt_inorder_node, List.pairwise_append, List.pairwise_cons]
  constructor
  · rintro ⟨hl, ⟨hdr, hr⟩, hlr⟩
    exact ⟨hl, hr, fun y hy => hlr y hy d (List.mem_cons_self _ _), hdr⟩
  · rintro ⟨hl, hr, hld, hdr⟩
    refine ⟨hl, ⟨hdr, hr⟩, ?_⟩
    intro a ha b hb
    rcases List.mem_cons.mp hb with rfl | hb
    · exact hld a ha
    · exact lt_trans (hld a ha) (hdr b hb)

theorem bt_insert_loop_mem (x : Int) :
    ∀ t y, y ∈ bt_inorder (bt_insert_loop t x) ↔ y = x ∨ y ∈ bt_inorder t := by
  intro t
  induction t with
  | null => intro y; simp [bt_insert_loop, bt_inorder]
  | node d l r ihl ihr =>
    intro y
    unfold bt_insert_loop
    split
    · rw [bt_inorder_node, bt_inorder_node, List.mem_append, List.mem_append, ihl]
      tauto
    · split
      · rw [bt_inorder_node, bt_inorder_node, List.mem_append, List.mem_append,
          List.mem_cons, List.mem_cons, ihr]
        tauto
      · have hxd : x = d := by omega
        rw [bt_inorder_node, List.mem_append, List.mem_cons, hxd]
        tauto

theorem bt_insert_loop_ordered (x : Int) :
    ∀ t, List.Pairwise (· < ·) (bt_inorder t) →
      List.Pairwise (· < ·) (bt_inorder (bt_insert_loop t x)) := by
  intro t
  induction t with
  | null => intro _; simp [bt_insert_loop, bt_inorder]
  | node d l r ihl ihr =>
    intro h
    obtain ⟨hl, hr, hld, hdr⟩ := (bt_ordered_node d l r).mp h
    unfold bt_insert_loop
    split
    · rename_i hlt
      refine (bt_ordered_node _ _ _).mpr ⟨ihl hl, hr, ?_, hdr⟩
      intro y hy
      rcases (bt_insert_loop_mem x l y).mp hy with rfl | hy
      · exact hlt
      · exact hld y hy
    · split
      · rename_i _ hgt
        refine (bt_ordered_node _ _ _).mpr ⟨hl, ihr hr, hld, ?_⟩
        intro y hy
        rcases (bt_insert_loop_mem x r y).mp hy with rfl | hy
        · exact hgt
        · exact hdr y hy
      · exact h

theorem bt_insert_loop_present (x : Int) :
    ∀ t, List.Pairwise (· < ·) (bt_inorder t) → x ∈ bt_inorder t → bt_insert_loop t x = t := by
  intro t
  induction t with
  | null => intro _ hx; simp [bt_inorder] at hx
  | node d l r ihl ihr =>
    intro h hx
    obtain ⟨hl, hr, hld, hdr⟩ := (bt_ordered_node d l r).mp h
    rw [bt_inorder_node, List.mem_append, List.mem_cons] at hx
    unfold bt_insert_loop
    split
    · rename_i hlt
      rcases hx with hx | rfl | hx
      · rw [ihl hl hx]
      · omega
      · have := hdr x hx; omega
    · split
      · rename_i _ hgt
        rcases hx with hx | rfl | hx
        · have := hld x hx; omega
        · omega
        · rw [ihr hr hx]
      · rfl

theorem bt_insert_all_spec (values : List Int) :
    ∀ t, List.Pairwise (· < ·) (bt_inorder t) →
      List.Pairwise (· < ·) (bt_inorder (bt_insert_all t values)) ∧
      ∀ y, y ∈ bt_inorder (bt_insert_all t values) ↔ y ∈ values ∨ y ∈ bt_inorder t := by
  induction values with
  | nil => intro t h; exact ⟨h, fun y => by simp [bt_insert_all]⟩
  | cons x xs ih =>
    intro t h
    have hstep : bt_insert_all t (x :: xs) = bt_insert_all (bt_insert_loop t x) xs := rfl
    rw [hstep]
    obtain ⟨h1, h2⟩ := ih (bt_insert_loop t x) (bt_insert_loop_ordered x t h)
    refine ⟨h1, ?_⟩
    intro y
    rw [h2, bt_insert_loop_mem, List.mem_cons]
    tauto

/-- C16 (BST insert): inserting any finite sequence of ints into the empty tree, every
allocation succeeding, gives a tree whose in-order traversal is the sequence sorted in
strictly ascending order with duplicates removed; inserting again a value of the sequence
leaves that tree unchanged. -/
theorem bt_insert_sorted (values : List Int) :
    bt_inorder (bt_insert_all .null values) = sorted_dedup values ∧
    List.Pairwise (· < ·) (bt_inorder (bt_insert_all .null values)) ∧
    (∀ y, y ∈ bt_inorder (bt_insert_all .null values) ↔ y ∈ values) ∧
    ∀ x, x ∈ values → bt_insert (bt_insert_all .null values) x true = bt_insert_all .null values := by
  obtain ⟨hs, hm⟩ := bt_insert_all_spec values .null (by simp [bt_inorder])
  have hm' : ∀ y, y ∈ bt_inorder (bt_insert_all .null values) ↔ y ∈ values := by
    intro y; rw [hm]; simp [bt_inorder]
  refine ⟨?_, hs, hm', ?_⟩
  · unfold sorted_dedup
    apply List.eq_of_perm_of_sorted (r := (· ≤ ·))
    · apply List.Perm.trans _ (List.perm_insertionSort _ _).symm
      rw [List.perm_ext_iff_of_nodup (hs.imp (fun h => ne_of_lt h)) (List.nodup_dedup _)]
      intro y
      rw [hm', List.mem_dedup]
    · exact hs.imp (fun h => le_of_lt h)
    · exact List.sorted_insertionSort _ _
  · intro x hx
    unfold bt_insert
    simp only [Bool.not_true, Bool.false_eq_true, if_false]
    exact bt_insert_loop_present x _ hs ((hm' x).mpr hx)

/-- The inserts of `main` in btree.c (C16), then a second insert of 4. -/
theorem bt_insert_sorted_witness :
    (4 : Int) ∈ bt_main_values ∧
    bt_inorder bt_main_tree = [1, 2, 3, 4, 5, 6, 7, 8, 9, 10] ∧
    bt_insert (bt_insert_all .null bt_main_values) 4 true = bt_insert_all .null bt_main_values :=
  ⟨by decide, by decide, (bt_insert_sorted bt_main_values).2.2.2 4 (by decide)⟩

theorem bt_min_value_node_spec (d : Int) (r : bt_node) :
    ∀ l, ∃ m r' rest, bt_min_value_node (.node d l r) = .node m .null r' ∧
      bt_inorder (.node d l r) = m :: rest := by
  intro l
  induction l generalizing d r with
  | null => exact ⟨d, r, bt_inorder r, rfl, rfl⟩
  | node d' l' r' ihl _ =>
    obtain ⟨m, r'', rest, hmin, hin⟩ := ihl d' r'
    refine ⟨m, r'', rest ++ d :: bt_inorder r, ?_, ?_⟩
    · show bt_min_value_node (.node d' l' r') = _
      exact hmin
    · rw [bt_inorder_node, hin]; rfl

theorem bt_delete_absent (x : Int) :
    ∀ t, x ∉ bt_inorder t → bt_delete t x = t := by
  intro t
  induction t with
  | null => intro _; rfl
  | node d l r ihl ihr =>
    intro hx
    rw [bt_inorder_node, List.mem_append, List.mem_cons] at hx
    push_neg at hx
    unfold bt_delete
    split
    · rw [ihl hx.1]
    · split
      · rw [ihr hx.2.2]
      · have := hx.2.1; omega

theorem bt_delete_inorder :
    ∀ t x, List.Pairwise (· < ·) (bt_inorder t) →
      bt_inorder (bt_delete t x) = (bt_inorder t).erase x := by
  intro t
  induction t with
  | null => intro x _; rfl
  | node d l r ihl ihr =>
    intro x h
    obtain ⟨hl, hr, hld, hdr⟩ := (bt_ordered_node d l r).mp h
    unfold bt_delete
    split
    · rename_i hlt
      rw [bt_inorder_node, bt_inorder_node, ihl x hl]
      by_cases hx : x ∈ bt_inorder l
      · rw [List.erase_append_left _ hx]
      · rw [List.erase_append_right _ hx, List.erase_of_not_mem hx, List.erase_of_not_mem]
        intro hmem
        rcases List.mem_cons.mp hmem with rfl | hmem
        · omega
        · have := hdr x hmem; omega
    · split
      · rename_i _ hgt
        have hx : x ∉ bt_inorder l := fun hmem => by have := hld x hmem; omega
        rw [bt_inorder_node, bt_inorder_node, ihr x hr, List.erase_append_right _ hx,
          List.erase_cons_tail (by simp; omega)]
      · have hxd : x = d := by omega
        subst hxd
        have hx : x ∉ bt_inorder l := fun hmem => by have := hld x hmem; omega
        rw [bt_inorder_node, List.erase_append_right _ hx, List.erase_cons_head]
        split
        · rename_i hnull
          rw [hnull]; rfl
        · split
          · rename_i _ hnull
            rw [hnull]; simp [bt_inorder]
          · rename_i _ hrn
            cases r with
            | null => exact absurd rfl hrn
            | node rd rl rr =>
              obtain ⟨m, r', rest, hmin, hin⟩ := bt_min_value_node_spec rd rr rl
              simp only [hmin]
              rw [bt_inorder_node, ihr m hr, hin, List.erase_cons_head]

/-- C17 (BST delete): for a binary search tree `t` (strictly increasing in-order traversal)
and an int `x`, the in-order traversal of `bt_delete(t, x)` is the in-order traversal of `t`
with `x` removed, so the result is again a binary search tree, also when the node of `x`
has two children; when `x` is not in `t` the tree is returned unchanged. -/
theorem bt_delete_removes (t : bt_node) (x : Int)
    (h : List.Pairwise (· < ·) (bt_inorder t)) :
    bt_inorder (bt_delete t x) = (bt_inorder t).erase x ∧
    List.Pairwise (· < ·) (bt_inorder (bt_delete t x)) ∧
    x ∉ bt_inorder (bt_delete t x) ∧
    (x ∉ bt_inorder t → bt_delete t x = t) := by
  have he := bt_delete_inorder t x h
  refine ⟨he, ?_, ?_, bt_delete_absent x t⟩
  · rw [he]; exact h.sublist (List.erase_sublist _ _)
  · rw [he]
    exact fun hx => ((List.Nodup.mem_erase_iff (h.imp (fun h => ne_of_lt h))).mp hx).1 rfl

/-- The delete of `main` in btree.c (C17): 5 is the root and has two children. -/
theorem bt_delete_removes_witness :
    List.Pairwise (· < ·) (bt_inorder bt_main_tree) ∧
    bt_inorder (bt_delete bt_main_tree 5) = [1, 2, 3, 4, 6, 7, 8, 9, 10] ∧
    (bt_inorder (bt_delete bt_main_tree 5) = (bt_inorder bt_main_tree).erase 5 ∧
    List.Pairwise (· < ·) (bt_inorder (bt_delete bt_main_tree 5)) ∧
    (5 : Int) ∉ bt_inorder (bt_delete bt_main_tree 5) ∧
    ((5 : Int) ∉ bt_inorder bt_main_tree → bt_delete bt_main_tree 5 = bt_main_tree)) :=
  ⟨by decide, by decide, bt_delete_removes bt_main_tree 5 (by decide)⟩

/-- C18 (BST search): for a binary search tree `t` (strictly increasing in-order traversal)
and an int `x`, `bt_search(t, x)` returns a node of `t` whose data is `x` if `x` occurs in
`t`, and NULL if it does not. -/
theorem bt_search_finds (t : bt_node) (x : Int)
    (h : List.Pairwise (· < ·) (bt_inorder t)) :
    (x ∈ bt_inorder t → ∃ l r, bt_search t x = .node x l r) ∧
    (x ∉ bt_inorder t → bt_search t x = .null) := by
  induction t with
  | null => exact ⟨fun hx => by simp [bt_inorder] at hx, fun _ => rfl⟩
  | node d l r ihl ihr =>
    obtain ⟨hl, hr, hld, hdr⟩ := (bt_ordered_node d l r).mp h
    rw [bt_inorder_node, List.mem_append, List.mem_cons]
    unfold bt_search
    split
    · rename_i hlt
      have hxr : x ∉ bt_inorder r := fun hm => by have := hdr x hm; omega
      constructor
      · rintro (hx | rfl | hx)
        · exact (ihl hl).1 hx
        · omega
        · exact absurd hx hxr
      · intro hx
        exact (ihl hl).2 (fun hm => hx (Or.inl hm))
    · split
      · rename_i _ hgt
        have hxl : x ∉ bt_inorder l := fun hm => by have := hld x hm; omega
        constructor
        · rintro (hx | rfl | hx)
          · exact absurd hx hxl
          · omega
          · exact (ihr hr).1 hx
        · intro hx
          exact (ihr hr).2 (fun hm => hx (Or.inr (Or.inr hm)))
      · have hxd : x = d := by omega
        subst hxd
        exact ⟨fun _ => ⟨l, r, rfl⟩, fun hx => absurd (Or.inr (Or.inl rfl)) hx⟩

/-- The search of `main` in btree.c (C18): 4 is found, 11 is not. -/
theorem bt_search_finds_witness :
    List.Pairwise (· < ·) (bt_inorder bt_main_tree) ∧
    bt_search bt_main_tree 4 = .node 4 .null .null ∧ bt_search bt_main_tree 11 = .null ∧
    ((4 : Int) ∈ bt_inorder bt_main_tree → ∃ l r, bt_search bt_main_tree 4 = .node 4 l r) ∧
    ((4 : Int) ∉ bt_inorder bt_main_tree → bt_search bt_main_tree 4 = .null) :=
  ⟨by decide, by decide, by decide, bt_search_finds bt_main_tree 4 (by decide)⟩


/-! ## The singly linked list -/

theorem slist_chain_nil (next : Nat → Option Nat) (p : Option Nat) :
    slist_chain next p [] ↔ p = none := Iff.rfl

theorem slist_chain_cons (next : Nat → Option Nat) (p : Option Nat) (a : Nat) (l : List Nat) :
    slist_chain next p (a :: l) ↔ p = some a ∧ slist_chain next (next a) l := Iff.rfl

theorem slist_chain_unique (next : Nat → Option Nat) :
    ∀ l1 l2 p, slist_chain next p l1 → slist_chain next p l2 → l1 = l2 := by
  intro l1
  induction l1 with
  | nil =>
    intro l2 p h1 h2
    cases l2 with
    | nil => rfl
    | cons b l2 =>
      rw [slist_chain_nil] at h1
      rw [slist_chain_cons, h1] at h2
      exact absurd h2.1 (by simp)
  | cons a l1 ih =>
    intro l2 p h1 h2
    rw [slist_chain_cons] at h1
    cases l2 with
    | nil =>
      rw [slist_chain_nil, h1.1] at h2
      exact absurd h2 (by simp)
    | cons b l2 =>
      rw [slist_chain_cons, h1.1] at h2
      have hab : a = b := by simpa using h2.1
      subst hab
      rw [ih l2 _ h1.2 h2.2]

theorem slist_chain_suffix (next : Nat → Option Nat) (a : Nat) (l2 : List Nat) :
    ∀ l1 p, slist_chain next p (l1 ++ a :: l2) → slist_chain next (some a) (a :: l2) := by
  intro l1
  induction l1 with
  | nil =>
    intro p h
    rw [List.nil_append, slist_chain_cons] at h
    exact ⟨rfl, h.2⟩
  | cons b l1 ih =>
    intro p h
    rw [List.cons_append, slist_chain_cons] at h
    exact ih _ h.2

theorem slist_chain_nodup (next : Nat → Option Nat) :
    ∀ l p, slist_chain next p l → l.Nodup := by
  intro l
  induction l with
  | nil => intro _ _; exact List.nodup_nil
  | cons a l ih =>
    intro p h
    rw [slist_chain_cons] at h
    refine List.nodup_cons.mpr ⟨?_, ih _ h.2⟩
    intro ha
    obtain ⟨l1, l2, hl⟩ := List.append_of_mem ha
    have hs : slist_chain next (next a) (l1 ++ a :: l2) := by rw [← hl]; exact h.2
    have h2 := (slist_chain_suffix next a l2 l1 _ hs).2
    have := slist_chain_unique next _ _ _ h.2 h2
    have hlen : l.length = l2.length := by rw [this]
    rw [hl] at hlen
    simp at hlen
    omega

theorem slist_chain_frame (next : Nat → Option Nat) (a : Nat) (v : Option Nat) :
    ∀ l p, a ∉ l → slist_chain next p l → slist_chain (Function.update next a v) p l := by
  intro l
  induction l with
  | nil => intro p _ h; exact h
  | cons b l ih =>
    intro p ha h
    rw [slist_chain_cons] at h ⊢
    have hba : b ≠ a := fun hh => ha (hh ▸ List.mem_cons_self _ _)
    refine ⟨h.1, ?_⟩
    rw [Function.update_noteq hba]
    exact ih _ (fun hh => ha (List.mem_cons_of_mem _ hh)) h.2

theorem slist_walk_chain (next : Nat → Option Nat) :
    ∀ l p fuel, slist_chain next p l → l.length ≤ fuel → slist_walk fuel next p = l := by
  intro l
  induction l with
  | nil =>
    intro p fuel h _
    rw [slist_chain_nil] at h
    subst h
    cases fuel <;> rfl
  | cons a l ih =>
    intro p fuel h hf
    rw [slist_chain_cons] at h
    obtain ⟨rfl, h2⟩ := h
    cases fuel with
    | zero => simp at hf
    | succ fuel =>
      show a :: slist_walk fuel next (next a) = a :: l
      rw [ih _ fuel h2 (by simpa using hf)]

/-- Linking `n` behind the final node of a chain appends it. -/
theorem slist_chain_append (next : Nat → Option Nat) (n : Nat) (hn : next n = none) :
    ∀ l p (hne : l ≠ []), n ∉ l → slist_chain next p l →
      slist_chain (Function.update next (l.getLast hne) (some n)) p (l ++ [n]) := by
  intro l
  induction l with
  | nil => intro p hne; exact absurd rfl hne
  | cons a l ih =>
    intro p hne hnl h
    have hnd := slist_chain_nodup next _ _ h
    rw [slist_chain_cons] at h
    have han : a ≠ n := fun hh => hnl (hh ▸ List.mem_cons_self _ _)
    cases l with
    | nil =>
      rw [slist_chain_nil] at h
      show slist_chain _ p [a, n]
      refine ⟨h.1, ?_, ?_⟩
      · simp
      · show Function.update next a (some n) n = none
        rw [Function.update_noteq (Ne.symm han)]; exact hn
    | cons b l =>
      have hlast : (a :: b :: l).getLast hne = (b :: l).getLast (by simp) := by
        simp [List.getLast_cons]
      rw [hlast, List.cons_append, slist_chain_cons]
      refine ⟨h.1, ?_⟩
      have hal : a ≠ (b :: l).getLast (by simp) := by
        intro hh
        exact (List.nodup_cons.mp hnd).1 (hh ▸ List.getLast_mem _)
      rw [Function.update_noteq hal]
      exact ih _ (by simp) (fun hh => hnl (List.mem_cons_of_mem _ hh)) h.2

/-- C19 (singly linked list add/pop): for a well-formed list with node sequence `l` and a
node `n` that is not in the list, `slist_add_head(n, h)` yields `n` followed by `l` and
`slist_add_tail(n, h)` yields `l` followed by `n`; `slist_pop_head(h)` returns NULL and
changes nothing when `l` is empty, and otherwise returns the first node with its `next`
cleared and leaves the rest of `l` in order; every result is again well-formed. -/
theorem slist_add_pop (h : slist_head) (l : List Nat) (n : Nat) (hwf : slist_wf h l) :
    (n ∉ l → slist_wf (slist_add_head n h) (n :: l)) ∧
    (n ∉ l → ∃ h', slist_add_tail n h = some h' ∧ slist_wf h' (l ++ [n])) ∧
    (l = [] → slist_pop_head h = (none, h)) ∧
    (∀ a rest, l = a :: rest →
      ∃ h', slist_pop_head h = (some a, h') ∧ h'.next a = none ∧ slist_wf h' rest) := by
  obtain ⟨hc, hlast⟩ := hwf
  refine ⟨?_, ?_, ?_, ?_⟩
  · intro hn
    unfold slist_add_head
    cases l with
    | nil =>
      rw [slist_chain_nil] at hc
      rw [if_pos hc]
      exact ⟨⟨rfl, by simp [slist_chain]⟩, rfl⟩
    | cons a l =>
      have hf : h.first = some a := hc.1
      rw [if_neg (by rw [hf]; simp)]
      refine ⟨⟨rfl, ?_⟩, ?_⟩
      · show slist_chain (Function.update h.next n h.first)
          (Function.update h.next n h.first n) (a :: l)
        rw [Function.update_same]
        exact slist_chain_frame _ _ _ _ _ hn hc
      · show h.last = _
        rw [hlast]; simp [List.getLast?_cons_cons]
  · intro hn
    unfold slist_add_tail
    cases l with
    | nil =>
      rw [slist_chain_nil] at hc
      simp only [hc, if_true]
      exact ⟨_, rfl, ⟨rfl, by simp [slist_chain]⟩, rfl⟩
    | cons a l =>
      have hf : h.first = some a := hc.1
      have hne : a :: l ≠ [] := by simp
      have hl : h.last = some ((a :: l).getLast hne) := by
        rw [hlast, List.getLast?_eq_getLast _ hne]
      simp only [hf, hl]
      refine ⟨_, rfl, ?_, ?_⟩
      · have hc1 : slist_chain (Function.update h.next n none) (some a) (a :: l) := by
          rw [← hf]; exact slist_chain_frame _ _ _ _ _ hn hc
        exact slist_chain_append _ n (Function.update_same _ _ _) _ _ hne hn hc1
      · show some n = ((a :: l) ++ [n]).getLast?
        rw [List.getLast?_append]
        rfl
  · intro hl
    subst hl
    rw [slist_chain_nil] at hc
    unfold slist_pop_head
    rw [hc]
  · intro a rest hl
    subst hl
    have hnd := slist_chain_nodup _ _ _ hc
    have har : a ∉ rest := (List.nodup_cons.mp hnd).1
    obtain ⟨hf, hc2⟩ := hc
    unfold slist_pop_head
    simp only [hf]
    refine ⟨_, rfl, Function.update_same _ _ _, ?_⟩
    cases rest with
    | nil =>
      rw [slist_chain_nil] at hc2
      simp only [hc2, if_true]
      exact ⟨rfl, rfl⟩
    | cons b rest =>
      have hnb : h.next a = some b := hc2.1
      simp only [hnb]
      refine ⟨?_, ?_⟩
      · show slist_chain (Function.update h.next a none) (some b) (b :: rest)
        rw [← hnb]
        exact slist_chain_frame _ _ _ _ _ har hc2
      · show h.last = _
        rw [hlast]; simp [List.getLast?_cons_cons]

theorem slist_main2_wf : slist_wf slist_main2 [2, 1, 0, 3, 4, 5] :=
  ⟨⟨rfl, rfl, rfl, rfl, rfl, rfl, rfl⟩, rfl⟩

/-- The run of `main` in slist.c (C19): the items 0, 1, 2 added at the head and 3, 4, 5 at
the tail give [2, 1, 0, 3, 4, 5], `slist_pop_head` returns 2, and a further item 6 can be
added at either end. -/
theorem slist_add_pop_witness :
    slist_wf slist_main2 [2, 1, 0, 3, 4, 5] ∧ 6 ∉ [2, 1, 0, 3, 4, 5] ∧
    print_list 6 slist_main1 = [2, 1, 0] ∧
    print_list 6 slist_main2 = [2, 1, 0, 3, 4, 5] ∧
    (slist_pop_head slist_main2).1 = some 2 ∧
    print_list 6 slist_main3 = [1, 0, 3, 4, 5] ∧
    ((6 ∉ [2, 1, 0, 3, 4, 5] → slist_wf (slist_add_head 6 slist_main2) [6, 2, 1, 0, 3, 4, 5]) ∧
    (6 ∉ [2, 1, 0, 3, 4, 5] →
      ∃ h', slist_add_tail 6 slist_main2 = some h' ∧ slist_wf h' ([2, 1, 0, 3, 4, 5] ++ [6])) ∧
    ([2, 1, 0, 3, 4, 5] = [] → slist_pop_head slist_main2 = (none, slist_main2)) ∧
    (∀ a rest, [2, 1, 0, 3, 4, 5] = a :: rest →
      ∃ h', slist_pop_head slist_main2 = (some a, h') ∧ h'.next a = none ∧ slist_wf h' rest)) :=
  ⟨slist_main2_wf, by decide, by decide, by decide, rfl, by decide,
    slist_add_pop slist_main2 [2, 1, 0, 3, 4, 5] 6 slist_main2_wf⟩


theorem slist_del_loop_absent (target : Nat) (h : slist_head) :
    ∀ l pp fuel, slist_chain h.next (slist_read h pp) l → target ∉ l → l.length < fuel →
      slist_del_loop fuel target h pp = some h := by
  intro l
  induction l with
  | nil =>
    intro pp fuel hc _ hf
    rw [slist_chain_nil] at hc
    cases fuel with
    | zero => simp at hf
    | succ fuel =>
      unfold slist_del_loop
      rw [hc]
  | cons a l ih =>
    intro pp fuel hc ht hf
    rw [slist_chain_cons] at hc
    cases fuel with
    | zero => simp at hf
    | succ fuel =>
      unfold slist_del_loop
      rw [hc.1]
      have hat : a ≠ target := fun hh => ht (hh ▸ List.mem_cons_self _ _)
      simp only [hat, if_false]
      exact ih (.node_next a) fuel hc.2 (fun hh => ht (List.mem_cons_of_mem _ hh))
        (by simpa using hf)

/-- The link at which the loop of `slist_del` stops after it has skipped the nodes `l1`. -/
theorem slist_del_loop_found (target : Nat) (h : slist_head) (l2 : List Nat) :
    ∀ l1 pp fuel, slist_chain h.next (slist_read h pp) (l1 ++ target :: l2) → target ∉ l1 →
      l1.length < fuel →
      slist_del_loop fuel target h pp =
        some (slist_unlink h (match l1.getLast? with
          | none => pp
          | some p => .node_next p) target) := by
  intro l1
  induction l1 with
  | nil =>
    intro pp fuel hc _ hf
    rw [List.nil_append, slist_chain_cons] at hc
    cases fuel with
    | zero => simp at hf
    | succ fuel =>
      unfold slist_del_loop
      rw [hc.1]
      simp
  | cons a l1 ih =>
    intro pp fuel hc ht hf
    rw [List.cons_append, slist_chain_cons] at hc
    cases fuel with
    | zero => simp at hf
    | succ fuel =>
      unfold slist_del_loop
      rw [hc.1]
      have hat : a ≠ target := fun hh => ht (hh ▸ List.mem_cons_self _ _)
      simp only [hat, if_false]
      rw [ih (.node_next a) fuel hc.2 (fun hh => ht (List.mem_cons_of_mem _ hh))
        (by simpa using hf)]
      cases l1 with
      | nil => rfl
      | cons b l1 =>
        rw [List.getLast?_cons_cons, List.getLast?_eq_getLast (b :: l1) (by simp)]

/-- Redirecting the `next` of the node before `target` to the node after it drops `target`
from the chain. -/
theorem slist_chain_relink (next : Nat → Option Nat) (target : Nat) (l2 : List Nat) :
    ∀ l1 p (hne : l1 ≠ []), slist_chain next p (l1 ++ target :: l2) →
      slist_chain (Function.update next (l1.getLast hne) (next target)) p (l1 ++ l2) := by
  intro l1
  induction l1 with
  | nil => intro p hne; exact absurd rfl hne
  | cons a l1 ih =>
    intro p hne hc
    have hnd := slist_chain_nodup next _ _ hc
    rw [List.cons_append, slist_chain_cons] at hc
    rw [List.cons_append, List.nodup_cons] at hnd
    cases l1 with
    | nil =>
      rw [List.nil_append, slist_chain_cons] at hc
      show slist_chain (Function.update next a (next target)) p (a :: l2)
      rw [slist_chain_cons, Function.update_same]
      refine ⟨hc.1, slist_chain_frame _ _ _ _ _ ?_ hc.2.2⟩
      exact fun hh => hnd.1 (List.mem_cons_of_mem _ hh)
    | cons b l1 =>
      have hlast : (a :: b :: l1).getLast hne = (b :: l1).getLast (by simp) := by
        simp [List.getLast_cons]
      rw [hlast, List.cons_append, slist_chain_cons]
      refine ⟨hc.1, ?_⟩
      have hal : a ≠ (b :: l1).getLast (by simp) := by
        intro hh
        exact hnd.1 (List.mem_append_left _ (hh ▸ List.getLast_mem _))
      rw [Function.update_noteq hal]
      exact ih _ (by simp) hc.2

theorem slist_unlink_first (h : slist_head) (pp : slist_link) (target : Nat) :
    (slist_unlink h pp target).first = (slist_write h pp (h.next target)).first ∧
    (slist_unlink h pp target).next =
      Function.update (slist_write h pp (h.next target)).next target none := by
  unfold slist_unlink
  simp only
  split <;> exact ⟨rfl, rfl⟩

/-- The loop of `slist_del` ends within `fuel` iterations and leaves the chain from
`first` without `target`. -/
theorem slist_del_chain (h : slist_head) (l : List Nat) (target : Nat) (fuel : Nat)
    (hwf : slist_wf h l) (hfuel : l.length < fuel) :
    ∃ h', slist_del fuel target h = some h' ∧
      slist_chain h'.next h'.first (l.erase target) ∧
      (target ∈ l → h'.next target = none) ∧
      (target ∉ l → h' = h) := by
  obtain ⟨hc, _⟩ := hwf
  by_cases ht : target ∈ l
  · obtain ⟨l1, l2, hl, ht1⟩ := List.eq_append_cons_of_mem ht
    subst hl
    have hnd := slist_chain_nodup _ _ _ hc
    have hlen : l1.length < fuel := by
      rw [List.length_append] at hfuel; omega
    have hdel := slist_del_loop_found target h l2 l1 .head_first fuel hc ht1 hlen
    have her : (l1 ++ target :: l2).erase target = l1 ++ l2 := by
      rw [List.erase_append_right _ ht1, List.erase_cons_head]
    have ht12 : target ∉ l1 ++ l2 := by
      intro hh
      rcases List.mem_append.mp hh with hh | hh
      · exact ht1 hh
      · have := (List.nodup_append.mp hnd).2.1
        exact (List.nodup_cons.mp this).1 hh
    refine ⟨_, hdel, ?_, fun _ => ?_, fun hn => absurd ht hn⟩
    · rw [her]
      cases hgl : l1.getLast? with
      | none =>
        have hl1 : l1 = [] := List.getLast?_eq_none_iff.mp hgl
        subst hl1
        obtain ⟨hf1, hf2⟩ := slist_unlink_first h .head_first target
        simp only
        rw [hf1, hf2]
        rw [List.nil_append, slist_chain_cons] at hc
        rw [List.nil_append] at ht12 ⊢
        exact slist_chain_frame _ _ _ _ _ ht12 hc.2
      | some p =>
        have hne : l1 ≠ [] := by rintro rfl; simp at hgl
        have hp : p = l1.getLast hne := by
          rw [List.getLast?_eq_getLast _ hne] at hgl
          exact (Option.some.inj hgl).symm
        obtain ⟨hf1, hf2⟩ := slist_unlink_first h (.node_next p) target
        simp only
        rw [hf1, hf2]
        apply slist_chain_frame _ _ _ _ _ ht12
        show slist_chain (Function.update h.next p (h.next target)) h.first (l1 ++ l2)
        rw [hp]
        exact slist_chain_relink h.next target l2 l1 _ hne hc
    · rw [(slist_unlink_first h _ target).2]
      exact Function.update_same _ _ _
  · refine ⟨h, slist_del_loop_absent target h l .head_first fuel hc ht hfuel, ?_,
      fun hh => absurd hh ht, fun _ => rfl⟩
    rw [List.erase_of_not_mem ht]
    exact hc

/-- C20 (singly linked list delete): for a well-formed list with node sequence `l` and a
node `target`, `slist_del(target, h)` terminates within `length l + 1` iterations; when
`target` is in the list it is removed from the sequence reachable from `h->first` (the nodes
a traversal then visits), its `next` is cleared and all other nodes keep their order; when
it is not in the list the list is unchanged. -/
theorem slist_del_removes (h : slist_head) (l : List Nat) (target : Nat) (fuel : Nat)
    (hwf : slist_wf h l) (hfuel : l.length < fuel) :
    ∃ h', slist_del fuel target h = some h' ∧
      slist_chain h'.next h'.first (l.erase target) ∧
      slist_walk fuel h'.next h'.first = l.erase target ∧
      (target ∈ l → h'.next target = none) ∧
      (target ∉ l → h' = h) := by
  obtain ⟨h', hdel, hchain, hnext, habs⟩ := slist_del_chain h l target fuel hwf hfuel
  refine ⟨h', hdel, hchain, ?_, hnext, habs⟩
  apply slist_walk_chain _ _ _ _ hchain
  have hle : (l.erase target).length ≤ l.length := (List.erase_sublist target l).length_le
  omega

theorem slist_main3_wf : slist_wf slist_main3 [1, 0, 3, 4, 5] :=
  ⟨⟨rfl, rfl, rfl, rfl, rfl, rfl⟩, rfl⟩

/-- The deletions of `main` in slist.c (C20): deleting the even-keyed nodes from
[1, 0, 3, 4, 5] during a safe traversal leaves [1, 3, 5]; the first of these deletions
removes node 0. -/
theorem slist_del_removes_witness :
    slist_wf slist_main3 [1, 0, 3, 4, 5] ∧ [1, 0, 3, 4, 5].length < 6 ∧
    print_list 6 slist_main3 = [1, 0, 3, 4, 5] ∧
    (slist_remove_even 6 slist_main3 slist_main3.first).map (print_list 6) = some [1, 3, 5] ∧
    ∃ h', slist_del 6 0 slist_main3 = some h' ∧
      slist_chain h'.next h'.first ([1, 0, 3, 4, 5].erase 0) ∧
      slist_walk 6 h'.next h'.first = [1, 0, 3, 4, 5].erase 0 ∧
      (0 ∈ [1, 0, 3, 4, 5] → h'.next 0 = none) ∧
      (0 ∉ [1, 0, 3, 4, 5] → h' = slist_main3) :=
  ⟨slist_main3_wf, by decide, by decide, by decide,
    slist_del_removes slist_main3 [1, 0, 3, 4, 5] 0 6 slist_main3_wf (by decide)⟩


theorem reachable_bucket_lt {capacity bucket_size : Nat} {c : lru_cache}
    (h : Reachable capacity bucket_size c) : bucket_size < 2 ^ 32 := by
  induction h with
  | create mc mb c _ hb _ => exact hb
  | get c key value _ ih => exact ih
  | put c key value mem r c' _ _ _ ih => exact ih

/-- C21 (bucket placement): in every state reachable from `lru_cache_create` by get and put
calls, every live entry is linked once into the chain `buckets[hash_function(key) %
bucket_size]` and into no other chain, so that `cache_lookup(cache, k)` returns the live
entry with key `k` when there is one and NULL otherwise. -/
theorem bucket_placement (capacity bucket_size : Nat) (c : lru_cache)
    (h : Reachable capacity bucket_size c) :
    (∀ a ∈ c.lru_head, ∃ n, c.nodes a = some n ∧
      a ∈ c.buckets.getD (hash_function n.key % c.bucket_size) [] ∧
      ∀ i, a ∈ c.buckets.getD i [] → i = hash_function n.key % c.bucket_size) ∧
    c.buckets.flatten.Nodup ∧
    (∀ a, a ∈ c.buckets.flatten → a ∈ c.lru_head) ∧
    (∀ k a, cache_lookup c k = some a ↔
      a ∈ c.lru_head ∧ ∃ n, c.nodes a = some n ∧ n.key = k) ∧
    (∀ k, cache_lookup c k = none ↔ k ∉ lru_keys c) := by
  have hw := reachable_wf h
  have hbs : c.bucket_size < 2 ^ 32 := by
    rw [(reachable_sizes h).2]; exact reachable_bucket_lt h
  have hidx : ∀ k : Key, (hash_function k % c.bucket_size) % 2 ^ 32 =
      hash_function k % c.bucket_size := by
    intro k
    exact Nat.mod_eq_of_lt (lt_trans (Nat.mod_lt _ hw.bs_pos) hbs)
  refine ⟨?_, flatten_nodup hw, fun a ha => (mem_flatten_iff hw a).mp ha, ?_, ?_⟩
  · intro a ha
    obtain ⟨n, hn⟩ := hw.live a ha
    refine ⟨n, hn, ?_, ?_⟩
    · rw [← hidx]
      exact (hw.chain_mem _ a).mpr ⟨ha, n, hn, rfl⟩
    · intro i hi
      obtain ⟨_, n', hn', hi'⟩ := (hw.chain_mem i a).mp hi
      rw [hn] at hn'
      simp only [Option.some.injEq] at hn'
      subst hn'
      rw [← hi', hidx]
  · intro k a
    constructor
    · exact lookup_some hw
    · rintro ⟨ha, n, hn, rfl⟩
      exact lookup_of_mem hw ha hn
  · intro k
    constructor
    · intro hl
      exact absent_iff.mp (lookup_none hw hl)
    · intro hk
      exact absent_lookup hw (absent_iff.mpr hk)

/-- Bucket placement (C21) in the cache [C, B] reached through an eviction. -/
theorem bucket_placement_witness :
    Reachable 2 16 demo3 ∧
    ((∀ a ∈ demo3.lru_head, ∃ n, demo3.nodes a = some n ∧
      a ∈ demo3.buckets.getD (hash_function n.key % demo3.bucket_size) [] ∧
      ∀ i, a ∈ demo3.buckets.getD i [] → i = hash_function n.key % demo3.bucket_size) ∧
    demo3.buckets.flatten.Nodup ∧
    (∀ a, a ∈ demo3.buckets.flatten → a ∈ demo3.lru_head) ∧
    (∀ k a, cache_lookup demo3 k = some a ↔
      a ∈ demo3.lru_head ∧ ∃ n, demo3.nodes a = some n ∧ n.key = k) ∧
    (∀ k, cache_lookup demo3 k = none ↔ k ∉ lru_keys demo3)) :=
  have hr : Reachable 2 16 demo3 :=
    Reachable.put demo2 keyC 30 (.ok 100) 0 demo3 demo2_reachable demo3_valid demo3_put
  ⟨hr, bucket_placement 2 16 demo3 hr⟩

theorem hash_step_eq (h : Nat) (c : Int) (hc : 0 ≤ c) :
    Int.toNat ((((((h <<< 5) % 2 ^ 64 + h) % 2 ^ 64 : Nat) : Int) + c) % 2 ^ 64) =
      (h * 33 + c.toNat) % 2 ^ 64 := by
  obtain ⟨b, rfl⟩ := Int.eq_ofNat_of_zero_le hc
  rw [Int.toNat_ofNat, Nat.shiftLeft_eq]
  have : ((((h * 2 ^ 5) % 2 ^ 64 + h) % 2 ^ 64 : Nat) : Int) + (b : Int) =
      (((((h * 2 ^ 5) % 2 ^ 64 + h) % 2 ^ 64 + b : Nat)) : Int) := by push_cast; rfl
  rw [this]
  have h2 : ((2 : Int) ^ 64) = ((2 ^ 64 : Nat) : Int) := by norm_num
  rw [h2, ← Int.natCast_mod, Int.toNat_ofNat]
  omega

theorem hash_loop_eq_fold :
    ∀ (key : Key) (h : Nat), (∀ c ∈ key, 0 ≤ c) →
      hash_loop h key = (key.map Int.toNat).foldl (fun h b => (h * 33 + b) % 2 ^ 64) h := by
  intro key
  induction key with
  | nil => intro h _; rfl
  | cons c key ih =>
    intro h hpos
    show hash_loop _ key = _
    rw [hash_step_eq h c (hpos c (List.mem_cons_self _ _)),
      ih _ (fun x hx => hpos x (List.mem_cons_of_mem _ hx))]
    rfl

/-- C22 (the hash function is djb2): for every key made of ASCII bytes (1..127),
`hash_function(key)` is the left fold over the bytes of `h -> (h * 33 + byte) mod 2^64`
from 5381; `hash_function("")` is 5381; the shift-and-add form `((h << 5) + h) + c` on a
64-bit `unsigned long` agrees with `h * 33 + c` modulo `2^64`; and equal strings have equal
hashes. -/
theorem hash_function_is_djb2 (key : Key) (hascii : ∀ c ∈ key, 1 ≤ c ∧ c ≤ 127) :
    hash_function key = djb2 (key.map Int.toNat) ∧
    hash_function [] = 5381 ∧
    (∀ h c : Nat, (((h <<< 5) % 2 ^ 64 + h) % 2 ^ 64 + c) % 2 ^ 64 = (h * 33 + c) % 2 ^ 64) ∧
    (∀ key' : Key, key' = key → hash_function key' = hash_function key) := by
  refine ⟨?_, rfl, ?_, fun key' hk => by rw [hk]⟩
  · unfold hash_function djb2
    exact hash_loop_eq_fold key 5381 (fun c hc => by have := (hascii c hc).1; omega)
  · intro h c
    rw [Nat.shiftLeft_eq]
    omega

/-- The hash of "A" (C22): `5381 * 33 + 65`. -/
theorem hash_function_is_djb2_witness :
    (∀ c ∈ keyA, 1 ≤ c ∧ c ≤ 127) ∧ hash_function keyA = 177638 ∧
    (hash_function keyA = djb2 (keyA.map Int.toNat) ∧
    hash_function [] = 5381 ∧
    (∀ h c : Nat, (((h <<< 5) % 2 ^ 64 + h) % 2 ^ 64 + c) % 2 ^ 64 = (h * 33 + c) % 2 ^ 64) ∧
    (∀ key' : Key, key' = keyA → hash_function key' = hash_function keyA)) :=
  ⟨by decide, by decide, hash_function_is_djb2 keyA (by decide)⟩


/-! ## The validator of the binary search tree -/

theorem bt_is_bst_util_node (d : Int) (l r : bt_node) (lo hi : Int) :
    bt_is_bst_util (.node d l r) lo hi =
      if d < lo ∨ d > hi then 0
      else if bt_is_bst_util l lo (wrap_int (d - 1)) ≠ 0 ∧
          bt_is_bst_util r (wrap_int (d + 1)) hi ≠ 0 then 1
      else 0 := rfl

theorem bt_is_bst_util_bool : ∀ t lo hi, bt_is_bst_util t lo hi = 0 ∨ bt_is_bst_util t lo hi = 1 := by
  intro t lo hi
  cases t with
  | null => exact Or.inr rfl
  | node d l r =>
    rw [bt_is_bst_util_node]
    split
    · exact Or.inl rfl
    · split
      · exact Or.inr rfl
      · exact Or.inl rfl

theorem wrap_int_id (x : Int) (h1 : INT_MIN ≤ x) (h2 : x ≤ INT_MAX) : wrap_int x = x := by
  unfold wrap_int
  unfold INT_MIN at h1
  unfold INT_MAX at h2
  omega

/-- Away from the two wrapping bounds `bt_is_bst_util` accepts exactly the strict binary
search trees whose values lie between `lo` and `hi`. -/
theorem bt_is_bst_util_spec :
    ∀ t lo hi, bt_int_range t → bt_no_wrap t → INT_MIN ≤ lo → hi ≤ INT_MAX →
      (bt_is_bst_util t lo hi = 1 ↔
        strict_bst t ∧ ∀ x ∈ bt_inorder t, lo ≤ x ∧ x ≤ hi) := by
  intro t
  induction t with
  | null =>
    intro lo hi _ _ _ _
    simp [bt_is_bst_util, strict_bst, bt_inorder]
  | node d l r ihl ihr =>
    intro lo hi hrange hnw hlo hhi
    obtain ⟨hd1, hd2, hrl, hrr⟩ := hrange
    obtain ⟨hwl, hwr, hnl, hnr⟩ := hnw
    have hleft : bt_is_bst_util l lo (wrap_int (d - 1)) = 1 ↔
        strict_bst l ∧ ∀ x ∈ bt_inorder l, lo ≤ x ∧ x < d := by
      by_cases hmin : d = INT_MIN
      · rw [hwl hmin]
        simp [bt_is_bst_util, strict_bst, bt_inorder]
      · have hgt : INT_MIN < d := lt_of_le_of_ne hd1 (Ne.symm hmin)
        have hw : wrap_int (d - 1) = d - 1 :=
          wrap_int_id _ (by unfold INT_MIN at hgt ⊢; omega) (by unfold INT_MAX at hd2 ⊢; omega)
        rw [hw, ihl lo (d - 1) hrl hnl hlo (by unfold INT_MAX at hd2 ⊢; omega)]
        constructor
        · rintro ⟨hs, hb⟩
          exact ⟨hs, fun x hx => ⟨(hb x hx).1, by have := (hb x hx).2; omega⟩⟩
        · rintro ⟨hs, hb⟩
          exact ⟨hs, fun x hx => ⟨(hb x hx).1, by have := (hb x hx).2; omega⟩⟩
    have hright : bt_is_bst_util r (wrap_int (d + 1)) hi = 1 ↔
        strict_bst r ∧ ∀ x ∈ bt_inorder r, d < x ∧ x ≤ hi := by
      by_cases hmax : d = INT_MAX
      · rw [hwr hmax]
        simp [bt_is_bst_util, strict_bst, bt_inorder]
      · have hlt : d < INT_MAX := lt_of_le_of_ne hd2 hmax
        have hw : wrap_int (d + 1) = d + 1 :=
          wrap_int_id _ (by unfold INT_MIN at hd1 ⊢; omega) (by unfold INT_MAX at hlt ⊢; omega)
        rw [hw, ihr (d + 1) hi hrr hnr (by unfold INT_MIN at hd1 ⊢; omega) hhi]
        constructor
        · rintro ⟨hs, hb⟩
          exact ⟨hs, fun x hx => ⟨by have := (hb x hx).1; omega, (hb x hx).2⟩⟩
        · rintro ⟨hs, hb⟩
          exact ⟨hs, fun x hx => ⟨by have := (hb x hx).1; omega, (hb x hx).2⟩⟩
    have hl01 := bt_is_bst_util_bool l lo (wrap_int (d - 1))
    have hr01 := bt_is_bst_util_bool r (wrap_int (d + 1)) hi
    rw [bt_is_bst_util_node]
    constructor
    · intro h
      split at h
      · exact absurd h (by decide)
      · rename_i hin
        push_neg at hin
        split at h
        · rename_i hboth
          have h1 : bt_is_bst_util l lo (wrap_int (d - 1)) = 1 := by
            rcases hl01 with h0 | h1
            · exact absurd h0 hboth.1
            · exact h1
          have h2 : bt_is_bst_util r (wrap_int (d + 1)) hi = 1 := by
            rcases hr01 with h0 | h1
            · exact absurd h0 hboth.2
            · exact h1
          obtain ⟨hsl, hbl⟩ := hleft.mp h1
          obtain ⟨hsr, hbr⟩ := hright.mp h2
          refine ⟨⟨fun x hx => (hbl x hx).2, fun x hx => (hbr x hx).1, hsl, hsr⟩, ?_⟩
          intro x hx
          rw [bt_inorder_node, List.mem_append, List.mem_cons] at hx
          rcases hx with hx | rfl | hx
          · exact ⟨(hbl x hx).1, by have := (hbl x hx).2; omega⟩
          · exact hin
          · exact ⟨by have := (hbr x hx).1; omega, (hbr x hx).2⟩
        · exact absurd h (by decide)
    · rintro ⟨⟨hld, hdr, hsl, hsr⟩, hb⟩
      have hml : ∀ x ∈ bt_inorder l, x ∈ bt_inorder (.node d l r) := by
        intro x hx
        rw [bt_inorder_node]
        exact List.mem_append_left _ hx
      have hmr : ∀ x ∈ bt_inorder r, x ∈ bt_inorder (.node d l r) := by
        intro x hx
        rw [bt_inorder_node]
        exact List.mem_append_right _ (List.mem_cons_of_mem _ hx)
      have hbd := hb d (by rw [bt_inorder_node]; simp)
      have h1 : bt_is_bst_util l lo (wrap_int (d - 1)) = 1 :=
        hleft.mpr ⟨hsl, fun x hx => ⟨(hb x (hml x hx)).1, hld x hx⟩⟩
      have h2 : bt_is_bst_util r (wrap_int (d + 1)) hi = 1 :=
        hright.mpr ⟨hsr, fun x hx => ⟨hdr x hx, (hb x (hmr x hx)).2⟩⟩
      have hnot : ¬ (d < lo ∨ d > hi) := by
        push_neg
        exact hbd
      rw [if_neg hnot, if_pos ⟨by rw [h1]; decide, by rw [h2]; decide⟩]

theorem bt_mem_range : ∀ t, bt_int_range t → ∀ x ∈ bt_inorder t, INT_MIN ≤ x ∧ x ≤ INT_MAX := by
  intro t
  induction t with
  | null => intro _ x hx; simp [bt_inorder] at hx
  | node d l r ihl ihr =>
    intro h x hx
    obtain ⟨hd1, hd2, hrl, hrr⟩ := h
    rw [bt_inorder_node, List.mem_append, List.mem_cons] at hx
    rcases hx with hx | rfl | hx
    · exact ihl hrl x hx
    · exact ⟨hd1, hd2⟩
    · exact ihr hrr x hx

/-- A strict binary search tree of C ints links nothing where a bound wraps. -/
theorem strict_bst_no_wrap : ∀ t, bt_int_range t → strict_bst t → bt_no_wrap t := by
  intro t
  induction t with
  | null => intro _ _; trivial
  | node d l r ihl ihr =>
    intro hrange hs
    obtain ⟨hd1, hd2, hrl, hrr⟩ := hrange
    obtain ⟨hld, hdr, hsl, hsr⟩ := hs
    refine ⟨?_, ?_, ihl hrl hsl, ihr hrr hsr⟩
    · intro hmin
      cases l with
      | null => rfl
      | node d' l' r' =>
        exfalso
        have hm : d' ∈ bt_inorder (.node d' l' r') := by rw [bt_inorder_node]; simp
        have h1 := hld d' hm
        have h2 := (bt_mem_range _ hrl d' hm).1
        omega
    · intro hmax
      cases r with
      | null => rfl
      | node d' l' r' =>
        exfalso
        have hm : d' ∈ bt_inorder (.node d' l' r') := by rw [bt_inorder_node]; simp
        have h1 := hdr d' hm
        have h2 := (bt_mem_range _ hrr d' hm).2
        omega

/-- What holds of `bt_is_bst` on trees of C ints: every strict binary search tree is
accepted, and an accepted tree is a strict binary search tree provided no node holding
`INT_MIN` has a left child and no node holding `INT_MAX` has a right child. -/
theorem bt_is_bst_sound (t : bt_node) (hrange : bt_int_range t) :
    (strict_bst t → bt_is_bst t = 1) ∧
    (bt_no_wrap t → bt_is_bst t = 1 → strict_bst t) ∧
    (bt_is_bst t = 0 ∨ bt_is_bst t = 1) := by
  refine ⟨?_, ?_, bt_is_bst_util_bool t _ _⟩
  · intro hs
    unfold bt_is_bst
    rw [bt_is_bst_util_spec t _ _ hrange (strict_bst_no_wrap t hrange hs) (le_refl _) (le_refl _)]
    exact ⟨hs, bt_mem_range t hrange⟩
  · intro hnw h1
    unfold bt_is_bst at h1
    exact ((bt_is_bst_util_spec t _ _ hrange hnw (le_refl _) (le_refl _)).mp h1).1

/-- C23 fails on the code: the tree with root `INT_MIN` and left child 5, and the tree with
root `INT_MAX` and right child 5, are trees of C ints that are not binary search trees, and
`bt_is_bst` returns 1 on both: `INT_MIN - 1` wraps to `INT_MAX` and `INT_MAX + 1` to
`INT_MIN`, so the subtree on that side is checked against no bound. -/
theorem bt_is_bst_wraps :
    bt_int_range bt_min_left ∧ ¬ strict_bst bt_min_left ∧ bt_is_bst bt_min_left = 1 ∧
    bt_int_range bt_max_right ∧ ¬ strict_bst bt_max_right ∧ bt_is_bst bt_max_right = 1 ∧
    wrap_int (INT_MIN - 1) = INT_MAX ∧ wrap_int (INT_MAX + 1) = INT_MIN := by
  refine ⟨?_, ?_, by decide, ?_, ?_, by decide, by decide, by decide⟩
  · exact ⟨by decide, by decide, ⟨by decide, by decide, trivial, trivial⟩, trivial⟩
  · intro h
    have := h.1 5 (by decide)
    exact absurd this (by decide)
  · exact ⟨by decide, by decide, trivial, ⟨by decide, by decide, trivial, trivial⟩⟩
  · intro h
    have := h.2.1 5 (by decide)
    exact absurd this (by decide)


/-! ## The tail pointer of the singly linked list -/

theorem slist_read_write (h : slist_head) (pp : slist_link) (p : Option Nat) :
    slist_read (slist_write h pp p) pp = p ∧ (slist_write h pp p).last = h.last := by
  cases pp with
  | head_first => exact ⟨rfl, rfl⟩
  | node_next a => exact ⟨Function.update_same _ _ _, rfl⟩

/-- The `last` pointer that the unlinking of `slist_del` leaves behind. -/
theorem slist_unlink_last (h : slist_head) (pp : slist_link) (target : Nat) :
    (slist_unlink h pp target).last =
      if h.last = some target then (if h.next target = none then none else h.last)
      else h.last := by
  obtain ⟨hr, hl⟩ := slist_read_write h pp (h.next target)
  unfold slist_unlink
  simp only
  by_cases hl' : h.last = some target
  · rw [if_pos (by rw [hl]; exact hl'), if_pos hl']
    show (if slist_read (slist_write h pp (h.next target)) pp = none then none
      else (slist_write h pp (h.next target)).last) = _
    rw [hr, hl]
  · rw [if_neg (by rw [hl]; exact hl'), if_neg hl']
    exact hl

theorem slist_chain_last_next (next : Nat → Option Nat) :
    ∀ l p t, slist_chain next p l → l.getLast? = some t → next t = none := by
  intro l
  induction l with
  | nil => intro p t _ ht; simp at ht
  | cons a l ih =>
    intro p t hc ht
    rw [slist_chain_cons] at hc
    cases l with
    | nil =>
      simp at ht
      subst ht
      exact hc.2
    | cons b l =>
      rw [List.getLast?_cons_cons] at ht
      exact ih _ t hc.2 ht

/-- What `slist_del` returns when `target` is in the list. -/
theorem slist_del_found (h : slist_head) (l1 l2 : List Nat) (target fuel : Nat)
    (hc : slist_chain h.next h.first (l1 ++ target :: l2)) (ht : target ∉ l1)
    (hfuel : (l1 ++ target :: l2).length < fuel) :
    ∃ pp, slist_del fuel target h = some (slist_unlink h pp target) :=
  ⟨_, slist_del_loop_found target h l2 l1 .head_first fuel hc ht
    (by rw [List.length_append] at hfuel; omega)⟩

/-- The defect behind C24 in general: `slist_del` of the last node of a well-formed list
with two or more nodes leaves `first` non-NULL and `last` NULL. -/
theorem slist_del_tail_null (h : slist_head) (l : List Nat) (target fuel : Nat)
    (hwf : slist_wf h l) (hlast : l.getLast? = some target) (hlen : 2 ≤ l.length)
    (hfuel : l.length < fuel) :
    ∃ h', slist_del fuel target h = some h' ∧ h'.first ≠ none ∧ h'.last = none ∧
      slist_chain h'.next h'.first l.dropLast := by
  have hnd := slist_chain_nodup _ _ _ hwf.1
  have hmem : target ∈ l := List.mem_of_getLast?_eq_some hlast
  obtain ⟨l1, l2, hl, ht1⟩ := List.eq_append_cons_of_mem hmem
  obtain ⟨h', hdel, hchain, _, _⟩ := slist_del_chain h l target fuel hwf hfuel
  obtain ⟨pp, hdel'⟩ := slist_del_found h l1 l2 target fuel (hl ▸ hwf.1) ht1 (hl ▸ hfuel)
  have heq : h' = slist_unlink h pp target := by
    rw [hdel] at hdel'
    exact Option.some.inj hdel'
  have herase : l.erase target = l.dropLast := by
    have hne : l ≠ [] := by rintro rfl; simp at hlast
    have hsplit := List.dropLast_append_getLast hne
    rw [List.getLast?_eq_getLast l hne] at hlast
    have hg : l.getLast hne = target := Option.some.inj hlast
    rw [hg] at hsplit
    have hnot : target ∉ l.dropLast := by
      intro hin
      rw [← hsplit] at hnd
      exact (List.nodup_append.mp hnd).2.2 hin (by simp)
    conv_lhs => rw [← hsplit]
    rw [List.erase_append_right _ hnot]
    simp
  rw [herase] at hchain
  refine ⟨h', hdel, ?_, ?_, hchain⟩
  · intro hnone
    have hdl : l.dropLast ≠ [] := by
      intro hnil
      have := congrArg List.length hnil
      rw [List.length_dropLast] at this
      simp at this
      omega
    cases hd : l.dropLast with
    | nil => exact hdl hd
    | cons a rest =>
      rw [hd, slist_chain_cons, hnone] at hchain
      exact absurd hchain.1 (by simp)
  · rw [heq, slist_unlink_last, if_pos (by rw [hwf.2, hlast]),
      if_pos (slist_chain_last_next _ _ _ _ hwf.1 hlast)]

/-- Where `slist_del` does keep the tail pointer: when `target` is not the last node, or is
the only node, or is not in the list at all. -/
theorem slist_del_keeps_last (h : slist_head) (l : List Nat) (target fuel : Nat)
    (hwf : slist_wf h l) (hcase : l.getLast? ≠ some target ∨ l.length ≤ 1)
    (hfuel : l.length < fuel) :
    ∃ h', slist_del fuel target h = some h' ∧ slist_wf h' (l.erase target) := by
  obtain ⟨h', hdel, hchain, _, habs⟩ := slist_del_chain h l target fuel hwf hfuel
  refine ⟨h', hdel, hchain, ?_⟩
  by_cases hmem : target ∈ l
  · obtain ⟨l1, l2, hl, ht1⟩ := List.eq_append_cons_of_mem hmem
    obtain ⟨pp, hdel'⟩ := slist_del_found h l1 l2 target fuel (hl ▸ hwf.1) ht1 (hl ▸ hfuel)
    have heq : h' = slist_unlink h pp target := by
      rw [hdel] at hdel'
      exact Option.some.inj hdel'
    have her : l.erase target = l1 ++ l2 := by
      rw [hl, List.erase_append_right _ ht1, List.erase_cons_head]
    rw [heq, slist_unlink_last, her]
    by_cases hlast : l.getLast? = some target
    · have hlen : l.length ≤ 1 := by
        rcases hcase with hc | hc
        · exact absurd hlast hc
        · exact hc
      have h12 : l1 = [] ∧ l2 = [] := by
        rw [hl, List.length_append, List.length_cons] at hlen
        constructor
        · apply List.eq_nil_of_length_eq_zero; omega
        · apply List.eq_nil_of_length_eq_zero; omega
      rw [h12.1, h12.2]
      rw [if_pos (by rw [hwf.2, hlast]), if_pos (slist_chain_last_next _ _ _ _ hwf.1 hlast)]
      rfl
    · rw [if_neg (by rw [hwf.2]; exact hlast), hwf.2, hl]
      have hl2 : l2 ≠ [] := by
        intro hnil
        apply hlast
        rw [hl, hnil]
        simp
      rw [List.getLast?_append_of_ne_nil _ (by simp), List.getLast?_append_of_ne_nil _ hl2]
      cases l2 with
      | nil => exact absurd rfl hl2
      | cons b l2 => rw [List.getLast?_cons_cons]
  · rw [habs hmem, List.erase_of_not_mem hmem]
    exact hwf.2

theorem slist_two_wf : slist_wf slist_two [1, 2] :=
  ⟨⟨rfl, rfl, rfl⟩, rfl⟩

/-- C24 fails on the code: the list [1, 2], built from the empty head by two
`slist_add_tail`, is well-formed; `slist_del` of its last node 2 leaves `first` at node 1
and `last` NULL, so `last` is NULL while `first` is not and no node sequence makes the list
well-formed; a following `slist_add_tail` dereferences the NULL `last`. -/
theorem slist_del_tail_breaks :
    slist_wf slist_two [1, 2] ∧
    slist_del 3 2 slist_two = some slist_two_del ∧
    slist_two_del.first = some 1 ∧ slist_two_del.last = none ∧
    slist_chain slist_two_del.next slist_two_del.first [1] ∧
    (¬ ∃ l, slist_wf slist_two_del l) ∧
    slist_add_tail 3 slist_two_del = none := by
  have hc : slist_chain slist_two_del.next slist_two_del.first [1] := ⟨rfl, rfl⟩
  refine ⟨slist_two_wf, rfl, rfl, rfl, hc, ?_, rfl⟩
  rintro ⟨l, hl, hlast⟩
  have := slist_chain_unique _ _ _ _ hl hc
  subst this
  exact absurd hlast (by decide)

/-- The general form of the defect at the list [1, 2]. -/
theorem slist_del_tail_null_witness :
    slist_wf slist_two [1, 2] ∧ [1, 2].getLast? = some 2 ∧ 2 ≤ [1, 2].length ∧
    [1, 2].length < 3 ∧
    ∃ h', slist_del 3 2 slist_two = some h' ∧ h'.first ≠ none ∧ h'.last = none ∧
      slist_chain h'.next h'.first [1, 2].dropLast :=
  ⟨slist_two_wf, rfl, by decide, by decide,
    slist_del_tail_null slist_two [1, 2] 2 3 slist_two_wf rfl (by decide) (by decide)⟩


theorem slist_chain_insert (next : Nat → Option Nat) (pos n : Nat) (l2 : List Nat) :
    ∀ l1 p, slist_chain next p (l1 ++ pos :: l2) → n ∉ l1 ++ pos :: l2 →
      slist_chain (Function.update (Function.update next n (next pos)) pos (some n)) p
        (l1 ++ pos :: n :: l2) := by
  intro l1
  induction l1 with
  | nil =>
    intro p hc hn
    have hnd := slist_chain_nodup next _ _ hc
    rw [List.nil_append] at hc hn hnd ⊢
    rw [slist_chain_cons] at hc
    have hnp : n ≠ pos := fun hh => hn (hh ▸ List.mem_cons_self _ _)
    have hn2 : n ∉ l2 := fun hh => hn (List.mem_cons_of_mem _ hh)
    have hp2 : pos ∉ l2 := (List.nodup_cons.mp hnd).1
    rw [slist_chain_cons, slist_chain_cons, Function.update_same, Function.update_noteq hnp,
      Function.update_same]
    exact ⟨hc.1, rfl, slist_chain_frame _ _ _ _ _ hp2 (slist_chain_frame _ _ _ _ _ hn2 hc.2)⟩
  | cons a l1 ih =>
    intro p hc hn
    have hnd := slist_chain_nodup next _ _ hc
    rw [List.cons_append] at hc hn hnd ⊢
    rw [slist_chain_cons] at hc ⊢
    have han : a ≠ n := fun hh => hn (hh ▸ List.mem_cons_self _ _)
    have hap : a ≠ pos := by
      intro hh
      exact (List.nodup_cons.mp hnd).1 (hh ▸ List.mem_append_right _ (List.mem_cons_self _ _))
    rw [Function.update_noteq hap, Function.update_noteq han]
    exact ⟨hc.1, ih _ hc.2 (fun hh => hn (List.mem_cons_of_mem _ hh))⟩

/-- Function `slist_add_after` keeps a list well-formed: a node `n` that is not in the list
is linked right behind `pos`, and `last` follows when `pos` was the last node. -/
theorem slist_add_after_wf (h : slist_head) (l1 l2 : List Nat) (pos n : Nat)
    (hwf : slist_wf h (l1 ++ pos :: l2)) (hn : n ∉ l1 ++ pos :: l2) :
    slist_wf (slist_add_after pos n h) (l1 ++ pos :: n :: l2) := by
  obtain ⟨hc, hlast⟩ := hwf
  have hnd := slist_chain_nodup _ _ _ hc
  have hchain := slist_chain_insert h.next pos n l2 l1 _ hc hn
  have hnp : n ≠ pos := fun hh => hn (hh ▸ List.mem_append_right _ (List.mem_cons_self _ _))
  unfold slist_add_after
  simp only
  cases l2 with
  | nil =>
    have hl : h.last = some pos := by rw [hlast]; simp
    rw [if_pos hl]
    exact ⟨hchain, by simp⟩
  | cons b l2 =>
    have hp2 : pos ∉ b :: l2 := (List.nodup_cons.mp (List.nodup_append.mp hnd).2.1).1
    have hl : h.last = (b :: l2).getLast? := by
      rw [hlast, List.getLast?_append_of_ne_nil _ (by simp), List.getLast?_cons_cons]
    have hne : h.last ≠ some pos := by
      rw [hl]
      intro hh
      exact hp2 (List.mem_of_getLast?_eq_some hh)
    rw [if_neg hne]
    refine ⟨hchain, ?_⟩
    show h.last = _
    rw [hl, List.getLast?_append_of_ne_nil _ (by simp), List.getLast?_cons_cons,
      List.getLast?_cons_cons]

/-! ## Both structures hold the same nodes -/

/-- C1 (sync invariant): in every state reachable from `lru_cache_create` by get and put
calls, failed puts included, the nodes linked into the hash buckets are exactly the nodes
linked into the recency list, each of them once in either structure and each of them
allocated (no freed node stays linked anywhere); so the keys met through the buckets are
exactly the keys met through the recency list, and `count` is the length of the recency
list and the number of nodes in the chains. -/
theorem sync_invariant (capacity bucket_size : Nat) (c : lru_cache)
    (h : Reachable capacity bucket_size c) :
    (∀ k, k ∈ bucket_keys c ↔ k ∈ lru_keys c) ∧ c.count = c.lru_head.length ∧
    (∀ a, a ∈ c.buckets.flatten ↔ a ∈ c.lru_head) ∧
    c.buckets.flatten.Nodup ∧ c.lru_head.Nodup ∧
    c.count = c.buckets.flatten.length ∧
    (∀ a, a ∈ c.buckets.flatten → ∃ n, c.nodes a = some n) ∧
    (∀ a, a ∈ c.lru_head → ∃ n, c.nodes a = some n) := by
  have hw := reachable_wf h
  have hperm : c.buckets.flatten.Perm c.lru_head :=
    (List.perm_ext_iff_of_nodup (flatten_nodup hw) hw.nodup).mpr (mem_flatten_iff hw)
  refine ⟨?_, hw.count_eq, mem_flatten_iff hw, flatten_nodup hw, hw.nodup, ?_, ?_, hw.live⟩
  · intro k
    unfold bucket_keys
    rw [mem_keys_of, mem_keys]
    constructor
    · rintro ⟨a, ha, n, hn, hk⟩
      exact ⟨a, (mem_flatten_iff hw a).mp ha, n, hn, hk⟩
    · rintro ⟨a, ha, n, hn, hk⟩
      exact ⟨a, (mem_flatten_iff hw a).mpr ha, n, hn, hk⟩
  · rw [hw.count_eq, hperm.length_eq]
  · intro a ha
    exact hw.live a ((mem_flatten_iff hw a).mp ha)

/-- The sync invariant of C1 in the state left by a put that evicted "A" (node 100) and
then failed to allocate: node 100 is freed and in neither structure. -/
theorem sync_invariant_witness :
    Reachable 2 16 demo2_evicted ∧
    demo2_evicted.buckets.flatten = [101] ∧ demo2_evicted.lru_head = [101] ∧
    demo2.buckets.flatten = [100, 101] ∧ demo2_evicted.nodes 100 = none ∧
    ((∀ k, k ∈ bucket_keys demo2_evicted ↔ k ∈ lru_keys demo2_evicted) ∧
      demo2_evicted.count = demo2_evicted.lru_head.length ∧
      (∀ a, a ∈ demo2_evicted.buckets.flatten ↔ a ∈ demo2_evicted.lru_head) ∧
      demo2_evicted.buckets.flatten.Nodup ∧ demo2_evicted.lru_head.Nodup ∧
      demo2_evicted.count = demo2_evicted.buckets.flatten.length ∧
      (∀ a, a ∈ demo2_evicted.buckets.flatten → ∃ n, demo2_evicted.nodes a = some n) ∧
      (∀ a, a ∈ demo2_evicted.lru_head → ∃ n, demo2_evicted.nodes a = some n)) :=
  have hr : Reachable 2 16 demo2_evicted :=
    Reachable.put demo2 keyC 30 .node_null (-1) demo2_evicted demo2_reachable
      (malloc_valid_of keyC (show lru_evict demo2 = some demo2_evicted from rfl)
        (fun a ha => by cases ha)) rfl
  ⟨hr, by decide, by decide, by decide, rfl, sync_invariant 2 16 demo2_evicted hr⟩

/-- The cache left by a successful put of a new key at `count == capacity`, field by
field. -/
theorem put_new_full_state {c c' : lru_cache} (hw : WF c) (hbs : c.bucket_size < 2 ^ 32)
    {k : Key} (hk : Absent c k) (hfull : c.count = c.capacity) {v : Int} {mem : Malloc}
    (hp : lru_cache_put c k v mem = some (0, c')) :
    ∃ t a, c.lru_head.getLast? = some t ∧ t ∈ c.lru_head ∧ mem = .ok a ∧
      c'.nodes = Function.update (Function.update c.nodes t none) a
        (some { key := k, value := v }) ∧
      ∀ i, c'.buckets.getD i [] =
        if hash_function k % c.bucket_size = i then a :: (c.buckets.getD i []).erase t
        else (c.buckets.getD i []).erase t := by
  obtain ⟨c1, he⟩ := evict_some hw
  rw [put_new hw hk he] at hp
  rcases evict_cases hw he with ⟨hlt, _⟩ | ⟨_, t, ht, htm, rfl⟩
  · omega
  · cases mem with
    | node_null => simp at hp
    | key_null a => simp at hp
    | ok a =>
      simp only [Option.some.injEq, Prod.mk.injEq, true_and] at hp
      subst hp
      refine ⟨t, a, ht, htm, rfl, rfl, ?_⟩
      have hidx : (hash_function k % c.bucket_size) % 2 ^ 32 = hash_function k % c.bucket_size :=
        Nat.mod_eq_of_lt (lt_trans (Nat.mod_lt _ hw.bs_pos) hbs)
      have hf : ∀ i, (c.buckets.map (fun h => if t ∈ h then hlist_del t h else h)).getD i [] =
          (c.buckets.getD i []).erase t := by
        intro i
        rw [getD_map_nil _ (by simp)]
        split
        · rfl
        · rename_i hnm
          exact (List.erase_of_not_mem hnm).symm
      have hlen : hash_function k % c.bucket_size <
          (c.buckets.map (fun h => if t ∈ h then hlist_del t h else h)).length := by
        rw [List.length_map, hw.len]
        exact Nat.mod_lt _ hw.bs_pos
      intro i
      show ((c.buckets.map (fun h => if t ∈ h then hlist_del t h else h)).set
        ((hash_function k % c.bucket_size) % 2 ^ 32)
        (hlist_add_head a ((c.buckets.map (fun h => if t ∈ h then hlist_del t h else h)).getD
          ((hash_function k % c.bucket_size) % 2 ^ 32) []))).getD i [] = _
      rw [hidx]
      by_cases hi : hash_function k % c.bucket_size = i
      · rw [if_pos hi, ← hi, getD_set_eq _ _ _ hlen, hf]
        rfl
      · rw [if_neg hi, getD_set_ne _ _ _ _ hi, hf]

/-- C3 (eviction correctness): in a reachable state with `count == capacity`, a successful
put of a key that is not present removes exactly one entry, the one at the tail of the
recency list (`lru_head.prev`) before the call: that node is unlinked from the recency list
and from its bucket chain and freed, the new node is linked at the front of the list and at
the head of the chain of its hash, and every other chain keeps its nodes in order;
afterwards a get of the evicted key misses and a get of every other previously present key
hits. -/
theorem eviction_correct (capacity bucket_size : Nat) (c : lru_cache)
    (h : Reachable capacity bucket_size c) (hfull : c.count = c.capacity)
    (k : Key) (v : Int) (mem : Malloc) (c' : lru_cache) (hk : k ∉ lru_keys c)
    (hm : malloc_valid c k mem) (hp : lru_cache_put c k v mem = some (0, c')) :
    ∃ t e a, c.lru_head.getLast? = some t ∧ entry_at c t = some e ∧
      (lru_entries c).getLast? = some e ∧
      c'.lru_head = a :: c.lru_head.dropLast ∧
      lru_entries c' = (k, v) :: (lru_entries c).dropLast ∧
      (lru_entries c').length = (lru_entries c).length ∧
      (∀ v0, (lru_cache_get c' e.1 v0).ret = 0) ∧
      (∀ k', k' ∈ lru_keys c → k' ≠ e.1 → ∀ v0, (lru_cache_get c' k' v0).ret = 1) ∧
      t ∈ c.buckets.getD (hash_function e.1 % c.bucket_size) [] ∧
      c'.nodes = Function.update (Function.update c.nodes t none) a
        (some { key := k, value := v }) ∧
      (t ≠ a → c'.nodes t = none ∧ t ∉ c'.buckets.flatten ∧ t ∉ c'.lru_head) ∧
      (∀ i, c'.buckets.getD i [] =
        if hash_function k % c.bucket_size = i then a :: (c.buckets.getD i []).erase t
        else (c.buckets.getD i []).erase t) ∧
      (∀ x, x ∈ c'.buckets.flatten ↔ x = a ∨ (x ∈ c.buckets.flatten ∧ x ≠ t)) ∧
      c'.buckets.flatten.Nodup ∧ c'.count = c.count := by
  have hw := reachable_wf h
  have hbs : c.bucket_size < 2 ^ 32 := by
    rw [(reachable_sizes h).2]; exact reachable_bucket_lt h
  obtain ⟨hw', hent, hcnt, a, hmem, hhead⟩ := put_new_ok hw (absent_iff.mpr hk) hm hp
  obtain ⟨t, a', ht, htm, hmem', hnodes, hchains⟩ :=
    put_new_full_state hw hbs (absent_iff.mpr hk) hfull hp
  have haa : a = a' := by
    rw [hmem] at hmem'
    exact Malloc.ok.inj hmem'
  subst haa
  rw [if_pos hfull] at hent hhead
  have hpos : 0 < c.lru_head.length := List.length_pos_of_mem htm
  have hne : c.lru_head ≠ [] := List.ne_nil_of_length_pos hpos
  obtain ⟨n, hn⟩ := hw.live t htm
  have hlast : (lru_entries c).getLast? = some (n.key, n.value) := by
    unfold lru_entries
    have hsplit := List.dropLast_append_getLast hne
    have hg : c.lru_head.getLast hne = t := by
      rw [List.getLast?_eq_getLast _ hne] at ht
      exact Option.some.inj ht
    rw [hg] at hsplit
    conv_lhs => rw [← hsplit]
    rw [List.filterMap_append]
    simp [entry_at_some hn]
  have hklast : (lru_keys c).getLast? = some n.key := by
    unfold lru_keys
    rw [List.getLast?_map, hlast]; rfl
  have hkeys' : lru_keys c' = k :: (lru_keys c).dropLast := by
    unfold lru_keys
    rw [hent, List.map_cons, List.map_dropLast]
  have hlen : 0 < (lru_entries c).length := by rw [entries_length hw]; exact hpos
  have hidx : ∀ key : Key, (hash_function key % c.bucket_size) % 2 ^ 32 =
      hash_function key % c.bucket_size := fun key =>
    Nat.mod_eq_of_lt (lt_trans (Nat.mod_lt _ hw.bs_pos) hbs)
  have hdrop : ∀ x, x ∈ c.lru_head.dropLast ↔ x ∈ c.lru_head ∧ x ≠ t := by
    intro x
    rw [← erase_getLast _ _ hw.nodup ht, List.Nodup.mem_erase_iff hw.nodup]
    exact and_comm
  have hflat : ∀ x, x ∈ c'.buckets.flatten ↔ x = a ∨ (x ∈ c.buckets.flatten ∧ x ≠ t) := by
    intro x
    rw [mem_flatten_iff hw' x, hhead, List.mem_cons, hdrop, mem_flatten_iff hw x]
  refine ⟨t, (n.key, n.value), a, ht, entry_at_some hn, hlast, hhead,
    hent, ?_, ?_, ?_, ?_, hnodes, ?_, hchains, hflat, flatten_nodup hw', ?_⟩
  · rw [hent, List.length_cons, List.length_dropLast]; omega
  · intro v0
    apply get_ret_absent hw'
    rw [hkeys', List.mem_cons]
    rintro (hnk | hdl)
    · exact hk (hnk ▸ List.mem_of_getLast?_eq_some hklast)
    · exact not_mem_dropLast_of_getLast _ _ (keys_nodup hw) hklast hdl
  · intro k' hk' hne' v0
    apply get_ret_present hw'
    rw [hkeys']
    exact List.mem_cons_of_mem _ (mem_dropLast_of_ne_getLast _ _ _ hklast hk' hne')
  · show t ∈ c.buckets.getD (hash_function n.key % c.bucket_size) []
    rw [← hidx]
    exact (hw.chain_mem _ t).mpr ⟨htm, n, hn, rfl⟩
  · intro hta
    refine ⟨?_, ?_, ?_⟩
    · rw [hnodes, Function.update_noteq hta, Function.update_same]
    · rw [hflat]
      rintro (hx | ⟨_, hx⟩)
      · exact hta hx
      · exact hx rfl
    · rw [hhead, List.mem_cons, hdrop]
      rintro (hx | ⟨_, hx⟩)
      · exact hta hx
      · exact hx rfl
  · rw [hcnt, hfull]
    exact Nat.min_eq_right (Nat.le_succ _)

theorem demo4_valid : malloc_valid demo2 keyC (.ok 102) :=
  malloc_valid_of keyC (show lru_evict demo2 = some demo2_evicted from rfl)
    (fun a ha => by cases ha; rfl)

/-- Eviction (C3) at the full cache [B, A]: the put of "C" at the new address 102 evicts
"A", whose node 100 leaves the chain of bucket 6 and is freed. -/
theorem eviction_correct_witness :
    Reachable 2 16 demo2 ∧ demo2.count = demo2.capacity ∧ keyC ∉ lru_keys demo2 ∧
    malloc_valid demo2 keyC (.ok 102) ∧
    lru_cache_put demo2 keyC 30 (.ok 102) = some (0, demo4) ∧
    demo2.buckets.flatten = [100, 101] ∧ demo4.buckets.flatten = [101, 102] ∧
    demo4.nodes 100 = none ∧
    ∃ t e a, demo2.lru_head.getLast? = some t ∧ entry_at demo2 t = some e ∧
      (lru_entries demo2).getLast? = some e ∧
      demo4.lru_head = a :: demo2.lru_head.dropLast ∧
      lru_entries demo4 = (keyC, 30) :: (lru_entries demo2).dropLast ∧
      (lru_entries demo4).length = (lru_entries demo2).length ∧
      (∀ v0, (lru_cache_get demo4 e.1 v0).ret = 0) ∧
      (∀ k', k' ∈ lru_keys demo2 → k' ≠ e.1 → ∀ v0, (lru_cache_get demo4 k' v0).ret = 1) ∧
      t ∈ demo2.buckets.getD (hash_function e.1 % demo2.bucket_size) [] ∧
      demo4.nodes = Function.update (Function.update demo2.nodes t none) a
        (some { key := keyC, value := 30 }) ∧
      (t ≠ a → demo4.nodes t = none ∧ t ∉ demo4.buckets.flatten ∧ t ∉ demo4.lru_head) ∧
      (∀ i, demo4.buckets.getD i [] =
        if hash_function keyC % demo2.bucket_size = i then
          a :: (demo2.buckets.getD i []).erase t
        else (demo2.buckets.getD i []).erase t) ∧
      (∀ x, x ∈ demo4.buckets.flatten ↔ x = a ∨ (x ∈ demo2.buckets.flatten ∧ x ≠ t)) ∧
      demo4.buckets.flatten.Nodup ∧ demo4.count = demo2.count :=
  ⟨demo2_reachable, rfl, by decide, demo4_valid, rfl, by decide, by decide, rfl,
    eviction_correct 2 16 demo2 demo2_reachable rfl keyC 30 (.ok 102) demo4 (by decide)
      demo4_valid rfl⟩

/-! ## The delete of the hash map unlinks the node -/

theorem flatten_length_erase (a : Nat) :
    ∀ l : List (List Nat), l.flatten.Nodup → a ∈ l.flatten →
      (l.map (fun h => h.erase a)).flatten.length + 1 = l.flatten.length := by
  intro l
  induction l with
  | nil => intro _ ha; simp at ha
  | cons x l ih =>
    intro hnd ha
    rw [List.flatten_cons] at hnd ha
    rw [List.map_cons, List.flatten_cons, List.flatten_cons, List.length_append,
      List.length_append]
    have hdis := (List.nodup_append.mp hnd)
    by_cases hax : a ∈ x
    · have hal : a ∉ l.flatten := fun hh => hdis.2.2 hax hh
      have hid : l.map (fun h => h.erase a) = l := by
        conv_rhs => rw [← List.map_id l]
        apply List.map_congr_left
        intro y hy
        exact List.erase_of_not_mem (fun hh => hal (List.mem_flatten.mpr ⟨y, hy, hh⟩))
      rw [hid, List.length_erase_of_mem hax]
      have := List.length_pos_of_mem hax
      omega
    · have hal : a ∈ l.flatten := by
        rcases List.mem_append.mp ha with hh | hh
        · exact absurd hh hax
        · exact hh
      rw [List.erase_of_not_mem hax]
      have := ih hdis.2.1 hal
      omega

/-- C15 (hashmap delete): in a map reachable from `hash_map_create`, `hash_map_delete(map,
k)` unlinks the node of `k` from its bucket chain and frees it: every chain is the chain
before without that node, the number of nodes drops by one, no other node is touched and no
freed node stays linked; afterwards `hash_map_get(map, k)` returns 0 and leaves `*value`
alone and `hash_map_get` on every other key returns what it returned before; if `k` was not
present the map is unchanged. -/
theorem hash_delete_removes (size : Nat) (m : hash_map) (h : HashReachable size m) (k : Key) :
    (∀ v0, hash_map_get (hash_map_delete m k) k v0 = (0, v0)) ∧
    (∀ k', k' ≠ k → ∀ v0,
      hash_map_get (hash_map_delete m k) k' v0 = hash_map_get m k' v0) ∧
    ((hash_map_get m k 0).1 = 0 → hash_map_delete m k = m) ∧
    (∀ a, hash_map_lookup m k = some a →
      (hash_map_delete m k).nodes = Function.update m.nodes a none ∧
      (∀ i, (hash_map_delete m k).buckets.getD i [] = (m.buckets.getD i []).erase a) ∧
      a ∈ m.buckets.getD (hash_function k % m.size) [] ∧
      a ∉ (hash_map_delete m k).buckets.flatten ∧
      hash_map_count (hash_map_delete m k) + 1 = hash_map_count m) ∧
    (∀ b, b ∈ (hash_map_delete m k).buckets.flatten →
      b ∈ m.buckets.flatten ∧ ∃ n, (hash_map_delete m k).nodes b = some n) ∧
    k ∉ hash_map_keys (hash_map_delete m k) := by
  have hw := hash_reachable_wf h
  have hw' := hwf_delete hw k
  obtain ⟨hget, hother, habsent⟩ := hash_delete_gets size m h k
  have hsize : m.size < 2 ^ 32 := by
    clear hget hother habsent hw hw'
    induction h with
    | create mm mb m hs hcr =>
      obtain ⟨_, rfl⟩ := hash_create_eq hcr
      exact hs
    | insert m key value mem _ _ ih =>
      have : (hash_map_insert m key value mem).2.size = m.size := by
        unfold hash_map_insert
        split
        · rfl
        · cases mem <;> rfl
      rw [this]; exact ih
    | delete m key _ ih =>
      have : (hash_map_delete m key).size = m.size := by
        unfold hash_map_delete
        split <;> rfl
      rw [this]; exact ih
  have hidx : (hash_function k % m.size) % 2 ^ 32 = hash_function k % m.size :=
    Nat.mod_eq_of_lt (lt_trans (Nat.mod_lt _ hw.size_pos) hsize)
  have hallocated : ∀ b, b ∈ (hash_map_delete m k).buckets.flatten →
      ∃ n, (hash_map_delete m k).nodes b = some n := by
    intro b hb
    obtain ⟨i, hi⟩ := (mem_flatten_iff_getD _ b).mp hb
    obtain ⟨n, hn, _⟩ := hw'.chain_ok i b hi
    exact ⟨n, hn⟩
  refine ⟨hget, hother, habsent, ?_, ?_, ?_⟩
  · intro a hl
    obtain ⟨ham, n, hn, hnk⟩ := hash_lookup_some hl
    have hd : hash_map_delete m k = { m with
        buckets := m.buckets.map (hlist_del a)
        nodes := Function.update m.nodes a none } := by
      unfold hash_map_delete; rw [hl]
    have hf : ∀ i, (m.buckets.map (hlist_del a)).getD i [] = (m.buckets.getD i []).erase a := by
      intro i
      rw [getD_map_nil _ (by simp [hlist_del])]
      rfl
    have hin : a ∈ m.buckets.flatten := (mem_flatten_iff_getD _ a).mpr ⟨_, ham⟩
    rw [hd]
    refine ⟨rfl, hf, ?_, ?_, ?_⟩
    · rw [← hidx]; exact ham
    · intro hmem
      obtain ⟨i, hi⟩ := (mem_flatten_iff_getD _ a).mp hmem
      have hi' : a ∈ (m.buckets.map (hlist_del a)).getD i [] := hi
      rw [hf, List.Nodup.mem_erase_iff (hw.chain_nodup i)] at hi'
      exact hi'.1 rfl
    · exact flatten_length_erase a m.buckets (hash_flatten_nodup hw) hin
  · intro b hb
    refine ⟨?_, hallocated b hb⟩
    cases hl : hash_map_lookup m k with
    | none =>
      have hd : hash_map_delete m k = m := by unfold hash_map_delete; rw [hl]
      rw [hd] at hb
      exact hb
    | some a =>
      have hd : hash_map_delete m k = { m with
          buckets := m.buckets.map (hlist_del a)
          nodes := Function.update m.nodes a none } := by
        unfold hash_map_delete; rw [hl]
      rw [hd] at hb
      obtain ⟨i, hi⟩ := (mem_flatten_iff_getD _ b).mp hb
      have hi' : b ∈ (m.buckets.map (hlist_del a)).getD i [] := hi
      rw [getD_map_nil _ (by simp [hlist_del])] at hi'
      exact (mem_flatten_iff_getD _ b).mpr ⟨i, List.mem_of_mem_erase hi'⟩
  · intro hk
    unfold hash_map_keys at hk
    obtain ⟨b, hb, hbk⟩ := List.mem_filterMap.mp hk
    obtain ⟨i, hi⟩ := (mem_flatten_iff_getD _ b).mp hb
    obtain ⟨n, hn, hin⟩ := hw'.chain_ok i b hi
    rw [hn] at hbk
    simp only [Option.map_some', Option.some.injEq] at hbk
    have hnone : hash_map_lookup (hash_map_delete m k) k = none :=
      (hash_get_ret k 0).1.mp (by rw [hget 0])
    rw [hbk] at hin
    rw [← hin] at hi
    exact hash_lookup_none hnone b hi n hn hbk

/-- The delete of "B" (C15) from the map that holds "A" (node 1) and "B" (node 2): node 2
leaves its chain and is freed. -/
theorem hash_delete_removes_witness :
    HashReachable 16 hmap2 ∧
    hmap2.buckets.flatten = [1, 2] ∧ hmap3.buckets.flatten = [1] ∧ hmap3.nodes 2 = none ∧
    hash_map_lookup hmap2 keyB = some 2 ∧
    hash_map_get hmap2 keyB 0 = (1, 30) ∧
    hash_map_get (hash_map_delete hmap2 keyB) keyA 0 = (1, 25) ∧
    ((∀ v0, hash_map_get (hash_map_delete hmap2 keyB) keyB v0 = (0, v0)) ∧
    (∀ k', k' ≠ keyB → ∀ v0,
      hash_map_get (hash_map_delete hmap2 keyB) k' v0 = hash_map_get hmap2 k' v0) ∧
    ((hash_map_get hmap2 keyB 0).1 = 0 → hash_map_delete hmap2 keyB = hmap2) ∧
    (∀ a, hash_map_lookup hmap2 keyB = some a →
      (hash_map_delete hmap2 keyB).nodes = Function.update hmap2.nodes a none ∧
      (∀ i, (hash_map_delete hmap2 keyB).buckets.getD i [] =
        (hmap2.buckets.getD i []).erase a) ∧
      a ∈ hmap2.buckets.getD (hash_function keyB % hmap2.size) [] ∧
      a ∉ (hash_map_delete hmap2 keyB).buckets.flatten ∧
      hash_map_count (hash_map_delete hmap2 keyB) + 1 = hash_map_count hmap2) ∧
    (∀ b, b ∈ (hash_map_delete hmap2 keyB).buckets.flatten →
      b ∈ hmap2.buckets.flatten ∧ ∃ n, (hash_map_delete hmap2 keyB).nodes b = some n) ∧
    keyB ∉ hash_map_keys (hash_map_delete hmap2 keyB)) :=
  ⟨hmap2_reachable, by decide, by decide, rfl, rfl, rfl, rfl,
    hash_delete_removes 16 hmap2 hmap2_reachable keyB⟩

end Ludtm
